import Mathlib

/-!
Sparse (compressed-column) matrix multiplication task.

Shallow embedding of `tasks/omp/bakhtiarov_a_matrix_mult_css_omp/src/ccs_mat_multy.cpp`.

* Raw buffers and `std::vector`s are lists; every subscript is a checked read
  (`xs[i]?`), and a function returns `none` as soon as a subscript is outside
  its buffer (undefined behaviour in the source).
* A call that throws does not return either: `pre_processing` returns `none`
  when its new-expression `new double[n]{0}` is evaluated with `n = 0`.
* `double` arithmetic is taken exactly: the element type `α` is arbitrary and
  the theorems assume the semiring laws.
* `int` counters and sizes are natural numbers (no wrap-around is modelled).
* `internal_order_test()` belongs to the task framework and has no effect on
  the data, it is left out.
-/

namespace CcsMatMulty

/-- The `ppc::core::TaskData` record the task reads its buffers and sizes from. -/
structure TaskData (α : Type) where
  inputs : List (List α)
  inputs_count : List Nat
  outputs : List (List α)
  outputs_count : List Nat
deriving DecidableEq

/-- The three growing vectors of one compressed-column matrix together with the
local counter `notNullNumbers` of the encoding loops of `pre_processing`. -/
structure Ccs (α : Type) where
  values : List α
  rows : List Nat
  colPtr : List Nat
  notNullNumbers : Nat
deriving DecidableEq

/-- Body of the inner encoding loop (`for i`): lines 25-30 (and 39-44). The
element index is `i * numRows + j`, as in the source. -/
def encodeRow {α : Type} [Zero α] [DecidableEq α]
    (matrix : List α) (numRows j : Nat) (s : Ccs α) (i : Nat) : Option (Ccs α) :=
  let index := i * numRows + j
  match matrix[index]? with
  | none => none
  | some x =>
    if x ≠ 0 then
      some { s with values := s.values ++ [x], rows := s.rows ++ [i],
                    notNullNumbers := s.notNullNumbers + 1 }
    else some s

/-- Body of the outer encoding loop (`for j`): lines 23-31 (and 37-45). -/
def encodeColumn {α : Type} [Zero α] [DecidableEq α]
    (matrix : List α) (numRows : Nat) (s : Ccs α) (j : Nat) : Option (Ccs α) :=
  (List.range numRows).foldlM (encodeRow matrix numRows j)
    { s with colPtr := s.colPtr ++ [s.notNullNumbers] }

/-- One encoding block of `pre_processing` (lines 21-33, and again 35-47): the
counter starts at 0, the entries are pushed onto the vectors the task already
holds, and the final count is pushed onto `colPtr`. -/
def encode {α : Type} [Zero α] [DecidableEq α]
    (matrix : List α) (numRows numCols : Nat) (values : List α) (rows colPtr : List Nat) :
    Option (Ccs α) :=
  ((List.range numCols).foldlM (encodeColumn matrix numRows) ⟨values, rows, colPtr, 0⟩).map
    fun s => { s with colPtr := s.colPtr ++ [s.notNullNumbers] }

/-- The members of `SparseOmpMatrixMultiSequential`. -/
structure SparseOmpMatrixMultiSequential (α : Type) where
  taskData : TaskData α
  numRows1 : Nat
  numCols1 : Nat
  numRows2 : Nat
  numCols2 : Nat
  result : List α
  values1 : List α
  rows1 : List Nat
  colPtr1 : List Nat
  values2 : List α
  rows2 : List Nat
  colPtr2 : List Nat
deriving DecidableEq

/-- The members of `SparseOmpMatrixMultiParallel` (the same as the sequential ones). -/
structure SparseOmpMatrixMultiParallel (α : Type) where
  taskData : TaskData α
  numRows1 : Nat
  numCols1 : Nat
  numRows2 : Nat
  numCols2 : Nat
  result : List α
  values1 : List α
  rows1 : List Nat
  colPtr1 : List Nat
  values2 : List α
  rows2 : List Nat
  colPtr2 : List Nat
deriving DecidableEq

/-- A task object right after construction: empty vectors, nothing allocated. -/
def SparseOmpMatrixMultiSequential.fresh {α : Type} (taskData : TaskData α) :
    SparseOmpMatrixMultiSequential α :=
  { taskData := taskData, numRows1 := 0, numCols1 := 0, numRows2 := 0, numCols2 := 0,
    result := [], values1 := [], rows1 := [], colPtr1 := [],
    values2 := [], rows2 := [], colPtr2 := [] }

/-- A parallel task object right after construction. -/
def SparseOmpMatrixMultiParallel.fresh {α : Type} (taskData : TaskData α) :
    SparseOmpMatrixMultiParallel α :=
  { taskData := taskData, numRows1 := 0, numCols1 := 0, numRows2 := 0, numCols2 := 0,
    result := [], values1 := [], rows1 := [], colPtr1 := [],
    values2 := [], rows2 := [], colPtr2 := [] }

/-- Method `SparseOmpMatrixMultiSequential::validation` (lines 52-57); the three
comparisons are evaluated left to right and `&&` stops at the first false one. -/
def SparseOmpMatrixMultiSequential.validation {α : Type}
    (t : SparseOmpMatrixMultiSequential α) : Option Bool := do
  let ic1 ← t.taskData.inputs_count[1]?
  let ic2 ← t.taskData.inputs_count[2]?
  if ic1 ≠ ic2 then pure false else
  let oc0 ← t.taskData.outputs_count[0]?
  let ic0 ← t.taskData.inputs_count[0]?
  if oc0 ≠ ic0 then pure false else
  let oc1 ← t.taskData.outputs_count[1]?
  let ic3 ← t.taskData.inputs_count[3]?
  pure (decide (oc1 = ic3))

/-- Method `SparseOmpMatrixMultiParallel::validation` (lines 134-139); the three
comparisons are evaluated left to right and `&&` stops at the first false one. -/
def SparseOmpMatrixMultiParallel.validation {α : Type}
    (t : SparseOmpMatrixMultiParallel α) : Option Bool := do
  let ic1 ← t.taskData.inputs_count[1]?
  let ic2 ← t.taskData.inputs_count[2]?
  if ic1 ≠ ic2 then pure false else
  let oc0 ← t.taskData.outputs_count[0]?
  let ic0 ← t.taskData.inputs_count[0]?
  if oc0 ≠ ic0 then pure false else
  let oc1 ← t.taskData.outputs_count[1]?
  let ic3 ← t.taskData.inputs_count[3]?
  pure (decide (oc1 = ic3))

/-- The new-expression `new double[n]{0}` (lines 19 and 101): an array of `n`
zeros. For `n = 0` the initialiser `{0}` has more clauses than the array has
elements and the expression throws `std::bad_array_new_length`; the call that
evaluates it does not return (`none`). -/
def newZeroed {α : Type} [Zero α] (n : Nat) : Option (List α) :=
  if n = 0 then none else some (List.replicate n 0)

/-- Method `SparseOmpMatrixMultiSequential::pre_processing` (lines 10-50). -/
def SparseOmpMatrixMultiSequential.pre_processing {α : Type} [Zero α] [DecidableEq α]
    (t : SparseOmpMatrixMultiSequential α) : Option (SparseOmpMatrixMultiSequential α) := do
  let matrix1 ← t.taskData.inputs[0]?
  let matrix2 ← t.taskData.inputs[1]?
  let numRows1 ← t.taskData.inputs_count[0]?
  let numCols1 ← t.taskData.inputs_count[1]?
  let numRows2 ← t.taskData.inputs_count[2]?
  let numCols2 ← t.taskData.inputs_count[3]?
  let result ← newZeroed (numRows1 * numCols2)
  let m1 ← encode matrix1 numRows1 numCols1 t.values1 t.rows1 t.colPtr1
  let m2 ← encode matrix2 numRows2 numCols2 t.values2 t.rows2 t.colPtr2
  pure { taskData := t.taskData,
         numRows1 := numRows1, numCols1 := numCols1,
         numRows2 := numRows2, numCols2 := numCols2,
         result := result,
         values1 := m1.values, rows1 := m1.rows, colPtr1 := m1.colPtr,
         values2 := m2.values, rows2 := m2.rows, colPtr2 := m2.colPtr }

/-- The statement `result[idx] += v` (lines 71 and 154), with its bounds check. -/
def addAt {α : Type} [Add α] (result : List α) (idx : Nat) (v : α) : Option (List α) := do
  let cur ← result[idx]?
  pure (result.set idx (cur + v))

/-- Body of the innermost loop of `run` (`for l`, lines 67-71). -/
def SparseOmpMatrixMultiSequential.runInner {α : Type} [Add α] [Mul α]
    (t : SparseOmpMatrixMultiSequential α) (j k : Nat) (result : List α) (l : Nat) :
    Option (List α) := do
  let column2 := j
  let row1 ← t.rows1[l]?
  let val1 ← t.values1[l]?
  let val2 ← t.values2[k]?
  let index := row1 * t.numCols2 + column2
  addAt result index (val1 * val2)

/-- Body of the middle loop of `run` (`for k`, lines 64-72); the loop over `l`
runs from `colPtr1[row2]` while `l < colPtr1[row2 + 1]`. -/
def SparseOmpMatrixMultiSequential.runMiddle {α : Type} [Add α] [Mul α]
    (t : SparseOmpMatrixMultiSequential α) (j : Nat) (result : List α) (k : Nat) :
    Option (List α) := do
  let row2 ← t.rows2[k]?
  let lo ← t.colPtr1[row2]?
  let hi ← t.colPtr1[row2 + 1]?
  (List.range' lo (hi - lo)).foldlM (t.runInner j k) result

/-- Body of the outer loop of `run` (`for j`, lines 63-73); the loop over `k`
runs from `colPtr2[j]` while `k < colPtr2[j + 1]`. -/
def SparseOmpMatrixMultiSequential.runOuter {α : Type} [Add α] [Mul α]
    (t : SparseOmpMatrixMultiSequential α) (result : List α) (j : Nat) :
    Option (List α) := do
  let lo ← t.colPtr2[j]?
  let hi ← t.colPtr2[j + 1]?
  (List.range' lo (hi - lo)).foldlM (t.runMiddle j) result

/-- Method `SparseOmpMatrixMultiSequential::run` (lines 59-77): the outer loop runs
over `j < numCols1`. -/
def SparseOmpMatrixMultiSequential.run {α : Type} [Add α] [Mul α]
    (t : SparseOmpMatrixMultiSequential α) : Option (SparseOmpMatrixMultiSequential α) := do
  let result ← (List.range t.numCols1).foldlM t.runOuter t.result
  pure { t with result := result }

/-- Body of the copy loop of `post_processing` (line 84). -/
def SparseOmpMatrixMultiSequential.copyCell {α : Type}
    (t : SparseOmpMatrixMultiSequential α) (out_ptr : List α) (i : Nat) : Option (List α) := do
  let x ← t.result[i]?
  if i < out_ptr.length then pure (out_ptr.set i x) else none

/-- Method `SparseOmpMatrixMultiSequential::post_processing` (lines 79-90): the
accumulator is copied into `outputs[0]` and then freed. -/
def SparseOmpMatrixMultiSequential.post_processing {α : Type}
    (t : SparseOmpMatrixMultiSequential α) : Option (SparseOmpMatrixMultiSequential α) := do
  let out_ptr ← t.taskData.outputs[0]?
  let out ← (List.range (t.numRows1 * t.numCols2)).foldlM t.copyCell out_ptr
  pure { t with taskData := { t.taskData with outputs := t.taskData.outputs.set 0 out },
                result := [] }

/-- The three stages the tests call after `validation`, in that order. -/
def SparseOmpMatrixMultiSequential.pipeline {α : Type} [Zero α] [Add α] [Mul α] [DecidableEq α]
    (t : SparseOmpMatrixMultiSequential α) : Option (SparseOmpMatrixMultiSequential α) :=
  t.pre_processing.bind fun t1 => t1.run.bind fun t2 => t2.post_processing

/-- A call of `SparseOmpMatrixMultiSequential::validation` as a step on the task:
the returned value and the task after the call. The body (lines 52-57) assigns
to no member and writes through no pointer, so the task is handed back as is. -/
def SparseOmpMatrixMultiSequential.validationCall {α : Type}
    (t : SparseOmpMatrixMultiSequential α) :
    Option (Bool × SparseOmpMatrixMultiSequential α) := do
  let b ← t.validation
  pure (b, t)

/-- A call of `SparseOmpMatrixMultiParallel::validation` as a step on the task
(lines 134-139, no assignment either). -/
def SparseOmpMatrixMultiParallel.validationCall {α : Type}
    (t : SparseOmpMatrixMultiParallel α) :
    Option (Bool × SparseOmpMatrixMultiParallel α) := do
  let b ← t.validation
  pure (b, t)

/-- Method `SparseOmpMatrixMultiParallel::pre_processing` (lines 92-132), the
same statements as the sequential one. -/
def SparseOmpMatrixMultiParallel.pre_processing {α : Type} [Zero α] [DecidableEq α]
    (t : SparseOmpMatrixMultiParallel α) : Option (SparseOmpMatrixMultiParallel α) := do
  let matrix1 ← t.taskData.inputs[0]?
  let matrix2 ← t.taskData.inputs[1]?
  let numRows1 ← t.taskData.inputs_count[0]?
  let numCols1 ← t.taskData.inputs_count[1]?
  let numRows2 ← t.taskData.inputs_count[2]?
  let numCols2 ← t.taskData.inputs_count[3]?
  let result ← newZeroed (numRows1 * numCols2)
  let m1 ← encode matrix1 numRows1 numCols1 t.values1 t.rows1 t.colPtr1
  let m2 ← encode matrix2 numRows2 numCols2 t.values2 t.rows2 t.colPtr2
  pure { taskData := t.taskData,
         numRows1 := numRows1, numCols1 := numCols1,
         numRows2 := numRows2, numCols2 := numCols2,
         result := result,
         values1 := m1.values, rows1 := m1.rows, colPtr1 := m1.colPtr,
         values2 := m2.values, rows2 := m2.rows, colPtr2 := m2.colPtr }

/-- Body of the innermost loop of the parallel `run` (`for l`, lines 150-154). -/
def SparseOmpMatrixMultiParallel.runInner {α : Type} [Add α] [Mul α]
    (t : SparseOmpMatrixMultiParallel α) (j k : Nat) (result : List α) (l : Nat) :
    Option (List α) := do
  let column2 := j
  let row1 ← t.rows1[l]?
  let val1 ← t.values1[l]?
  let val2 ← t.values2[k]?
  let index := row1 * t.numCols2 + column2
  addAt result index (val1 * val2)

/-- Body of the middle loop of the parallel `run` (`for k`, lines 147-155). -/
def SparseOmpMatrixMultiParallel.runMiddle {α : Type} [Add α] [Mul α]
    (t : SparseOmpMatrixMultiParallel α) (j : Nat) (result : List α) (k : Nat) :
    Option (List α) := do
  let row2 ← t.rows2[k]?
  let lo ← t.colPtr1[row2]?
  let hi ← t.colPtr1[row2 + 1]?
  (List.range' lo (hi - lo)).foldlM (t.runInner j k) result

/-- Body of the outer loop of the parallel `run` (`for j`, lines 146-156): one
iteration of the `omp parallel for`. -/
def SparseOmpMatrixMultiParallel.runOuter {α : Type} [Add α] [Mul α]
    (t : SparseOmpMatrixMultiParallel α) (result : List α) (j : Nat) :
    Option (List α) := do
  let lo ← t.colPtr2[j]?
  let hi ← t.colPtr2[j + 1]?
  (List.range' lo (hi - lo)).foldlM (t.runMiddle j) result

/-- Method `SparseOmpMatrixMultiParallel::run` (lines 141-159). The pragma
`omp parallel for` hands the iterations `j = 0 .. numCols1 - 1` of the outer
loop to the workers; `order` is the order in which the iteration bodies take
effect on the accumulator, a rearrangement of `0 .. numCols1 - 1` chosen by the
scheduler. -/
def SparseOmpMatrixMultiParallel.run {α : Type} [Add α] [Mul α]
    (t : SparseOmpMatrixMultiParallel α) (order : List Nat) :
    Option (SparseOmpMatrixMultiParallel α) := do
  let result ← order.foldlM t.runOuter t.result
  pure { t with result := result }

/-- Body of the copy loop of the parallel `post_processing` (line 166). -/
def SparseOmpMatrixMultiParallel.copyCell {α : Type}
    (t : SparseOmpMatrixMultiParallel α) (out_ptr : List α) (i : Nat) : Option (List α) := do
  let x ← t.result[i]?
  if i < out_ptr.length then pure (out_ptr.set i x) else none

/-- Method `SparseOmpMatrixMultiParallel::post_processing` (lines 161-172). -/
def SparseOmpMatrixMultiParallel.post_processing {α : Type}
    (t : SparseOmpMatrixMultiParallel α) : Option (SparseOmpMatrixMultiParallel α) := do
  let out_ptr ← t.taskData.outputs[0]?
  let out ← (List.range (t.numRows1 * t.numCols2)).foldlM t.copyCell out_ptr
  pure { t with taskData := { t.taskData with outputs := t.taskData.outputs.set 0 out },
                result := [] }

/-- The three stages of the parallel task the tests call after `validation`. -/
def SparseOmpMatrixMultiParallel.pipeline {α : Type} [Zero α] [Add α] [Mul α] [DecidableEq α]
    (t : SparseOmpMatrixMultiParallel α) (order : List Nat) :
    Option (SparseOmpMatrixMultiParallel α) :=
  t.pre_processing.bind fun t1 => (t1.run order).bind fun t2 => t2.post_processing

/-- The sequential task with the same members as a parallel task. -/
def SparseOmpMatrixMultiParallel.toSequential {α : Type}
    (t : SparseOmpMatrixMultiParallel α) : SparseOmpMatrixMultiSequential α :=
  { taskData := t.taskData,
    numRows1 := t.numRows1, numCols1 := t.numCols1,
    numRows2 := t.numRows2, numCols2 := t.numCols2,
    result := t.result,
    values1 := t.values1, rows1 := t.rows1, colPtr1 := t.colPtr1,
    values2 := t.values2, rows2 := t.rows2, colPtr2 := t.colPtr2 }

/-- Concatenation of the update lists `g x` for `x` in `l`, none as soon as one
of them is none. -/
def collect {γ δ : Type} (g : γ → Option (List δ)) : List γ → Option (List δ)
  | [] => some []
  | x :: l => (g x).bind fun us => (collect g l).bind fun vs => some (us ++ vs)

/-- The `(index, value)` update of iteration `l` of the innermost loop of `run`,
none when one of its three vector reads is out of range. -/
def opsInner {α : Type} [Mul α]
    (t : SparseOmpMatrixMultiSequential α) (j k l : Nat) : Option (List (Nat × α)) := do
  let row1 ← t.rows1[l]?
  let val1 ← t.values1[l]?
  let val2 ← t.values2[k]?
  pure [(row1 * t.numCols2 + j, val1 * val2)]

/-- The updates of iteration `k` of the middle loop of `run`. -/
def opsMiddle {α : Type} [Mul α]
    (t : SparseOmpMatrixMultiSequential α) (j k : Nat) : Option (List (Nat × α)) := do
  let row2 ← t.rows2[k]?
  let lo ← t.colPtr1[row2]?
  let hi ← t.colPtr1[row2 + 1]?
  collect (opsInner t j k) (List.range' lo (hi - lo))

/-- The updates of iteration `j` of the outer loop of `run`. -/
def opsOuter {α : Type} [Mul α]
    (t : SparseOmpMatrixMultiSequential α) (j : Nat) : Option (List (Nat × α)) := do
  let lo ← t.colPtr2[j]?
  let hi ← t.colPtr2[j + 1]?
  collect (opsMiddle t j) (List.range' lo (hi - lo))

/-- The element the encoding loops read for row `i` of column `j` (index
`i * numRows + j`), 0 when the index is outside the buffer. -/
def cell {α : Type} [Zero α] (matrix : List α) (numRows i j : Nat) : α :=
  matrix.getD (i * numRows + j) 0

/-- The rows of column `j` whose element read by the encoder is not zero. -/
def nzRows {α : Type} [Zero α] [DecidableEq α] (matrix : List α) (numRows j : Nat) : List Nat :=
  (List.range numRows).filter fun i => cell matrix numRows i j ≠ 0

/-- The non-zero elements read by the encoder in column `j`, in row order. -/
def nzVals {α : Type} [Zero α] [DecidableEq α] (matrix : List α) (numRows j : Nat) : List α :=
  (nzRows matrix numRows j).map fun i => cell matrix numRows i j

/-- Number of entries stored for the columns `0 .. j-1`. -/
def offset {α : Type} [Zero α] [DecidableEq α] (matrix : List α) (numRows j : Nat) : Nat :=
  ((List.range j).flatMap (nzRows matrix numRows)).length

/-- Sum of the values that a list of `(index, value)` updates adds to cell `p`. -/
def contrib {α : Type} [Zero α] [Add α] (p : Nat) (us : List (Nat × α)) : α :=
  (us.map fun u => if u.1 = p then u.2 else 0).sum

/-- The `(index, value)` updates the innermost loop of `run` makes for the stored
entry of row `r2` in column `j` of the second matrix. -/
def updatesInner {α : Type} [Zero α] [Mul α] [DecidableEq α]
    (A B : List α) (R1 R2 C2 j r2 : Nat) : List (Nat × α) :=
  (nzRows A R1 r2).map fun r1 => (r1 * C2 + j, cell A R1 r1 r2 * cell B R2 r2 j)

/-- The updates of one iteration `j` of the outer loop of `run`. -/
def updatesColumn {α : Type} [Zero α] [Mul α] [DecidableEq α]
    (A B : List α) (R1 R2 C2 j : Nat) : List (Nat × α) :=
  (nzRows B R2 j).flatMap (updatesInner A B R1 R2 C2 j)

/-- All updates of `run`, in program order, for `bound` outer iterations. -/
def updatesRun {α : Type} [Zero α] [Mul α] [DecidableEq α]
    (A B : List α) (R1 R2 C2 bound : Nat) : List (Nat × α) :=
  (List.range bound).flatMap (updatesColumn A B R1 R2 C2)

/-- The task holds the encodings that `pre_processing` builds on a fresh task
from `A` (`R1 × C1`) and `B` (`R2 × C2`) when all its reads are in range. -/
structure IsEncoded {α : Type} [Zero α] [DecidableEq α]
    (t : SparseOmpMatrixMultiSequential α) (A B : List α) (R1 C1 R2 C2 : Nat) : Prop where
  numRows1_eq : t.numRows1 = R1
  numCols1_eq : t.numCols1 = C1
  numRows2_eq : t.numRows2 = R2
  numCols2_eq : t.numCols2 = C2
  values1_eq : t.values1 = (List.range C1).flatMap (nzVals A R1)
  rows1_eq : t.rows1 = (List.range C1).flatMap (nzRows A R1)
  colPtr1_eq : t.colPtr1 = (List.range (C1 + 1)).map (offset A R1)
  values2_eq : t.values2 = (List.range C2).flatMap (nzVals B R2)
  rows2_eq : t.rows2 = (List.range C2).flatMap (nzRows B R2)
  colPtr2_eq : t.colPtr2 = (List.range (C2 + 1)).map (offset B R2)

/-- The task state holding the encodings of `A` and `B` and a zeroed accumulator. -/
def encodedTask {α : Type} [Zero α] [DecidableEq α]
    (taskData : TaskData α) (A B : List α) (R1 C1 R2 C2 : Nat) :
    SparseOmpMatrixMultiSequential α :=
  { taskData := taskData,
    numRows1 := R1, numCols1 := C1, numRows2 := R2, numCols2 := C2,
    result := List.replicate (R1 * C2) 0,
    values1 := (List.range C1).flatMap (nzVals A R1),
    rows1 := (List.range C1).flatMap (nzRows A R1),
    colPtr1 := (List.range (C1 + 1)).map (offset A R1),
    values2 := (List.range C2).flatMap (nzVals B R2),
    rows2 := (List.range C2).flatMap (nzRows B R2),
    colPtr2 := (List.range (C2 + 1)).map (offset B R2) }

/-- Entry `(i, j)` of the dense triple-loop product of the row-major matrices
`A` (`C1` columns) and `B` (`C1` rows, `C2` columns): the sum over `k < C1` of
`A[i * C1 + k] * B[k * C2 + j]`. -/
def denseEntry {α : Type} [Zero α] [Add α] [Mul α]
    (A B : List α) (C1 C2 i j : Nat) : α :=
  ((List.range C1).map fun k => A.getD (i * C1 + k) 0 * B.getD (k * C2 + j) 0).sum

/-- The column-offset properties of one encoded matrix: length `numCols + 1`,
first element 0, non-decreasing, `colPtr[j]` counts the entries of the columns
before `j`, and the last element is the size of `values` and of `rows`. -/
structure ColPtrInvariant {α : Type} [Zero α] [DecidableEq α]
    (matrix : List α) (numRows numCols : Nat) (values : List α) (rows colPtr : List Nat) :
    Prop where
  length_eq : colPtr.length = numCols + 1
  first_eq : colPtr[0]? = some 0
  monotone : ∀ a b x y : Nat, a ≤ b → colPtr[a]? = some x → colPtr[b]? = some y → x ≤ y
  count_eq : ∀ j : Nat, j ≤ numCols → colPtr[j]? = some (offset matrix numRows j)
  last_eq : colPtr[numCols]? = some values.length
  sizes_eq : values.length = rows.length

/-- The row-index properties of one encoded matrix: inside every column block
`colPtr[j] .. colPtr[j+1]-1` the stored row indices are below `numRows` and
strictly increasing. -/
structure RowsInvariant (numRows numCols : Nat) (rows colPtr : List Nat) : Prop where
  valid : ∀ j lo hi, j < numCols → colPtr[j]? = some lo → colPtr[j + 1]? = some hi →
    ∀ k, lo ≤ k → k < hi → ∃ r, rows[k]? = some r ∧ r < numRows
  increasing : ∀ j lo hi, j < numCols → colPtr[j]? = some lo → colPtr[j + 1]? = some hi →
    ∀ k k1 r r1, lo ≤ k → k < k1 → k1 < hi →
      rows[k]? = some r → rows[k1]? = some r1 → r < r1

/-- The sparsity criterion on one encoded matrix: no stored value is zero, and
every non-zero element `x` read at index `i * numRows + j` is stored, with row
`i`, inside the block `colPtr[j] .. colPtr[j+1]-1` of its column. -/
structure StoresExactlyNonZero {α : Type} [Zero α]
    (matrix : List α) (numRows numCols : Nat) (values : List α) (rows colPtr : List Nat) :
    Prop where
  no_zero : ∀ v, v ∈ values → v ≠ 0
  all_stored : ∀ (i j : Nat) (x : α), i < numRows → j < numCols →
    matrix[i * numRows + j]? = some x → x ≠ 0 →
    ∃ k lo hi, colPtr[j]? = some lo ∧ colPtr[j + 1]? = some hi ∧ lo ≤ k ∧ k < hi ∧
      rows[k]? = some i ∧ values[k]? = some x

/-- The task `t1` holds the vectors of `t` followed by further entries, with
the same column counts and the same accumulator. -/
structure ExtendsVectors {α : Type} (t1 t : SparseOmpMatrixMultiSequential α) : Prop where
  numCols1_eq : t1.numCols1 = t.numCols1
  numCols2_eq : t1.numCols2 = t.numCols2
  result_eq : t1.result = t.result
  values1_ext : ∃ e, t1.values1 = t.values1 ++ e
  rows1_ext : ∃ e, t1.rows1 = t.rows1 ++ e
  colPtr1_ext : ∃ e, t1.colPtr1 = t.colPtr1 ++ e
  values2_ext : ∃ e, t1.values2 = t.values2 ++ e
  rows2_ext : ∃ e, t1.rows2 = t.rows2 ++ e
  colPtr2_ext : ∃ e, t1.colPtr2 = t.colPtr2 ++ e

/-- The task data the tests build: `A` is `r1 × c1`, `B` is `r2 × c2`, the
output buffer `out` is declared `o1 × o2`. -/
def mkTaskData {α : Type} (A B out : List α) (r1 c1 r2 c2 o1 o2 : Nat) : TaskData α :=
  { inputs := [A, B], inputs_count := [r1, c1, r2, c2],
    outputs := [out], outputs_count := [o1, o2] }

end CcsMatMulty

/-!
Blocked matrix multiplication of
`tasks/omp/nedelin_d_omp_cannons_algorithm/src/ops_omp.cpp`.

A loop whose counter advances by a variable step gets a `fuel` argument that
bounds its number of iterations: the loop ends with `outOfFuel` when the
condition still holds and the fuel is used up. Subscripts outside a vector end
the execution with `outOfRange`.
-/

namespace NedelinCannon

open CcsMatMulty

/-- How an execution ends: with a state, in a subscript outside its vector, or
still looping when the fuel is used up. -/
inductive Outcome (σ : Type) where
  | ok (s : σ)
  | outOfRange
  | outOfFuel
deriving DecidableEq

/-- A checked computation as an execution: `none` is a subscript out of range. -/
def Outcome.ofOption {σ : Type} : Option σ → Outcome σ
  | some s => Outcome.ok s
  | none => Outcome.outOfRange

/-- The loop `for (x = i; x < bound; x += step) body(x)` run with `fuel` as the
bound on the number of iterations. -/
def forStep {σ : Type} (body : σ → Nat → Outcome σ) (bound step : Nat) :
    Nat → Nat → σ → Outcome σ
  | 0, i, s => if i < bound then Outcome.outOfFuel else Outcome.ok s
  | fuel + 1, i, s =>
    if i < bound then
      match body s i with
      | Outcome.ok s1 => forStep body bound step fuel (i + step) s1
      | Outcome.outOfRange => Outcome.outOfRange
      | Outcome.outOfFuel => Outcome.outOfFuel
    else Outcome.ok s

/-- The values the counter of `for (x = i; x < bound; x += step)` takes in at
most `fuel` iterations. -/
def starts (bound step : Nat) : Nat → Nat → List Nat
  | 0, _ => []
  | fuel + 1, i => if i < bound then i :: starts bound step fuel (i + step) else []

/-- Body of the loop over `jj` (line 30):
`mtrx_C[ii * m + jj] += A_ik * B[kk * m + jj]`. -/
def cannonJJ {α : Type} [Add α] [Mul α] (B : List α) (m ii kk : Nat) (A_ik : α)
    (mtrx_C : List α) (jj : Nat) : Option (List α) := do
  let b ← B[kk * m + jj]?
  addAt mtrx_C (ii * m + jj) (A_ik * b)

/-- Body of the loop over `kk` (lines 28-31): `A_ik` is read before the loop
over `jj`. -/
def cannonKK {α : Type} [Add α] [Mul α] (A B : List α) (m ii j j_end : Nat)
    (mtrx_C : List α) (kk : Nat) : Option (List α) := do
  let A_ik ← A[ii * m + kk]?
  (List.range' j (j_end - j)).foldlM (cannonJJ B m ii kk A_ik) mtrx_C

/-- Body of the loop over `ii` (lines 27-32). -/
def cannonII {α : Type} [Add α] [Mul α] (A B : List α) (m k k_end j j_end : Nat)
    (mtrx_C : List α) (ii : Nat) : Option (List α) :=
  (List.range' k (k_end - k)).foldlM (cannonKK A B m ii j j_end) mtrx_C

/-- Body of the innermost block loop (lines 21-33): the three block ends and
the loops over the cells of the block. -/
def cannonBlock {α : Type} [Add α] [Mul α] (A B : List α) (n m SizeBlock i j : Nat)
    (mtrx_C : List α) (k : Nat) : Option (List α) :=
  let i_end := min (i + SizeBlock) n
  let j_end := min (j + SizeBlock) m
  let k_end := min (k + SizeBlock) m
  (List.range' i (i_end - i)).foldlM (cannonII A B m k k_end j j_end) mtrx_C

/-- Function `cannonMtrxMultiplication` (lines 9-38); `n` and `m` are taken as
natural numbers. -/
def cannonMtrxMultiplication {α : Type} [Zero α] [Add α] [Mul α]
    (fuel : Nat) (A B : List α) (n m : Nat) : Outcome (List α) :=
  let SizeBlock := min n m
  let mtrx_C : List α := List.replicate (n * m) 0
  if n = 0 ∨ m = 0 then Outcome.ok []
  else
    forStep (fun C i =>
      forStep (fun C j =>
        forStep (fun C k => Outcome.ofOption (cannonBlock A B n m SizeBlock i j C k))
          m SizeBlock fuel 0 C)
        m SizeBlock fuel 0 C)
      n SizeBlock fuel 0 mtrx_C

/-- Function `multiplyMtrx` (lines 74-90), the reference triple loop. -/
def multiplyMtrx {α : Type} [Zero α] [Add α] [Mul α]
    (A B : List α) (rows_A col_B : Nat) : Option (List α) :=
  let col_A := rows_A
  let mtrx_C : List α := List.replicate (rows_A * col_B) 0
  if rows_A = 0 ∨ col_B = 0 then some []
  else
    (List.range rows_A).foldlM (fun C i =>
      (List.range col_B).foldlM (fun C j =>
        (List.range col_A).foldlM (fun C k => do
          let a ← A[i * col_A + k]?
          let b ← B[k * col_B + j]?
          addAt C (i * col_B + j) (a * b)) C) C) mtrx_C

/-- The `(index, value)` updates of one block `(i, j, k)` of
`cannonMtrxMultiplication`, in program order. -/
def cannonUpdatesBlock {α : Type} [Zero α] [Mul α] (A B : List α)
    (n m SizeBlock i j k : Nat) : List (Nat × α) :=
  (List.range' i (min (i + SizeBlock) n - i)).flatMap fun ii =>
    (List.range' k (min (k + SizeBlock) m - k)).flatMap fun kk =>
      (List.range' j (min (j + SizeBlock) m - j)).map fun jj =>
        (ii * m + jj, A.getD (ii * m + kk) 0 * B.getD (kk * m + jj) 0)

/-- All updates of `cannonMtrxMultiplication`, in program order. -/
def cannonUpdates {α : Type} [Zero α] [Mul α] (fuel : Nat) (A B : List α) (n m : Nat) :
    List (Nat × α) :=
  (starts n (min n m) fuel 0).flatMap fun i =>
    (starts m (min n m) fuel 0).flatMap fun j =>
      (starts m (min n m) fuel 0).flatMap fun k =>
        cannonUpdatesBlock A B n m (min n m) i j k

/-- All updates of `multiplyMtrx`, in program order. -/
def multiplyUpdates {α : Type} [Zero α] [Mul α] (A B : List α) (rows_A col_B : Nat) :
    List (Nat × α) :=
  (List.range rows_A).flatMap fun i =>
    (List.range col_B).flatMap fun j =>
      (List.range rows_A).map fun k =>
        (i * col_B + j, A.getD (i * rows_A + k) 0 * B.getD (k * col_B + j) 0)

/-- Entry `(i, j)` of the product of `A` (`n × m`) and `B` (`m × m`): the sum
over `k < m` of `A[i * m + k] * B[k * m + j]`. -/
def productEntry {α : Type} [Zero α] [Add α] [Mul α] (A B : List α) (m i j : Nat) : α :=
  ((List.range m).map fun k => A.getD (i * m + k) 0 * B.getD (k * m + j) 0).sum

end NedelinCannon

/-!
Block matrix multiplication of
`tasks/tbb/skotin_a_multiply_matrix_cannon/src/ops_tbb.cpp`.

Matrices are vectors of rows, read with checked subscripts. The byte counts
`inputs_count[0]`, `inputs_count[1]` count bytes of 8-byte elements.
`std::sqrt` applied to a `size_t` and converted back is the integer square
root (`sqrt`, equal to `Nat.sqrt`). As for the other tasks an element type with exact
arithmetic stands for `double`.
-/

namespace SkotinCannon

open CcsMatMulty NedelinCannon

/-- Value of `sizeof(double)`. -/
def sizeofDouble : Nat := 8

/-- Search downwards from `r` for the largest number whose square is at most
`x`. -/
def sqrtFrom (x : Nat) : Nat → Nat
  | 0 => 0
  | r + 1 => if (r + 1) * (r + 1) ≤ x then r + 1 else sqrtFrom x r

/-- Expression `std::sqrt(x)` for a `size_t` `x`, converted back to `size_t`:
the integer square root of `x`. -/
def sqrt (x : Nat) : Nat := sqrtFrom x x

/-- Members of a `SkotinMatrixMultiplicationTBBSeq` object. -/
structure SkotinMatrixMultiplicationTBBSeq (α : Type) where
  taskData : TaskData α
  matrixA : List (List α)
  matrixB : List (List α)
  resultMatrix : List (List α)
deriving DecidableEq

/-- Members of a `SkotinMatrixMultiplicationTBBParallel` object. -/
structure SkotinMatrixMultiplicationTBBParallel (α : Type) where
  taskData : TaskData α
  matrixA : List (List α)
  matrixB : List (List α)
  resultMatrix : List (List α)
deriving DecidableEq

/-- A task object right after construction: the three matrices are empty. -/
def SkotinMatrixMultiplicationTBBSeq.fresh {α : Type} (taskData : TaskData α) :
    SkotinMatrixMultiplicationTBBSeq α :=
  { taskData := taskData, matrixA := [], matrixB := [], resultMatrix := [] }

/-- A parallel task object right after construction. -/
def SkotinMatrixMultiplicationTBBParallel.fresh {α : Type} (taskData : TaskData α) :
    SkotinMatrixMultiplicationTBBParallel α :=
  { taskData := taskData, matrixA := [], matrixB := [], resultMatrix := [] }

/-- Call `matrix.resize(size, row)` of a vector of rows: the first `size` rows
are kept as they are and the missing rows are copies of `row`. -/
def resizeRows {α : Type} (matrix : List (List α)) (size : Nat) (row : List α) :
    List (List α) :=
  matrix.take size ++ List.replicate (size - matrix.length) row

/-- Assignment `matrix[i][j] = v`; `none` when a subscript leaves its vector. -/
def setCell {α : Type} (matrix : List (List α)) (i j : Nat) (v : α) :
    Option (List (List α)) := do
  let row ← matrix[i]?
  if j < row.length then some (matrix.set i (row.set j v)) else none

/-- Statement `matrix[i][j] += v`; `none` when a subscript leaves its vector. -/
def addCell {α : Type} [Add α] (matrix : List (List α)) (i j : Nat) (v : α) :
    Option (List (List α)) := do
  let row ← matrix[i]?
  let x ← row[j]?
  some (matrix.set i (row.set j (x + v)))

/-- Call `memcpy(dest.data(), src, bytes)` on vectors of 8-byte elements:
the first `bytes / 8` elements of `src` replace those of `dest`. The result is
`none` when the copy would leave `dest` or `src`, or when `bytes` is not a
whole number of elements. -/
def memcpy {α : Type} (dest src : List α) (bytes : Nat) : Option (List α) :=
  if bytes % sizeofDouble = 0 ∧ bytes / sizeofDouble ≤ dest.length ∧
      bytes / sizeofDouble ≤ src.length then
    some (src.take (bytes / sizeofDouble) ++ dest.drop (bytes / sizeofDouble))
  else none

/-- Method `loadMatrix` (lines 70-84): returns the flag and the matrix it
leaves behind. -/
def loadMatrix {α : Type} [Zero α] (inputData : List α) (matrix : List (List α))
    (size : Nat) : Option (Bool × List (List α)) :=
  if inputData.length ≠ size * size then some (false, matrix)
  else do
    let matrix1 := resizeRows matrix size (List.replicate size 0)
    let matrix2 ← (List.range size).foldlM (fun m i =>
      (List.range size).foldlM (fun m j => do
        let v ← inputData[i * size + j]?
        setCell m i j v) m) matrix1
    some (true, matrix2)

/-- Method `SkotinMatrixMultiplicationTBBSeq::pre_processing` (lines 12-39):
returns the flag and the state it leaves behind. -/
def SkotinMatrixMultiplicationTBBSeq.pre_processing {α : Type} [Zero α]
    (t : SkotinMatrixMultiplicationTBBSeq α) :
    Option (Bool × SkotinMatrixMultiplicationTBBSeq α) := do
  let count0 ← t.taskData.inputs_count[0]?
  let totalElementsPerMatrix := count0 / sizeofDouble
  let matrixSize := sqrt totalElementsPerMatrix
  if matrixSize * matrixSize ≠ totalElementsPerMatrix then some (false, t)
  else do
    let input0 ← t.taskData.inputs[0]?
    let matrixAData ← memcpy (List.replicate (matrixSize * matrixSize) 0) input0 count0
    let (okA, matrixA) ← loadMatrix matrixAData t.matrixA matrixSize
    if okA = false then some (false, { t with matrixA := matrixA })
    else do
      let input1 ← t.taskData.inputs[1]?
      let count1 ← t.taskData.inputs_count[1]?
      let matrixBData ← memcpy (List.replicate (matrixSize * matrixSize) 0) input1 count1
      let (okB, matrixB) ← loadMatrix matrixBData t.matrixB matrixSize
      if okB = false then some (false, { t with matrixA := matrixA, matrixB := matrixB })
      else
        some (true, { t with
          matrixA := matrixA, matrixB := matrixB,
          resultMatrix :=
            resizeRows t.resultMatrix matrixSize (List.replicate matrixSize 0) })

/-- Method `SkotinMatrixMultiplicationTBBSeq::validation` (lines 41-44). -/
def SkotinMatrixMultiplicationTBBSeq.validation {α : Type}
    (t : SkotinMatrixMultiplicationTBBSeq α) : Option Bool :=
  if t.matrixA.isEmpty || t.matrixB.isEmpty then some false
  else do
    let row0 ← t.matrixA[0]?
    some (row0.length == t.matrixB.length)

/-- Body of the loop over `k` (line 57): `sum += matrixA[i][k] * matrixB[k][j]`. -/
def runSum {α : Type} [Add α] [Mul α] (matrixA matrixB : List (List α)) (i j : Nat)
    (sum : α) (k : Nat) : Option α := do
  let rowA ← matrixA[i]?
  let a ← rowA[k]?
  let rowB ← matrixB[k]?
  let b ← rowB[j]?
  some (sum + a * b)

/-- Body of the loop over `j` (lines 55-59). -/
def runJ {α : Type} [Zero α] [Add α] [Mul α] (matrixA matrixB : List (List α))
    (n blockSize blockRow i : Nat) (resultMatrix : List (List α)) (j : Nat) :
    Option (List (List α)) := do
  let sum ← (List.range' blockRow (min (blockRow + blockSize) n - blockRow)).foldlM
    (runSum matrixA matrixB i j) 0
  addCell resultMatrix i j sum

/-- Body of the loop over `i` (lines 54-60). -/
def runI {α : Type} [Zero α] [Add α] [Mul α] (matrixA matrixB : List (List α))
    (n blockSize blockRow blockCol : Nat) (resultMatrix : List (List α)) (i : Nat) :
    Option (List (List α)) :=
  (List.range' blockCol (min (blockCol + blockSize) n - blockCol)).foldlM
    (runJ matrixA matrixB n blockSize blockRow i) resultMatrix

/-- Body of the loop over `blockCol` (lines 53-61). -/
def runBlock {α : Type} [Zero α] [Add α] [Mul α] (matrixA matrixB : List (List α))
    (n blockSize blockRow : Nat) (resultMatrix : List (List α)) (blockCol : Nat) :
    Option (List (List α)) :=
  (List.range n).foldlM (runI matrixA matrixB n blockSize blockRow blockCol) resultMatrix

/-- Method `SkotinMatrixMultiplicationTBBSeq::run` (lines 46-66); it returns
`true` whenever it returns. -/
def SkotinMatrixMultiplicationTBBSeq.run {α : Type} [Zero α] [Add α] [Mul α]
    (fuel : Nat) (t : SkotinMatrixMultiplicationTBBSeq α) :
    Outcome (SkotinMatrixMultiplicationTBBSeq α) :=
  let blockSize := sqrt t.matrixA.length
  let n := t.matrixA.length
  let resultMatrix := resizeRows t.resultMatrix n (List.replicate n 0)
  match forStep (fun R blockRow =>
      forStep (fun R blockCol =>
        Outcome.ofOption (runBlock t.matrixA t.matrixB n blockSize blockRow R blockCol))
        n blockSize fuel 0 R)
      n blockSize fuel 0 resultMatrix with
  | Outcome.ok R => Outcome.ok { t with resultMatrix := R }
  | Outcome.outOfRange => Outcome.outOfRange
  | Outcome.outOfFuel => Outcome.outOfFuel

/-- Body of the `tbb::parallel_for` of the parallel `run` (lines 144-151) for
row `i`. The lock of line 149 is `mutexes[i * n + j]` of a vector of `n * n`
locks. -/
def parallelRow {α : Type} [Zero α] [Add α] [Mul α] (matrixA matrixB : List (List α))
    (n : Nat) (resultMatrix : List (List α)) (i : Nat) : Option (List (List α)) :=
  (List.range n).foldlM (fun R j => do
    let sum ← (List.range n).foldlM (runSum matrixA matrixB i j) 0
    addCell R i j sum) resultMatrix

/-- Method `SkotinMatrixMultiplicationTBBParallel::run` (lines 138-155); `order`
is the order in which the scheduler executes the iterations `0 .. n - 1`. -/
def SkotinMatrixMultiplicationTBBParallel.run {α : Type} [Zero α] [Add α] [Mul α]
    (order : List Nat) (t : SkotinMatrixMultiplicationTBBParallel α) :
    Option (SkotinMatrixMultiplicationTBBParallel α) := do
  let n := t.matrixA.length
  let resultMatrix := resizeRows t.resultMatrix n (List.replicate n 0)
  let R ← order.foldlM (parallelRow t.matrixA t.matrixB n) resultMatrix
  some { t with resultMatrix := R }

/-- A matrix of `n` rows of `n` elements. -/
def IsSquare {α : Type} (n : Nat) (matrix : List (List α)) : Prop :=
  matrix.length = n ∧ ∀ row, row ∈ matrix → row.length = n

/-- Element `matrix[i][j]`, zero outside the matrix. -/
def entry {α : Type} [Zero α] (matrix : List (List α)) (i j : Nat) : α :=
  (matrix.getD i []).getD j 0

/-- The `n × n` zero matrix. -/
def zeroMatrix {α : Type} [Zero α] (n : Nat) : List (List α) :=
  List.replicate n (List.replicate n 0)

/-- Entry `(i, j)` of the product of two `n × n` matrices. -/
def productCell {α : Type} [Zero α] [Add α] [Mul α] (matrixA matrixB : List (List α))
    (n i j : Nat) : α :=
  ((List.range n).map fun k => entry matrixA i k * entry matrixB k j).sum

/-- The `(index, value)` updates of the sequential `run`, in program order;
cell `(i, j)` has index `i * n + j`. -/
def seqUpdates {α : Type} [Zero α] [Add α] [Mul α] (fuel : Nat)
    (matrixA matrixB : List (List α)) (n blockSize : Nat) : List (Nat × α) :=
  (starts n blockSize fuel 0).flatMap fun blockRow =>
    (starts n blockSize fuel 0).flatMap fun blockCol =>
      (List.range n).flatMap fun i =>
        (List.range' blockCol (min (blockCol + blockSize) n - blockCol)).map fun j =>
          (i * n + j,
            ((List.range' blockRow (min (blockRow + blockSize) n - blockRow)).map fun k =>
              entry matrixA i k * entry matrixB k j).sum)

/-- The `(index, value)` updates of the parallel `run` under the schedule
`order`. -/
def parallelUpdates {α : Type} [Zero α] [Add α] [Mul α] (order : List Nat)
    (matrixA matrixB : List (List α)) (n : Nat) : List (Nat × α) :=
  order.flatMap fun i =>
    (List.range n).map fun j =>
      (i * n + j, ((List.range n).map fun k => entry matrixA i k * entry matrixB k j).sum)

/-- Statement `matrix[p / n][p % n] += v` for the cell of index `p`. -/
def addIndex {α : Type} [Add α] (n : Nat) (matrix : List (List α)) (u : Nat × α) :
    Option (List (List α)) :=
  addCell matrix (u.1 / n) (u.1 % n) u.2

end SkotinCannon

namespace CcsMatMulty


/-! The encoding loops -/

section Encoder

variable {α : Type} [Zero α] [DecidableEq α]

theorem foldlM_encodeRow (matrix : List α) (S j : Nat) :
    ∀ (m : Nat), (∀ i, i < m → i * S + j < matrix.length) → ∀ s : Ccs α,
      (List.range m).foldlM (encodeRow matrix S j) s =
        some { values := s.values ++
                 ((List.range m).filter fun i => cell matrix S i j ≠ 0).map
                   (fun i => cell matrix S i j),
               rows := s.rows ++ (List.range m).filter fun i => cell matrix S i j ≠ 0,
               colPtr := s.colPtr,
               notNullNumbers := s.notNullNumbers +
                 ((List.range m).filter fun i => cell matrix S i j ≠ 0).length } := by
  intro m
  induction m with
  | zero => intro _ s; simp
  | succ m ih =>
    intro h s
    have hm : m * S + j < matrix.length := h m (Nat.lt_succ_self m)
    rw [List.range_succ, List.foldlM_append, ih (fun i hi => h i (Nat.lt_succ_of_lt hi)) s]
    have hget : matrix[m * S + j]? = some (cell matrix S m j) := by
      simp [cell, List.getD, List.getElem?_eq_getElem hm]
    by_cases hz : cell matrix S m j = 0
    · simp [encodeRow, hget, hz, List.filter_append]
    · simp [encodeRow, hget, hz, List.filter_append, Nat.add_assoc]

theorem encodeColumn_eq (matrix : List α) (R j : Nat)
    (h : ∀ i, i < R → i * R + j < matrix.length) (s : Ccs α) :
    encodeColumn matrix R s j =
      some { values := s.values ++ nzVals matrix R j,
             rows := s.rows ++ nzRows matrix R j,
             colPtr := s.colPtr ++ [s.notNullNumbers],
             notNullNumbers := s.notNullNumbers + (nzRows matrix R j).length } := by
  unfold encodeColumn
  rw [foldlM_encodeRow matrix R j R h]
  rfl

theorem offset_succ (matrix : List α) (R j : Nat) :
    offset matrix R (j + 1) = offset matrix R j + (nzRows matrix R j).length := by
  simp [offset, List.range_succ, List.flatMap_append]

theorem offset_zero (matrix : List α) (R : Nat) : offset matrix R 0 = 0 := by
  simp [offset]

theorem offset_mono (matrix : List α) (R : Nat) {a b : Nat} (hab : a ≤ b) :
    offset matrix R a ≤ offset matrix R b := by
  induction hab with
  | refl => exact Nat.le_refl _
  | step _ ih => rw [offset_succ]; exact Nat.le_trans ih (Nat.le_add_right _ _)

theorem foldlM_encodeColumn (matrix : List α) (R : Nat) :
    ∀ (m : Nat), (∀ j, j < m → ∀ i, i < R → i * R + j < matrix.length) →
      ∀ (v : List α) (r c : List Nat),
      (List.range m).foldlM (encodeColumn matrix R) ⟨v, r, c, 0⟩ =
        some { values := v ++ (List.range m).flatMap (nzVals matrix R),
               rows := r ++ (List.range m).flatMap (nzRows matrix R),
               colPtr := c ++ (List.range m).map (offset matrix R),
               notNullNumbers := offset matrix R m } := by
  intro m
  induction m with
  | zero => intro _ v r c; simp [offset]
  | succ m ih =>
    intro h v r c
    rw [List.range_succ, List.foldlM_append, ih (fun j hj => h j (Nat.lt_succ_of_lt hj)) v r c]
    simp only [List.foldlM_cons, List.foldlM_nil, Option.bind_eq_bind, Option.some_bind]
    rw [encodeColumn_eq matrix R m (h m (Nat.lt_succ_self m))]
    simp [List.flatMap_append, offset_succ]

/-- What one encoding block leaves when none of its reads is out of range. -/
theorem encode_eq (matrix : List α) (R C : Nat)
    (h : ∀ j, j < C → ∀ i, i < R → i * R + j < matrix.length)
    (v : List α) (r c : List Nat) :
    encode matrix R C v r c =
      some { values := v ++ (List.range C).flatMap (nzVals matrix R),
             rows := r ++ (List.range C).flatMap (nzRows matrix R),
             colPtr := c ++ (List.range (C + 1)).map (offset matrix R),
             notNullNumbers := offset matrix R C } := by
  unfold encode
  rw [foldlM_encodeColumn matrix R C h v r c]
  simp [List.range_succ]

theorem foldlM_isSome_imp {β γ : Type} {f : β → γ → Option β} {P : γ → Prop}
    (hf : ∀ s x, (f s x).isSome → P x) :
    ∀ (l : List γ) (s : β), (l.foldlM f s).isSome → ∀ x, x ∈ l → P x := by
  intro l
  induction l with
  | nil => intro s _ x hx; simp at hx
  | cons a l ih =>
    intro s h x hx
    rw [List.foldlM_cons] at h
    cases hfa : f s a with
    | none => simp [hfa] at h
    | some s1 =>
      rw [hfa] at h
      rcases List.mem_cons.1 hx with rfl | hx
      · exact hf s x (by simp [hfa])
      · exact ih s1 (by simpa using h) x hx

theorem encodeRow_isSome (matrix : List α) (S j : Nat) (s : Ccs α) (i : Nat)
    (h : (encodeRow matrix S j s i).isSome) : i * S + j < matrix.length := by
  by_contra hlt
  have hnone : matrix[i * S + j]? = none := List.getElem?_eq_none (Nat.le_of_not_lt hlt)
  simp [encodeRow, hnone] at h

/-- The encoding block returns exactly when all its reads are in range. -/
theorem encode_isSome_iff (matrix : List α) (R C : Nat) (v : List α) (r c : List Nat) :
    (encode matrix R C v r c).isSome ↔
      ∀ j, j < C → ∀ i, i < R → i * R + j < matrix.length := by
  constructor
  · intro h j hj i hi
    have h1 : ((List.range C).foldlM (encodeColumn matrix R) ⟨v, r, c, 0⟩).isSome := by
      simpa [encode] using h
    have h2 := foldlM_isSome_imp
      (P := fun j => ∀ i, i < R → i * R + j < matrix.length)
      (f := encodeColumn matrix R)
      (fun s j hs i hi =>
        foldlM_isSome_imp (P := fun i => i * R + j < matrix.length)
          (encodeRow_isSome matrix R j) _ _ hs i (List.mem_range.2 hi))
      _ _ h1 j (List.mem_range.2 hj)
    exact h2 i hi
  · intro h
    rw [encode_eq matrix R C h]
    rfl

theorem length_flatMap_range_mono {β : Type} (f : Nat → List β) {a b : Nat} (hab : a ≤ b) :
    ((List.range a).flatMap f).length ≤ ((List.range b).flatMap f).length := by
  induction hab with
  | refl => exact Nat.le_refl _
  | step _ ih =>
    rw [List.range_succ, List.flatMap_append, List.length_append]
    exact Nat.le_trans ih (Nat.le_add_right _ _)

/-- Entry `t` of the block of column `j` inside the concatenation of the blocks
of the columns `0 .. C-1`. -/
theorem getElem?_flatMap_range {β : Type} (f : Nat → List β) :
    ∀ (C j t : Nat), j < C → t < (f j).length →
      ((List.range C).flatMap f)[((List.range j).flatMap f).length + t]? = (f j)[t]? := by
  intro C
  induction C with
  | zero => intro j t hj; exact absurd hj (Nat.not_lt_zero j)
  | succ C ih =>
    intro j t hj ht
    rw [List.range_succ, List.flatMap_append]
    rcases Nat.lt_succ_iff_lt_or_eq.1 hj with hlt | rfl
    · have hle : ((List.range (j + 1)).flatMap f).length ≤ ((List.range C).flatMap f).length :=
        length_flatMap_range_mono f hlt
      rw [List.range_succ, List.flatMap_append, List.length_append] at hle
      have hlen : ((List.range j).flatMap f).length + t < ((List.range C).flatMap f).length := by
        simp only [List.flatMap_cons, List.flatMap_nil, List.append_nil] at hle
        omega
      rw [List.getElem?_append_left hlen]
      exact ih j t hlt ht
    · rw [List.getElem?_append_right (Nat.le_add_right _ _)]
      simp

theorem length_nzVals (matrix : List α) (R j : Nat) :
    (nzVals matrix R j).length = (nzRows matrix R j).length := by
  simp [nzVals]

theorem length_flatMap_nzVals (matrix : List α) (R j : Nat) :
    ((List.range j).flatMap (nzVals matrix R)).length = offset matrix R j := by
  induction j with
  | zero => simp [offset]
  | succ j ih =>
    rw [List.range_succ, List.flatMap_append, List.length_append, ih, offset_succ]
    simp [length_nzVals]

theorem nzRows_lt (matrix : List α) (R j i : Nat) (h : i ∈ nzRows matrix R j) : i < R := by
  simp only [nzRows, List.mem_filter, List.mem_range] at h
  exact h.1

theorem nzRows_pairwise (matrix : List α) (R j : Nat) :
    (nzRows matrix R j).Pairwise (· < ·) :=
  List.Pairwise.filter _ (List.pairwise_lt_range R)

/-- Row index stored at position `offset j + t`. -/
theorem rows_getElem? (matrix : List α) (R C j t : Nat) (hj : j < C)
    (ht : t < (nzRows matrix R j).length) :
    ((List.range C).flatMap (nzRows matrix R))[offset matrix R j + t]? =
      (nzRows matrix R j)[t]? :=
  getElem?_flatMap_range (nzRows matrix R) C j t hj ht

/-- Value stored at position `offset j + t`. -/
theorem values_getElem? (matrix : List α) (R C j t : Nat) (hj : j < C)
    (ht : t < (nzRows matrix R j).length) :
    ((List.range C).flatMap (nzVals matrix R))[offset matrix R j + t]? =
      (nzVals matrix R j)[t]? := by
  rw [← length_flatMap_nzVals]
  exact getElem?_flatMap_range (nzVals matrix R) C j t hj (by rw [length_nzVals]; exact ht)

theorem colPtr_getElem? (matrix : List α) (R C j : Nat) (hj : j ≤ C) :
    ((List.range (C + 1)).map (offset matrix R))[j]? = some (offset matrix R j) := by
  rw [List.getElem?_map, List.getElem?_range (Nat.lt_succ_of_le hj)]
  rfl

theorem nzRows_getElem?_lt (matrix : List α) (R j s r : Nat)
    (h : (nzRows matrix R j)[s]? = some r) : s < (nzRows matrix R j).length ∧ r < R := by
  obtain ⟨hs, hr⟩ := List.getElem?_eq_some.1 h
  exact ⟨hs, nzRows_lt matrix R j r (hr ▸ List.getElem_mem hs)⟩

end Encoder

/-! Accumulation into the result buffer -/

section Accumulate

variable {α : Type} [Semiring α]

theorem addAt_eq (res : List α) (idx : Nat) (v : α) (h : idx < res.length) :
    addAt res idx v = some (res.set idx (res.getD idx 0 + v)) := by
  simp [addAt, List.getElem?_eq_getElem h, List.getD]

theorem getD_set_add (res : List α) (idx p : Nat) (v : α) (h : idx < res.length) :
    (res.set idx (res.getD idx 0 + v)).getD p 0 =
      res.getD p 0 + (if idx = p then v else 0) := by
  by_cases hp : idx = p
  · subst hp
    simp [List.getD, List.getElem?_set, h]
  · simp [List.getD, List.getElem?_set, hp]

/-- Effect of a sequence of `result[index] += value` statements. -/
theorem foldlM_addAt (us : List (Nat × α)) :
    ∀ (res : List α), (∀ u, u ∈ us → u.1 < res.length) →
      ∃ res1, us.foldlM (fun r u => addAt r u.1 u.2) res = some res1 ∧
        res1.length = res.length ∧
        ∀ p, res1.getD p 0 = res.getD p 0 + contrib p us := by
  induction us with
  | nil => intro res _; exact ⟨res, rfl, rfl, by simp [contrib]⟩
  | cons u us ih =>
    intro res h
    have hu : u.1 < res.length := h u (List.mem_cons_self _ _)
    obtain ⟨res1, h1, h2, h3⟩ := ih (res.set u.1 (res.getD u.1 0 + u.2))
      (fun w hw => by rw [List.length_set]; exact h w (List.mem_cons_of_mem _ hw))
    refine ⟨res1, ?_, ?_, ?_⟩
    · rw [List.foldlM_cons, addAt_eq res u.1 u.2 hu]
      exact h1
    · rw [h2, List.length_set]
    · intro p
      rw [h3 p, getD_set_add res u.1 p u.2 hu]
      simp [contrib, add_assoc]

theorem contrib_append (p : Nat) (us vs : List (Nat × α)) :
    contrib p (us ++ vs) = contrib p us + contrib p vs := by
  simp [contrib]

theorem contrib_flatMap {γ : Type} (p : Nat) (f : γ → List (Nat × α)) (l : List γ) :
    contrib p (l.flatMap f) = (l.map fun x => contrib p (f x)).sum := by
  induction l with
  | nil => simp [contrib]
  | cons x l ih => simp [List.flatMap_cons, contrib_append, ih]

theorem foldlM_flatMap {β γ δ : Type} (f : γ → List δ) (g : β → δ → Option β) :
    ∀ (l : List γ) (b : β),
      (l.flatMap f).foldlM g b = l.foldlM (fun b x => (f x).foldlM g b) b := by
  intro l
  induction l with
  | nil => intro b; rfl
  | cons x l ih =>
    intro b
    rw [List.flatMap_cons, List.foldlM_append, List.foldlM_cons]
    cases (f x).foldlM g b with
    | none => rfl
    | some b1 => exact ih b1

/-- A counting loop `for (k = lo; k < lo + xs.length; k++)` whose body only
depends on the entry `xs[k - lo]` is a loop over the entries of `xs`. -/
theorem foldlM_range'_eq {β γ : Type} (g : β → Nat → Option β) (h : β → γ → Option β) :
    ∀ (xs : List γ) (lo : Nat),
      (∀ t x, xs[t]? = some x → ∀ b, g b (lo + t) = h b x) →
      ∀ b, (List.range' lo xs.length).foldlM g b = xs.foldlM h b := by
  intro xs
  induction xs with
  | nil => intro lo _ b; rfl
  | cons x xs ih =>
    intro lo hg b
    rw [List.length_cons, List.range'_succ, List.foldlM_cons, List.foldlM_cons]
    have h0 : g b lo = h b x := by simpa using hg 0 x (by simp) b
    rw [h0]
    cases h b x with
    | none => rfl
    | some b1 =>
      refine ih (lo + 1) (fun t y hy b2 => ?_) b1
      have := hg (t + 1) y (by simpa using hy) b2
      rw [← this]
      congr 1
      omega

end Accumulate

/-! The multiplication loops on encoded operands -/

section Run

variable {α : Type} [Semiring α] [DecidableEq α]

theorem runInner_eq (t : SparseOmpMatrixMultiSequential α) (A B : List α)
    (R1 C1 R2 C2 : Nat) (he : IsEncoded t A B R1 C1 R2 C2)
    (j s2 r2 : Nat) (hj : j < C2) (hr2 : (nzRows B R2 j)[s2]? = some r2) (hc : r2 < C1)
    (s1 r1 : Nat) (hr1 : (nzRows A R1 r2)[s1]? = some r1) (res : List α) :
    t.runInner j (offset B R2 j + s2) res (offset A R1 r2 + s1) =
      addAt res (r1 * C2 + j) (cell A R1 r1 r2 * cell B R2 r2 j) := by
  have h1 := (nzRows_getElem?_lt A R1 r2 s1 r1 hr1).1
  have h2 := (nzRows_getElem?_lt B R2 j s2 r2 hr2).1
  have e1 : t.rows1[offset A R1 r2 + s1]? = some r1 := by
    rw [he.rows1_eq, rows_getElem? A R1 C1 r2 s1 hc h1, hr1]
  have e2 : t.values1[offset A R1 r2 + s1]? = some (cell A R1 r1 r2) := by
    rw [he.values1_eq, values_getElem? A R1 C1 r2 s1 hc h1]
    simp [nzVals, hr1]
  have e3 : t.values2[offset B R2 j + s2]? = some (cell B R2 r2 j) := by
    rw [he.values2_eq, values_getElem? B R2 C2 j s2 hj h2]
    simp [nzVals, hr2]
  simp [SparseOmpMatrixMultiSequential.runInner, e1, e2, e3, he.numCols2_eq]

theorem runMiddle_eq (t : SparseOmpMatrixMultiSequential α) (A B : List α)
    (R1 C1 R2 C2 : Nat) (he : IsEncoded t A B R1 C1 R2 C2)
    (j s2 r2 : Nat) (hj : j < C2) (hr2 : (nzRows B R2 j)[s2]? = some r2) (hc : r2 < C1)
    (res : List α) :
    t.runMiddle j res (offset B R2 j + s2) =
      (updatesInner A B R1 R2 C2 j r2).foldlM (fun r u => addAt r u.1 u.2) res := by
  have h2 := (nzRows_getElem?_lt B R2 j s2 r2 hr2).1
  have e1 : t.rows2[offset B R2 j + s2]? = some r2 := by
    rw [he.rows2_eq, rows_getElem? B R2 C2 j s2 hj h2, hr2]
  have e2 : t.colPtr1[r2]? = some (offset A R1 r2) := by
    rw [he.colPtr1_eq, colPtr_getElem? A R1 C1 r2 (Nat.le_of_lt hc)]
  have e3 : t.colPtr1[r2 + 1]? = some (offset A R1 (r2 + 1)) := by
    rw [he.colPtr1_eq, colPtr_getElem? A R1 C1 (r2 + 1) hc]
  have e4 : offset A R1 (r2 + 1) - offset A R1 r2 = (nzRows A R1 r2).length := by
    rw [offset_succ]; omega
  simp only [SparseOmpMatrixMultiSequential.runMiddle, e1, e2, e3, e4, Option.bind_eq_bind,
    Option.some_bind]
  rw [updatesInner, List.foldlM_map]
  exact foldlM_range'_eq _ _ (nzRows A R1 r2) (offset A R1 r2)
    (fun s1 r1 hr1 b => runInner_eq t A B R1 C1 R2 C2 he j s2 r2 hj hr2 hc s1 r1 hr1 b) res

theorem runOuter_eq (t : SparseOmpMatrixMultiSequential α) (A B : List α)
    (R1 C1 R2 C2 : Nat) (he : IsEncoded t A B R1 C1 R2 C2) (hR : R2 ≤ C1)
    (j : Nat) (hj : j < C2) (res : List α) :
    t.runOuter res j =
      (updatesColumn A B R1 R2 C2 j).foldlM (fun r u => addAt r u.1 u.2) res := by
  have e2 : t.colPtr2[j]? = some (offset B R2 j) := by
    rw [he.colPtr2_eq, colPtr_getElem? B R2 C2 j (Nat.le_of_lt hj)]
  have e3 : t.colPtr2[j + 1]? = some (offset B R2 (j + 1)) := by
    rw [he.colPtr2_eq, colPtr_getElem? B R2 C2 (j + 1) hj]
  have e4 : offset B R2 (j + 1) - offset B R2 j = (nzRows B R2 j).length := by
    rw [offset_succ]; omega
  simp only [SparseOmpMatrixMultiSequential.runOuter, e2, e3, e4, Option.bind_eq_bind,
    Option.some_bind]
  rw [updatesColumn, foldlM_flatMap]
  exact foldlM_range'_eq _ _ (nzRows B R2 j) (offset B R2 j)
    (fun s2 r2 hr2 b => runMiddle_eq t A B R1 C1 R2 C2 he j s2 r2 hj hr2
      (Nat.lt_of_lt_of_le (nzRows_getElem?_lt B R2 j s2 r2 hr2).2 hR) b) res

theorem foldlM_congr_mem {β γ : Type} (f g : β → γ → Option β) :
    ∀ (l : List γ), (∀ x, x ∈ l → ∀ b, f b x = g b x) → ∀ b, l.foldlM f b = l.foldlM g b := by
  intro l
  induction l with
  | nil => intro _ b; rfl
  | cons x l ih =>
    intro h b
    rw [List.foldlM_cons, List.foldlM_cons, h x (List.mem_cons_self _ _) b]
    cases g b x with
    | none => rfl
    | some b1 => exact ih (fun y hy => h y (List.mem_cons_of_mem _ hy)) b1

/-- On encoded operands with `rows(B) ≤ cols(A) ≤ cols(B)` the loops of `run`
perform exactly the updates of `updatesRun`, in order. -/
theorem run_eq (t : SparseOmpMatrixMultiSequential α) (A B : List α)
    (R1 C1 R2 C2 : Nat) (he : IsEncoded t A B R1 C1 R2 C2) (hR : R2 ≤ C1) (hC : C1 ≤ C2) :
    t.run = ((updatesRun A B R1 R2 C2 C1).foldlM (fun r u => addAt r u.1 u.2) t.result).map
      fun r => { t with result := r } := by
  have h : (List.range t.numCols1).foldlM t.runOuter t.result =
      (updatesRun A B R1 R2 C2 C1).foldlM (fun r u => addAt r u.1 u.2) t.result := by
    rw [updatesRun, foldlM_flatMap, he.numCols1_eq]
    exact foldlM_congr_mem _ _ (List.range C1)
      (fun j hj b => runOuter_eq t A B R1 C1 R2 C2 he hR j
        (Nat.lt_of_lt_of_le (List.mem_range.1 hj) hC) b) t.result
  simp only [SparseOmpMatrixMultiSequential.run, h, Option.bind_eq_bind]
  cases (updatesRun A B R1 R2 C2 C1).foldlM (fun r u => addAt r u.1 u.2) t.result <;> rfl

theorem index_eq_iff (C2 r1 j i j0 : Nat) (hj : j < C2) (hj0 : j0 < C2) :
    r1 * C2 + j = i * C2 + j0 ↔ r1 = i ∧ j = j0 := by
  constructor
  · intro h
    rcases Nat.lt_trichotomy r1 i with hlt | heq | hgt
    · have : (r1 + 1) * C2 ≤ i * C2 := Nat.mul_le_mul_right C2 hlt
      rw [Nat.add_mul, Nat.one_mul] at this
      omega
    · subst heq
      exact ⟨rfl, by omega⟩
    · have : (i + 1) * C2 ≤ r1 * C2 := Nat.mul_le_mul_right C2 hgt
      rw [Nat.add_mul, Nat.one_mul] at this
      omega
  · rintro ⟨rfl, rfl⟩
    rfl

omit [DecidableEq α] in
theorem sum_filter_range_ite (q : Nat → Bool) (f : Nat → α) (i : Nat) :
    ∀ n, (((List.range n).filter q).map fun r => if r = i then f r else 0).sum =
      if i < n ∧ q i = true then f i else 0 := by
  intro n
  induction n with
  | zero => simp
  | succ n ih =>
    rw [List.range_succ, List.filter_append, List.map_append, List.sum_append, ih]
    by_cases hin : i < n
    · have hne : n ≠ i := by omega
      by_cases hq : q n = true <;> by_cases hqi : q i = true <;>
        simp [List.filter_cons, hq, hqi, hin, hne, Nat.lt_succ_of_lt hin]
    · by_cases hni : n = i
      · subst hni
        by_cases hq : q n = true <;> simp [List.filter_cons, hq]
      · have hlt : ¬ i < n + 1 := by omega
        by_cases hq : q n = true <;> simp [List.filter_cons, hq, hin, hni, hlt]

omit [DecidableEq α] in
theorem sum_filter_of_zero {γ : Type} (q : γ → Bool) (f : γ → α) :
    ∀ (l : List γ), (∀ x, q x = false → f x = 0) →
      ((l.filter q).map f).sum = (l.map f).sum := by
  intro l h
  induction l with
  | nil => rfl
  | cons x l ih =>
    cases hq : q x with
    | true => simp [List.filter_cons, hq, ih]
    | false => simp [List.filter_cons, hq, ih, h x hq]

theorem contrib_updatesInner (A B : List α) (R1 R2 C2 j r2 i j0 : Nat)
    (hi : i < R1) (hj : j < C2) (hj0 : j0 < C2) :
    contrib (i * C2 + j0) (updatesInner A B R1 R2 C2 j r2) =
      if j = j0 then cell A R1 i r2 * cell B R2 r2 j else 0 := by
  have hfun : ∀ r1 : Nat,
      (if r1 * C2 + j = i * C2 + j0 then cell A R1 r1 r2 * cell B R2 r2 j else 0) =
      (if r1 = i then (if j = j0 then cell A R1 r1 r2 * cell B R2 r2 j else 0) else 0) := by
    intro r1
    by_cases h : r1 * C2 + j = i * C2 + j0
    · obtain ⟨h1, h2⟩ := (index_eq_iff C2 r1 j i j0 hj hj0).1 h
      rw [if_pos h, if_pos h1, if_pos h2]
    · rw [if_neg h]
      by_cases h1 : r1 = i
      · by_cases h2 : j = j0
        · exact absurd ((index_eq_iff C2 r1 j i j0 hj hj0).2 ⟨h1, h2⟩) h
        · rw [if_pos h1, if_neg h2]
      · rw [if_neg h1]
  simp only [contrib, updatesInner, List.map_map, Function.comp_def, hfun]
  rw [nzRows, sum_filter_range_ite]
  by_cases hz : cell A R1 i r2 = 0
  · simp [hz]
  · simp [hz, hi]

theorem contrib_updatesColumn (A B : List α) (R1 R2 C2 j i j0 : Nat)
    (hi : i < R1) (hj : j < C2) (hj0 : j0 < C2) :
    contrib (i * C2 + j0) (updatesColumn A B R1 R2 C2 j) =
      if j = j0 then ((List.range R2).map fun k => cell A R1 i k * cell B R2 k j0).sum
      else 0 := by
  rw [updatesColumn, contrib_flatMap]
  by_cases hjj : j = j0
  · subst hjj
    simp only [contrib_updatesInner A B R1 R2 C2 j _ i j hi hj hj, if_true, nzRows]
    exact sum_filter_of_zero _ _ _ (fun k hk => by simp at hk; simp [hk])
  · simp [contrib_updatesInner A B R1 R2 C2 j _ i j0 hi hj hj0, hjj]

theorem contrib_updatesRun (A B : List α) (R1 R2 C2 bound i j0 : Nat)
    (hi : i < R1) (hb : bound ≤ C2) (hj0 : j0 < C2) :
    contrib (i * C2 + j0) (updatesRun A B R1 R2 C2 bound) =
      if j0 < bound then ((List.range R2).map fun k => cell A R1 i k * cell B R2 k j0).sum
      else 0 := by
  rw [updatesRun, contrib_flatMap]
  have hmap : (List.range bound).map (fun j => contrib (i * C2 + j0) (updatesColumn A B R1 R2 C2 j))
      = (List.range bound).map (fun j => if j = j0 then
          ((List.range R2).map fun k => cell A R1 i k * cell B R2 k j0).sum else 0) :=
    List.map_congr_left (fun j hj =>
      contrib_updatesColumn A B R1 R2 C2 j i j0 hi
        (Nat.lt_of_lt_of_le (List.mem_range.1 hj) hb) hj0)
  rw [hmap]
  have := sum_filter_range_ite (fun _ => true)
    (fun _ => ((List.range R2).map fun k => cell A R1 i k * cell B R2 k j0).sum) j0 bound
  simpa using this

/-- What `pre_processing` leaves on a fresh task when all reads are in range. -/
theorem pre_processing_fresh (A B out : List α) (R1 C1 R2 C2 o1 o2 : Nat)
    (hpos : R1 * C2 ≠ 0)
    (hA : ∀ j, j < C1 → ∀ i, i < R1 → i * R1 + j < A.length)
    (hB : ∀ j, j < C2 → ∀ i, i < R2 → i * R2 + j < B.length) :
    (SparseOmpMatrixMultiSequential.fresh
        (mkTaskData A B out R1 C1 R2 C2 o1 o2)).pre_processing =
      some (encodedTask (mkTaskData A B out R1 C1 R2 C2 o1 o2) A B R1 C1 R2 C2) := by
  simp only [SparseOmpMatrixMultiSequential.pre_processing,
    SparseOmpMatrixMultiSequential.fresh, mkTaskData]
  simp only [List.getElem?_cons_zero, List.getElem?_cons_succ, Option.bind_eq_bind,
    Option.some_bind, newZeroed, if_neg hpos, encode_eq A R1 C1 hA, encode_eq B R2 C2 hB,
    List.nil_append]
  rfl

theorem mul_add_lt (R C i j : Nat) (hi : i < R) (hj : j < C) : i * C + j < R * C := by
  have : (i + 1) * C ≤ R * C := Nat.mul_le_mul_right C hi
  rw [Nat.add_mul, Nat.one_mul] at this
  omega

theorem updatesRun_index_lt (A B : List α) (R1 R2 C2 bound : Nat) (hb : bound ≤ C2)
    (u : Nat × α) (hu : u ∈ updatesRun A B R1 R2 C2 bound) : u.1 < R1 * C2 := by
  simp only [updatesRun, updatesColumn, updatesInner, List.mem_flatMap, List.mem_map,
    List.mem_range] at hu
  obtain ⟨j, hj, r2, _, r1, hr1, rfl⟩ := hu
  exact mul_add_lt R1 C2 r1 j (nzRows_lt A R1 r2 r1 hr1) (Nat.lt_of_lt_of_le hj hb)

/-- The accumulator after `run` on encoded operands with a zeroed accumulator. -/
theorem run_encoded (t : SparseOmpMatrixMultiSequential α) (A B : List α)
    (R1 C1 R2 C2 : Nat) (he : IsEncoded t A B R1 C1 R2 C2) (hR : R2 ≤ C1) (hC : C1 ≤ C2)
    (hres : t.result = List.replicate (R1 * C2) 0) :
    ∃ res, t.run = some { t with result := res } ∧ res.length = R1 * C2 ∧
      ∀ i j, i < R1 → j < C2 →
        res[i * C2 + j]? = some (if j < C1 then
          ((List.range R2).map fun k => cell A R1 i k * cell B R2 k j).sum else 0) := by
  obtain ⟨res, h1, h2, h3⟩ := foldlM_addAt (updatesRun A B R1 R2 C2 C1) t.result
    (fun u hu => by
      rw [hres, List.length_replicate]
      exact updatesRun_index_lt A B R1 R2 C2 C1 hC u hu)
  have hlen : res.length = R1 * C2 := by rw [h2, hres, List.length_replicate]
  refine ⟨res, ?_, hlen, ?_⟩
  · rw [run_eq t A B R1 C1 R2 C2 he hR hC, h1]
    rfl
  · intro i j hi hj
    have hp : i * C2 + j < res.length := by rw [hlen]; exact mul_add_lt R1 C2 i j hi hj
    have hget := h3 (i * C2 + j)
    rw [contrib_updatesRun A B R1 R2 C2 C1 i j hi hC hj, hres] at hget
    have hz : (List.replicate (R1 * C2) (0 : α)).getD (i * C2 + j) 0 = 0 := by
      have hlt : i * C2 + j < R1 * C2 := mul_add_lt R1 C2 i j hi hj
      simp [List.getD, List.getElem?_replicate, hlt]
    rw [hz, zero_add] at hget
    rw [← hget, List.getD_eq_getElem _ _ hp, List.getElem?_eq_getElem hp]

omit [Semiring α] [DecidableEq α] in
/-- The copy loop of `post_processing`. -/
theorem foldlM_copyCell (t : SparseOmpMatrixMultiSequential α) (out : List α) :
    ∀ n, n ≤ t.result.length → n ≤ out.length →
      ∃ o, (List.range n).foldlM t.copyCell out = some o ∧ o.length = out.length ∧
        ∀ p, o[p]? = if p < n then t.result[p]? else out[p]? := by
  intro n
  induction n with
  | zero => intro _ _; exact ⟨out, rfl, rfl, by simp⟩
  | succ n ih =>
    intro h1 h2
    obtain ⟨o, ho, hlen, hget⟩ := ih (Nat.le_of_succ_le h1) (Nat.le_of_succ_le h2)
    have hn1 : n < t.result.length := h1
    have hn2 : n < o.length := by rw [hlen]; exact h2
    refine ⟨o.set n t.result[n], ?_, ?_, ?_⟩
    · rw [List.range_succ, List.foldlM_append, ho]
      simp [SparseOmpMatrixMultiSequential.copyCell, List.getElem?_eq_getElem hn1, hn2]
    · rw [List.length_set, hlen]
    · intro p
      rw [List.getElem?_set]
      by_cases hp : n = p
      · subst hp
        simp [hn2, List.getElem?_eq_getElem hn1]
      · rw [if_neg hp, hget p]
        by_cases hlt : p < n
        · simp [hlt, Nat.lt_succ_of_lt hlt]
        · have : ¬ p < n + 1 := by omega
          simp [hlt, this]

omit [Semiring α] [DecidableEq α] in
/-- Method `post_processing` copies the accumulator into `outputs[0]` and frees it. -/
theorem post_processing_eq (t : SparseOmpMatrixMultiSequential α) (out : List α)
    (h0 : t.taskData.outputs[0]? = some out)
    (h1 : t.numRows1 * t.numCols2 ≤ t.result.length)
    (h2 : t.numRows1 * t.numCols2 ≤ out.length) :
    ∃ o, t.post_processing = some { t with
          taskData := { t.taskData with outputs := t.taskData.outputs.set 0 o },
          result := [] } ∧
      o.length = out.length ∧
      ∀ p, o[p]? = if p < t.numRows1 * t.numCols2 then t.result[p]? else out[p]? := by
  obtain ⟨o, ho, holen, hoget⟩ := foldlM_copyCell t out (t.numRows1 * t.numCols2) h1 h2
  refine ⟨o, ?_, holen, hoget⟩
  simp only [SparseOmpMatrixMultiSequential.post_processing, h0, ho, Option.bind_eq_bind,
    Option.some_bind]
  rfl

/-- The whole sequential pipeline on a fresh task whose reads are all in range
and whose sizes satisfy `rows(B) = cols(A) ≤ cols(B)`: cell `(i, j)` of the
output holds the dot product of what the encoder read as row `i` of the first
and column `j` of the second matrix when `j < cols(A)`, and 0 otherwise. -/
theorem pipeline_in_range (A B out : List α) (R1 C1 C2 o1 o2 : Nat)
    (hpos : R1 * C2 ≠ 0)
    (hA : ∀ j, j < C1 → ∀ i, i < R1 → i * R1 + j < A.length)
    (hB : ∀ j, j < C2 → ∀ i, i < C1 → i * C1 + j < B.length)
    (hC : C1 ≤ C2) (hout : R1 * C2 ≤ out.length) :
    ∃ t o, (SparseOmpMatrixMultiSequential.fresh
          (mkTaskData A B out R1 C1 C1 C2 o1 o2)).pipeline = some t ∧
      t.taskData.outputs = [o] ∧ o.length = out.length ∧
      (∀ i j, i < R1 → j < C2 →
        o[i * C2 + j]? = some (if j < C1 then
          ((List.range C1).map fun k => cell A R1 i k * cell B C1 k j).sum else 0)) ∧
      ∀ p, R1 * C2 ≤ p → o[p]? = out[p]? := by
  have hpre := pre_processing_fresh A B out R1 C1 C1 C2 o1 o2 hpos hA hB
  generalize ht1 : encodedTask (mkTaskData A B out R1 C1 C1 C2 o1 o2) A B R1 C1 C1 C2 = t1
    at hpre
  have he : IsEncoded t1 A B R1 C1 C1 C2 := by
    subst ht1
    constructor <;> rfl
  have hres : t1.result = List.replicate (R1 * C2) 0 := by subst ht1; rfl
  have htd : t1.taskData = mkTaskData A B out R1 C1 C1 C2 o1 o2 := by subst ht1; rfl
  obtain ⟨res, hrun, hlen, hcell⟩ := run_encoded t1 A B R1 C1 C1 C2 he (Nat.le_refl _) hC hres
  have h0 : ({ t1 with result := res } : SparseOmpMatrixMultiSequential α).taskData.outputs[0]?
      = some out := by simp [htd, mkTaskData]
  obtain ⟨o, hpost, holen, hoget⟩ := post_processing_eq { t1 with result := res } out h0
    (by simp [hlen, he.numRows1_eq, he.numCols2_eq])
    (by simpa [he.numRows1_eq, he.numCols2_eq] using hout)
  simp only [he.numRows1_eq, he.numCols2_eq] at hoget
  have hpipe := hpost
  rw [← Option.some_bind (α := SparseOmpMatrixMultiSequential α)
      ({ t1 with result := res }) (fun t2 => t2.post_processing), ← hrun,
    ← Option.some_bind t1 (fun t1 => t1.run.bind fun t2 => t2.post_processing), ← hpre] at hpipe
  refine ⟨_, o, hpipe, ?_, holen, ?_, ?_⟩
  · simp [htd, mkTaskData]
  · intro i j hi hj
    rw [hoget, if_pos (mul_add_lt R1 C2 i j hi hj)]
    exact hcell i j hi hj
  · intro p hp
    rw [hoget, if_neg (Nat.not_lt.2 hp)]

end Run

end CcsMatMulty

namespace CcsMatMulty

/-! Properties of the encoder output -/

section EncoderInvariants

variable {α : Type} [Zero α] [DecidableEq α]

theorem encode_fresh_colPtr (matrix : List α) (R C : Nat) (e : Ccs α)
    (h : encode matrix R C [] [] [] = some e) :
    ColPtrInvariant matrix R C e.values e.rows e.colPtr := by
  have hr := (encode_isSome_iff matrix R C [] [] []).1 (by rw [h]; rfl)
  rw [encode_eq matrix R C hr] at h
  cases h
  refine ⟨by simp, ?_, ?_, ?_, ?_, ?_⟩
  · simp [offset_zero]
  · intro a b x y hab ha hb
    simp only [List.nil_append] at ha hb
    have ha1 : a ≤ C := by
      have := (List.getElem?_eq_some.1 ha).1
      simp at this; omega
    have hb1 : b ≤ C := by
      have := (List.getElem?_eq_some.1 hb).1
      simp at this; omega
    rw [colPtr_getElem? matrix R C a ha1] at ha
    rw [colPtr_getElem? matrix R C b hb1] at hb
    cases ha; cases hb
    exact offset_mono matrix R hab
  · intro j hj
    simpa using colPtr_getElem? matrix R C j hj
  · simp only [List.nil_append]
    rw [colPtr_getElem? matrix R C C (Nat.le_refl _), length_flatMap_nzVals]
  · simp only [List.nil_append]
    rw [length_flatMap_nzVals, offset]

theorem encode_fresh_rows (matrix : List α) (R C : Nat) (e : Ccs α)
    (h : encode matrix R C [] [] [] = some e) :
    RowsInvariant R C e.rows e.colPtr := by
  have hr := (encode_isSome_iff matrix R C [] [] []).1 (by rw [h]; rfl)
  rw [encode_eq matrix R C hr] at h
  cases h
  simp only [List.nil_append]
  constructor
  · intro j lo hi hj hlo hhi k hk1 hk2
    rw [colPtr_getElem? matrix R C j (Nat.le_of_lt hj)] at hlo
    rw [colPtr_getElem? matrix R C (j + 1) hj, offset_succ] at hhi
    cases hlo; cases hhi
    obtain ⟨s, rfl⟩ := Nat.exists_eq_add_of_le hk1
    have hs : s < (nzRows matrix R j).length := by omega
    rw [rows_getElem? matrix R C j s hj hs]
    exact ⟨(nzRows matrix R j)[s], List.getElem?_eq_getElem hs,
      nzRows_lt matrix R j _ (List.getElem_mem hs)⟩
  · intro j lo hi hj hlo hhi k k1 r r1 hk hkk hk1 hr hr1
    rw [colPtr_getElem? matrix R C j (Nat.le_of_lt hj)] at hlo
    rw [colPtr_getElem? matrix R C (j + 1) hj, offset_succ] at hhi
    cases hlo; cases hhi
    obtain ⟨s, rfl⟩ := Nat.exists_eq_add_of_le hk
    obtain ⟨s1, rfl⟩ := Nat.exists_eq_add_of_le (Nat.le_trans hk (Nat.le_of_lt hkk))
    have hs : s < (nzRows matrix R j).length := by omega
    have hs1 : s1 < (nzRows matrix R j).length := by omega
    rw [rows_getElem? matrix R C j s hj hs, List.getElem?_eq_getElem hs] at hr
    rw [rows_getElem? matrix R C j s1 hj hs1, List.getElem?_eq_getElem hs1] at hr1
    cases hr; cases hr1
    exact List.pairwise_iff_getElem.1 (nzRows_pairwise matrix R j) s s1 hs hs1 (by omega)

/-- When `pre_processing` returns on a fresh task, both encoding blocks returned
and the task holds their vectors. -/
theorem pre_processing_fresh_some (A B out : List α) (R1 C1 R2 C2 o1 o2 : Nat)
    (t : SparseOmpMatrixMultiSequential α)
    (h : (SparseOmpMatrixMultiSequential.fresh
            (mkTaskData A B out R1 C1 R2 C2 o1 o2)).pre_processing = some t) :
    ∃ e1 e2, encode A R1 C1 [] [] [] = some e1 ∧ encode B R2 C2 [] [] [] = some e2 ∧
      t.values1 = e1.values ∧ t.rows1 = e1.rows ∧ t.colPtr1 = e1.colPtr ∧
      t.values2 = e2.values ∧ t.rows2 = e2.rows ∧ t.colPtr2 = e2.colPtr := by
  simp only [SparseOmpMatrixMultiSequential.pre_processing,
    SparseOmpMatrixMultiSequential.fresh, mkTaskData, List.getElem?_cons_zero,
    List.getElem?_cons_succ, Option.bind_eq_bind, Option.some_bind, newZeroed] at h
  by_cases hz : R1 * C2 = 0
  · simp [hz] at h
  · simp only [if_neg hz, Option.some_bind] at h
    cases h1 : encode A R1 C1 [] [] [] with
    | none => simp [h1] at h
    | some e1 =>
      cases h2 : encode B R2 C2 [] [] [] with
      | none => simp [h1, h2] at h
      | some e2 =>
        simp only [h1, h2, Option.some_bind] at h
        cases h
        exact ⟨e1, e2, rfl, rfl, rfl, rfl, rfl, rfl, rfl, rfl⟩

/-- When `pre_processing` returns on a fresh task, its new-expression was
evaluated with a non-zero size, and the task holds the sizes and the zero
accumulator. -/
theorem pre_processing_fresh_sizes (A B out : List α) (R1 C1 R2 C2 o1 o2 : Nat)
    (t : SparseOmpMatrixMultiSequential α)
    (h : (SparseOmpMatrixMultiSequential.fresh
            (mkTaskData A B out R1 C1 R2 C2 o1 o2)).pre_processing = some t) :
    R1 * C2 ≠ 0 ∧ t.numRows1 = R1 ∧ t.numCols1 = C1 ∧ t.numRows2 = R2 ∧ t.numCols2 = C2 ∧
      t.result = List.replicate (R1 * C2) 0 ∧
      t.taskData = mkTaskData A B out R1 C1 R2 C2 o1 o2 := by
  simp only [SparseOmpMatrixMultiSequential.pre_processing,
    SparseOmpMatrixMultiSequential.fresh, mkTaskData, List.getElem?_cons_zero,
    List.getElem?_cons_succ, Option.bind_eq_bind, Option.some_bind, newZeroed] at h
  by_cases hz : R1 * C2 = 0
  · simp [hz] at h
  · simp only [if_neg hz, Option.some_bind] at h
    cases h1 : encode A R1 C1 [] [] [] with
    | none => simp [h1] at h
    | some e1 =>
      cases h2 : encode B R2 C2 [] [] [] with
      | none => simp [h1, h2] at h
      | some e2 =>
        simp only [h1, h2, Option.some_bind] at h
        cases h
        exact ⟨hz, rfl, rfl, rfl, rfl, rfl, rfl⟩

end EncoderInvariants

/-! The iterations of the outer loop of `run` in any order -/

section Schedule

variable {α : Type} [Semiring α]

/-- A fold whose steps commute gives the same result on rearranged lists. -/
theorem foldlM_perm {β γ : Type} (f : β → γ → Option β)
    (hcomm : ∀ b x y, (f b x).bind (fun b1 => f b1 y) = (f b y).bind (fun b1 => f b1 x))
    {l1 l2 : List γ} (hp : l1.Perm l2) : ∀ b, l1.foldlM f b = l2.foldlM f b := by
  induction hp with
  | nil => intro b; rfl
  | cons x _ ih =>
    intro b
    rw [List.foldlM_cons, List.foldlM_cons]
    cases f b x with
    | none => rfl
    | some b1 => exact ih b1
  | swap x y l =>
    intro b
    have h := hcomm b y x
    rw [List.foldlM_cons, List.foldlM_cons]
    cases hy : f b y with
    | none =>
      rw [hy] at h
      cases hx : f b x with
      | none => rfl
      | some b1 =>
        rw [hx] at h
        simp only [Option.none_bind, Option.some_bind] at h
        simp only [Option.none_bind, Option.some_bind, Option.bind_eq_bind, List.foldlM_cons,
          ← h]
    | some b2 =>
      rw [hy] at h
      simp only [Option.some_bind, Option.bind_eq_bind, List.foldlM_cons]
      cases hx : f b x with
      | none =>
        rw [hx] at h
        simp only [Option.none_bind, Option.some_bind] at h
        simp [h]
      | some b1 =>
        rw [hx] at h
        simp only [Option.some_bind] at h
        simp only [Option.some_bind, List.foldlM_cons, Option.bind_eq_bind, h]
  | trans _ _ ih1 ih2 => intro b; rw [ih1 b, ih2 b]

theorem addAt_none (res : List α) (idx : Nat) (v : α) (h : res.length ≤ idx) :
    addAt res idx v = none := by
  simp [addAt, List.getElem?_eq_none h]

theorem addAt_length (res res1 : List α) (idx : Nat) (v : α)
    (h : addAt res idx v = some res1) : res1.length = res.length := by
  by_cases hi : idx < res.length
  · rw [addAt_eq res idx v hi] at h
    cases h
    simp
  · rw [addAt_none res idx v (Nat.le_of_not_lt hi)] at h
    cases h

/-- Two `result[index] += value` statements commute. -/
theorem addAt_comm (res : List α) (i j : Nat) (v w : α) :
    (addAt res i v).bind (fun r => addAt r j w) =
      (addAt res j w).bind (fun r => addAt r i v) := by
  by_cases hi : i < res.length
  · by_cases hj : j < res.length
    · rw [addAt_eq res i v hi, addAt_eq res j w hj]
      simp only [Option.some_bind]
      rw [addAt_eq _ j w (by simpa using hj), addAt_eq _ i v (by simpa using hi),
        getD_set_add res i j v hi, getD_set_add res j i w hj]
      by_cases hij : i = j
      · subst hij
        simp only [if_true, List.set_set]
        rw [add_right_comm]
      · have hji : ¬ j = i := fun h => hij h.symm
        simp only [if_neg hij, if_neg hji, add_zero]
        rw [List.set_comm _ _ _ hij]
    · have hn := addAt_none res j w (Nat.le_of_not_lt hj)
      rw [hn, addAt_eq res i v hi]
      simp only [Option.some_bind, Option.none_bind]
      exact addAt_none _ j w (by simpa using Nat.le_of_not_lt hj)
  · have hn := addAt_none res i v (Nat.le_of_not_lt hi)
    rw [hn]
    simp only [Option.none_bind]
    cases hj : addAt res j w with
    | none => rfl
    | some r =>
      simp only [Option.some_bind]
      rw [addAt_none r i v (by rw [addAt_length res r j w hj]; exact Nat.le_of_not_lt hi)]

/-- A sequence of `result[index] += value` statements can be rearranged. -/
theorem foldlM_addAt_perm {us vs : List (Nat × α)} (hp : us.Perm vs) (res : List α) :
    us.foldlM (fun r u => addAt r u.1 u.2) res = vs.foldlM (fun r u => addAt r u.1 u.2) res :=
  foldlM_perm (fun r (u : Nat × α) => addAt r u.1 u.2)
    (fun b x y => addAt_comm b x.1 y.1 x.2 y.2) hp res

theorem bind_none_right {β γ : Type} (x : Option β) :
    x.bind (fun _ => (none : Option γ)) = none := by
  cases x <;> rfl

/-- A loop whose body first gathers its updates and then applies them gathers
the updates of all iterations and then applies them. -/
theorem foldlM_eq_collect {β γ δ : Type} (f : β → γ → Option β) (g : γ → Option (List δ))
    (h : β → δ → Option β) (hf : ∀ b x, f b x = (g x).bind (fun us => us.foldlM h b)) :
    ∀ (l : List γ) (b : β), l.foldlM f b = (collect g l).bind (fun us => us.foldlM h b) := by
  intro l
  induction l with
  | nil => intro b; rfl
  | cons x l ih =>
    intro b
    rw [List.foldlM_cons, hf b x, collect]
    cases g x with
    | none => rfl
    | some us =>
      simp only [Option.some_bind, Option.bind_eq_bind]
      cases hc : collect g l with
      | none =>
        simp only [Option.none_bind]
        have : (fun b1 => l.foldlM f b1) = fun _ => (none : Option β) := by
          funext b1; rw [ih b1, hc]; rfl
        rw [this]
        exact bind_none_right _
      | some vs =>
        simp only [Option.some_bind, List.foldlM_append, Option.bind_eq_bind]
        congr 1
        funext b1
        rw [ih b1, hc]
        rfl

theorem runInner_ops (t : SparseOmpMatrixMultiSequential α) (j k : Nat) (res : List α)
    (l : Nat) :
    t.runInner j k res l =
      (opsInner t j k l).bind (fun us => us.foldlM (fun r u => addAt r u.1 u.2) res) := by
  unfold SparseOmpMatrixMultiSequential.runInner opsInner
  cases t.rows1[l]? <;> cases t.values1[l]? <;> cases t.values2[k]? <;> simp

theorem runMiddle_ops (t : SparseOmpMatrixMultiSequential α) (j : Nat) (res : List α)
    (k : Nat) :
    t.runMiddle j res k =
      (opsMiddle t j k).bind (fun us => us.foldlM (fun r u => addAt r u.1 u.2) res) := by
  unfold SparseOmpMatrixMultiSequential.runMiddle opsMiddle
  cases h1 : t.rows2[k]? with
  | none => rfl
  | some row2 =>
    simp only [Option.bind_eq_bind, Option.some_bind]
    cases h2 : t.colPtr1[row2]? with
    | none => rfl
    | some lo =>
      simp only [Option.some_bind]
      cases h3 : t.colPtr1[row2 + 1]? with
      | none => rfl
      | some hi =>
        simp only [Option.some_bind]
        exact foldlM_eq_collect _ _ _ (fun b l => runInner_ops t j k b l) _ res

theorem runOuter_ops (t : SparseOmpMatrixMultiSequential α) (res : List α) (j : Nat) :
    t.runOuter res j =
      (opsOuter t j).bind (fun us => us.foldlM (fun r u => addAt r u.1 u.2) res) := by
  unfold SparseOmpMatrixMultiSequential.runOuter opsOuter
  cases h1 : t.colPtr2[j]? with
  | none => rfl
  | some lo =>
    simp only [Option.bind_eq_bind, Option.some_bind]
    cases h2 : t.colPtr2[j + 1]? with
    | none => rfl
    | some hi =>
      simp only [Option.some_bind]
      exact foldlM_eq_collect _ _ _ (fun b k => runMiddle_ops t j b k) _ res

/-- Two iterations of the outer loop of `run` commute. -/
theorem runOuter_comm (t : SparseOmpMatrixMultiSequential α) (res : List α) (j1 j2 : Nat) :
    (t.runOuter res j1).bind (fun r => t.runOuter r j2) =
      (t.runOuter res j2).bind (fun r => t.runOuter r j1) := by
  have h1 : (fun r => t.runOuter r j1) = fun r =>
      (opsOuter t j1).bind (fun us => us.foldlM (fun r u => addAt r u.1 u.2) r) := by
    funext r; exact runOuter_ops t r j1
  have h2 : (fun r => t.runOuter r j2) = fun r =>
      (opsOuter t j2).bind (fun us => us.foldlM (fun r u => addAt r u.1 u.2) r) := by
    funext r; exact runOuter_ops t r j2
  rw [h1, h2, runOuter_ops t res j1, runOuter_ops t res j2]
  cases opsOuter t j1 with
  | none =>
    simp only [Option.none_bind]
    exact (bind_none_right _).symm
  | some us =>
    cases opsOuter t j2 with
    | none =>
      simp only [Option.none_bind, Option.some_bind]
      exact bind_none_right _
    | some vs =>
      simp only [Option.some_bind]
      have e1 := List.foldlM_append (fun r (u : Nat × α) => addAt r u.1 u.2) res us vs
      have e2 := List.foldlM_append (fun r (u : Nat × α) => addAt r u.1 u.2) res vs us
      simp only [Option.bind_eq_bind] at e1 e2
      rw [← e1, ← e2]
      exact foldlM_addAt_perm List.perm_append_comm res

/-- The outer loop of `run` gives the same accumulator whatever the order of
its iterations. -/
theorem foldlM_runOuter_perm (t : SparseOmpMatrixMultiSequential α) {order : List Nat}
    (hp : order.Perm (List.range t.numCols1)) (res : List α) :
    order.foldlM t.runOuter res = (List.range t.numCols1).foldlM t.runOuter res :=
  foldlM_perm t.runOuter (fun b x y => runOuter_comm t b x y) hp res

theorem parallel_runOuter_eq (p : SparseOmpMatrixMultiParallel α) (res : List α) (j : Nat) :
    p.runOuter res j = p.toSequential.runOuter res j := rfl

omit [Semiring α] in
theorem parallel_pre_processing_eq [Zero α] [DecidableEq α]
    (p : SparseOmpMatrixMultiParallel α) :
    p.pre_processing.map SparseOmpMatrixMultiParallel.toSequential =
      p.toSequential.pre_processing := by
  simp only [SparseOmpMatrixMultiParallel.pre_processing,
    SparseOmpMatrixMultiSequential.pre_processing,
    SparseOmpMatrixMultiParallel.toSequential, Option.bind_eq_bind]
  cases p.taskData.inputs[0]? <;> cases p.taskData.inputs[1]? <;>
    cases p.taskData.inputs_count[0]? <;> cases p.taskData.inputs_count[1]? <;>
    cases p.taskData.inputs_count[2]? <;> cases p.taskData.inputs_count[3]? <;>
    simp only [Option.none_bind, Option.some_bind, Option.map_none']
  rename_i m1 m2 r1 c1 r2 c2
  cases newZeroed (α := α) (r1 * c2) <;>
    simp only [Option.none_bind, Option.some_bind, Option.map_none']
  cases encode m1 r1 c1 p.values1 p.rows1 p.colPtr1 <;>
    cases encode m2 r2 c2 p.values2 p.rows2 p.colPtr2 <;> rfl

omit [Semiring α] in
theorem map_bind_congr {β γ δ : Type} (x : Option β) (f : β → Option γ) (g : β → Option δ)
    (m : γ → δ) (h : ∀ a, (f a).map m = g a) : (x.bind f).map m = x.bind g := by
  cases x with
  | none => rfl
  | some a => exact h a

omit [Semiring α] in
theorem parallel_post_processing_eq (p : SparseOmpMatrixMultiParallel α) :
    p.post_processing.map SparseOmpMatrixMultiParallel.toSequential =
      p.toSequential.post_processing := by
  unfold SparseOmpMatrixMultiParallel.post_processing
    SparseOmpMatrixMultiSequential.post_processing
  refine map_bind_congr _ _ _ _ (fun out_ptr => ?_)
  refine map_bind_congr _ _ _ _ (fun out => ?_)
  rfl

/-- The parallel `run` with a schedule that rearranges `0 .. numCols1 - 1`
leaves what the sequential `run` leaves. -/
theorem parallel_run_eq (p : SparseOmpMatrixMultiParallel α) (order : List Nat)
    (hp : order.Perm (List.range p.numCols1)) :
    (p.run order).map SparseOmpMatrixMultiParallel.toSequential = p.toSequential.run := by
  have h : order.foldlM p.runOuter p.result =
      (List.range p.toSequential.numCols1).foldlM p.toSequential.runOuter
        p.toSequential.result :=
    foldlM_runOuter_perm p.toSequential hp p.result
  unfold SparseOmpMatrixMultiParallel.run SparseOmpMatrixMultiSequential.run
  rw [h]
  refine map_bind_congr _ _ _ _ (fun res => ?_)
  rfl

/-- The parallel pipeline, whatever the schedule of its `run`, leaves what the
sequential pipeline leaves on the same task. -/
theorem parallel_pipeline_eq [DecidableEq α] (p : SparseOmpMatrixMultiParallel α)
    (order : List Nat)
    (hp : ∀ p1, p.pre_processing = some p1 → order.Perm (List.range p1.numCols1)) :
    (p.pipeline order).map SparseOmpMatrixMultiParallel.toSequential =
      p.toSequential.pipeline := by
  unfold SparseOmpMatrixMultiParallel.pipeline SparseOmpMatrixMultiSequential.pipeline
  rw [← parallel_pre_processing_eq p]
  cases h1 : p.pre_processing with
  | none => rfl
  | some p1 =>
    simp only [Option.some_bind, Option.map_some']
    rw [← parallel_run_eq p1 order (hp p1 h1)]
    cases p1.run order with
    | none => rfl
    | some p2 =>
      simp only [Option.some_bind, Option.map_some']
      exact parallel_post_processing_eq p2

omit [Semiring α] in
theorem parallel_pre_processing_numCols1 [Zero α] [DecidableEq α]
    (A B out : List α) (R1 C1 R2 C2 o1 o2 : Nat) (p1 : SparseOmpMatrixMultiParallel α)
    (h : (SparseOmpMatrixMultiParallel.fresh
            (mkTaskData A B out R1 C1 R2 C2 o1 o2)).pre_processing = some p1) :
    p1.numCols1 = C1 ∧ p1.numCols2 = C2 ∧ p1.numRows1 = R1 ∧ p1.numRows2 = R2 := by
  simp only [SparseOmpMatrixMultiParallel.pre_processing,
    SparseOmpMatrixMultiParallel.fresh, mkTaskData, List.getElem?_cons_zero,
    List.getElem?_cons_succ, Option.bind_eq_bind, Option.some_bind, newZeroed] at h
  by_cases hz : R1 * C2 = 0
  · simp [hz] at h
  · simp only [if_neg hz, Option.some_bind] at h
    cases h1 : encode A R1 C1 [] [] [] with
    | none => simp [h1] at h
    | some e1 =>
      cases h2 : encode B R2 C2 [] [] [] with
      | none => simp [h1, h2] at h
      | some e2 =>
        simp only [h1, h2, Option.some_bind] at h
        cases h
        exact ⟨rfl, rfl, rfl, rfl⟩

omit [Semiring α] in
theorem mem_collect {γ δ : Type} (g : γ → Option (List δ)) :
    ∀ (l : List γ) (us : List δ), collect g l = some us → ∀ u, u ∈ us →
      ∃ x, x ∈ l ∧ ∃ vs, g x = some vs ∧ u ∈ vs := by
  intro l
  induction l with
  | nil =>
    intro us h u hu
    simp only [collect, Option.some.injEq] at h
    subst h
    simp at hu
  | cons x l ih =>
    intro us h u hu
    rw [collect] at h
    cases hg : g x with
    | none => simp [hg] at h
    | some vs =>
      cases hc : collect g l with
      | none => simp [hg, hc] at h
      | some ws =>
        simp only [hg, hc, Option.some_bind, Option.some.injEq] at h
        subst h
        rcases List.mem_append.1 hu with h1 | h2
        · exact ⟨x, List.mem_cons_self _ _, vs, hg, h1⟩
        · obtain ⟨y, hy, zs, hz, huz⟩ := ih ws hc u h2
          exact ⟨y, List.mem_cons_of_mem _ hy, zs, hz, huz⟩

/-- Every update of iteration `j` of the outer loop goes to an index
`row * numCols2 + j` with `row` an entry of `rows1`. -/
theorem opsOuter_index (t : SparseOmpMatrixMultiSequential α) (j : Nat)
    (us : List (Nat × α)) (h : opsOuter t j = some us) (u : Nat × α) (hu : u ∈ us) :
    ∃ r, r ∈ t.rows1 ∧ u.1 = r * t.numCols2 + j := by
  unfold opsOuter at h
  cases h1 : t.colPtr2[j]? with
  | none => simp [h1] at h
  | some lo =>
    cases h2 : t.colPtr2[j + 1]? with
    | none => simp [h1, h2] at h
    | some hi =>
      simp only [h1, h2, Option.bind_eq_bind, Option.some_bind] at h
      obtain ⟨k, _, vs, hvs, huvs⟩ := mem_collect _ _ us h u hu
      unfold opsMiddle at hvs
      cases h3 : t.rows2[k]? with
      | none => simp [h3] at hvs
      | some row2 =>
        cases h4 : t.colPtr1[row2]? with
        | none => simp [h3, h4] at hvs
        | some lo1 =>
          cases h5 : t.colPtr1[row2 + 1]? with
          | none => simp [h3, h4, h5] at hvs
          | some hi1 =>
            simp only [h3, h4, h5, Option.bind_eq_bind, Option.some_bind] at hvs
            obtain ⟨l, _, ws, hws, huws⟩ := mem_collect _ _ vs hvs u huvs
            unfold opsInner at hws
            cases h6 : t.rows1[l]? with
            | none => simp [h6] at hws
            | some row1 =>
              cases h7 : t.values1[l]? with
              | none => simp [h6, h7] at hws
              | some val1 =>
                cases h8 : t.values2[k]? with
                | none => simp [h6, h7, h8] at hws
                | some val2 =>
                  simp only [h6, h7, h8, Option.bind_eq_bind, Option.some_bind, Option.pure_def,
                    Option.some.injEq] at hws
                  subst hws
                  simp only [List.mem_singleton] at huws
                  subst huws
                  exact ⟨row1, List.mem_iff_getElem?.2 ⟨l, h6⟩, rfl⟩

/-- A sequence of `result[index] += value` statements that returns keeps the
length and every cell that is not among its indices. -/
theorem foldlM_addAt_frame (us : List (Nat × α)) :
    ∀ (res res1 : List α), us.foldlM (fun r u => addAt r u.1 u.2) res = some res1 →
      res1.length = res.length ∧
      ∀ q, (∀ u, u ∈ us → u.1 ≠ q) → res1[q]? = res[q]? := by
  induction us with
  | nil =>
    intro res res1 h
    simp only [List.foldlM_nil, Option.pure_def, Option.some.injEq] at h
    subst h
    exact ⟨rfl, fun _ _ => rfl⟩
  | cons u us ih =>
    intro res res1 h
    rw [List.foldlM_cons] at h
    by_cases hi : u.1 < res.length
    · rw [addAt_eq res u.1 u.2 hi] at h
      simp only [Option.bind_eq_bind, Option.some_bind] at h
      obtain ⟨hl, hq⟩ := ih _ res1 h
      refine ⟨by rw [hl, List.length_set], fun q hne => ?_⟩
      rw [hq q (fun w hw => hne w (List.mem_cons_of_mem _ hw)),
        List.getElem?_set_ne (hne u (List.mem_cons_self _ _))]
    · rw [addAt_none res u.1 u.2 (Nat.le_of_not_lt hi)] at h
      simp at h

/-- An iteration `j` of the outer loop of `run` that returns has read
`colPtr2[j + 1]` in range, keeps the length of the accumulator and changes only
cells `row * numCols2 + j` with `row` an entry of `rows1`. -/
theorem runOuter_frame (t : SparseOmpMatrixMultiSequential α) (res res1 : List α) (j : Nat)
    (h : t.runOuter res j = some res1) :
    (∃ hi, t.colPtr2[j + 1]? = some hi) ∧ res1.length = res.length ∧
      ∀ q, (∀ r, r ∈ t.rows1 → q ≠ r * t.numCols2 + j) → res1[q]? = res[q]? := by
  rw [runOuter_ops] at h
  cases ho : opsOuter t j with
  | none => simp [ho] at h
  | some us =>
    rw [ho] at h
    simp only [Option.some_bind] at h
    obtain ⟨hl, hq⟩ := foldlM_addAt_frame us res res1 h
    refine ⟨?_, hl, fun q hne => hq q (fun u hu heq => ?_)⟩
    · unfold opsOuter at ho
      cases h1 : t.colPtr2[j]? with
      | none => simp [h1] at ho
      | some lo =>
        cases h2 : t.colPtr2[j + 1]? with
        | none => simp [h1, h2] at ho
        | some hi => exact ⟨hi, rfl⟩
    · obtain ⟨r, hr, hidx⟩ := opsOuter_index t j us ho u hu
      exact hne r hr (by rw [← heq, hidx])

omit [Semiring α] in
theorem encode_fresh_rows_lt [Zero α] [DecidableEq α] (matrix : List α) (R C : Nat)
    (e : Ccs α) (h : encode matrix R C [] [] [] = some e) : ∀ r, r ∈ e.rows → r < R := by
  have hr := (encode_isSome_iff matrix R C [] [] []).1 (by rw [h]; rfl)
  rw [encode_eq matrix R C hr] at h
  cases h
  intro r hmem
  simp only [List.nil_append, List.mem_flatMap] at hmem
  obtain ⟨j, _, hj⟩ := hmem
  exact nzRows_lt matrix R j r hj

end Schedule

/-! What the encoder stores, and a second call of `pre_processing` -/

section Stored

variable {α : Type} [Zero α] [DecidableEq α]

/-- The encoder stores no zero, and it stores every non-zero element it reads,
in the block of the column it was read for, with its row. -/
theorem encode_fresh_stores (matrix : List α) (R C : Nat) (e : Ccs α)
    (h : encode matrix R C [] [] [] = some e) :
    (∀ v, v ∈ e.values → v ≠ 0) ∧
    ∀ i j x, i < R → j < C → matrix[i * R + j]? = some x → x ≠ 0 →
      ∃ k lo hi, e.colPtr[j]? = some lo ∧ e.colPtr[j + 1]? = some hi ∧ lo ≤ k ∧ k < hi ∧
        e.rows[k]? = some i ∧ e.values[k]? = some x := by
  have hr := (encode_isSome_iff matrix R C [] [] []).1 (by rw [h]; rfl)
  rw [encode_eq matrix R C hr] at h
  cases h
  simp only [List.nil_append]
  constructor
  · intro v hv
    simp only [List.mem_flatMap, nzVals, nzRows, List.mem_map, List.mem_filter] at hv
    obtain ⟨j, _, i, ⟨_, hne⟩, rfl⟩ := hv
    simpa using hne
  · intro i j x hi hj hx hne
    have hcell : cell matrix R i j = x := by
      simp [cell, List.getD, hx]
    have hmem : i ∈ nzRows matrix R j := by
      simp only [nzRows, List.mem_filter, List.mem_range]
      exact ⟨hi, by simpa [hcell] using hne⟩
    obtain ⟨s, hs, hsi⟩ := List.getElem_of_mem hmem
    refine ⟨offset matrix R j + s, offset matrix R j,
      offset matrix R j + (nzRows matrix R j).length,
      colPtr_getElem? matrix R C j (Nat.le_of_lt hj), ?_, Nat.le_add_right _ _,
      Nat.add_lt_add_left hs _, ?_, ?_⟩
    · rw [colPtr_getElem? matrix R C (j + 1) hj, offset_succ]
    · rw [rows_getElem? matrix R C j s hj hs, List.getElem?_eq_getElem hs, hsi]
    · rw [values_getElem? matrix R C j s hj hs]
      simp [nzVals, List.getElem?_eq_getElem hs, hsi, hcell]

theorem encodeRow_eq_ite (matrix : List α) (S j : Nat) (s : Ccs α) (i : Nat) (x : α)
    (hx : matrix[i * S + j]? = some x) :
    encodeRow matrix S j s i =
      some (if x ≠ 0 then
        { s with values := s.values ++ [x], rows := s.rows ++ [i],
                 notNullNumbers := s.notNullNumbers + 1 }
      else s) := by
  by_cases h : x = 0 <;> simp [encodeRow, hx, h]

/-- A second `pre_processing` on the task left by a first one on a fresh task
pushes a second copy of every encoding vector behind the first. -/
theorem pre_processing_twice (A B out : List α) (R1 C1 R2 C2 o1 o2 : Nat)
    (t1 : SparseOmpMatrixMultiSequential α)
    (h : (SparseOmpMatrixMultiSequential.fresh
            (mkTaskData A B out R1 C1 R2 C2 o1 o2)).pre_processing = some t1) :
    ∃ t2, t1.pre_processing = some t2 ∧
      t2.values1 = t1.values1 ++ t1.values1 ∧ t2.rows1 = t1.rows1 ++ t1.rows1 ∧
      t2.colPtr1 = t1.colPtr1 ++ t1.colPtr1 ∧
      t2.values2 = t1.values2 ++ t1.values2 ∧ t2.rows2 = t1.rows2 ++ t1.rows2 ∧
      t2.colPtr2 = t1.colPtr2 ++ t1.colPtr2 ∧
      t1.colPtr1.length = C1 + 1 ∧ t1.colPtr2.length = C2 + 1 := by
  obtain ⟨e1, e2, h1, h2, _⟩ := pre_processing_fresh_some A B out R1 C1 R2 C2 o1 o2 t1 h
  have hA := (encode_isSome_iff A R1 C1 [] [] []).1 (by rw [h1]; rfl)
  have hB := (encode_isSome_iff B R2 C2 [] [] []).1 (by rw [h2]; rfl)
  have hz := (pre_processing_fresh_sizes A B out R1 C1 R2 C2 o1 o2 t1 h).1
  simp only [SparseOmpMatrixMultiSequential.pre_processing,
    SparseOmpMatrixMultiSequential.fresh, mkTaskData, List.getElem?_cons_zero,
    List.getElem?_cons_succ, Option.bind_eq_bind, Option.some_bind, newZeroed, if_neg hz,
    encode_eq A R1 C1 hA, encode_eq B R2 C2 hB, List.nil_append, Option.pure_def,
    Option.some.injEq] at h
  subst h
  simp only [SparseOmpMatrixMultiSequential.pre_processing, mkTaskData,
    List.getElem?_cons_zero, List.getElem?_cons_succ, Option.bind_eq_bind, Option.some_bind,
    newZeroed, if_neg hz, encode_eq A R1 C1 hA, encode_eq B R2 C2 hB, Option.pure_def]
  exact ⟨_, rfl, rfl, rfl, rfl, rfl, rfl, rfl, by simp, by simp⟩

end Stored

/-! Running the stages a second time on the same task -/

section Rerun

variable {α : Type} [Semiring α]

omit [Semiring α] in
theorem getElem?_append_some {β : Type} (l e : List β) (i : Nat) (x : β)
    (h : l[i]? = some x) : (l ++ e)[i]? = some x := by
  rw [List.getElem?_append_left (List.getElem?_eq_some.1 h).1]
  exact h

omit [Semiring α] in
theorem ext_read {β : Type} (l1 l : List β) (hext : ∃ e, l1 = l ++ e) (i : Nat) (x : β)
    (h : l[i]? = some x) : l1[i]? = some x := by
  obtain ⟨e, rfl⟩ := hext
  exact getElem?_append_some l e i x h

omit [Semiring α] in
theorem collect_mono {γ δ : Type} (g g1 : γ → Option (List δ))
    (hg : ∀ x us, g x = some us → g1 x = some us) :
    ∀ (l : List γ) (us : List δ), collect g l = some us → collect g1 l = some us := by
  intro l
  induction l with
  | nil => intro us h; exact h
  | cons x l ih =>
    intro us h
    rw [collect] at h ⊢
    cases hx : g x with
    | none => simp [hx] at h
    | some vs =>
      cases hc : collect g l with
      | none => simp [hx, hc] at h
      | some ws =>
        rw [hx, hc] at h
        rw [hg x vs hx, ih ws hc]
        exact h

theorem opsInner_mono (t1 t : SparseOmpMatrixMultiSequential α) (he : ExtendsVectors t1 t)
    (j k l : Nat) (us : List (Nat × α)) (h : opsInner t j k l = some us) :
    opsInner t1 j k l = some us := by
  unfold opsInner at h ⊢
  cases h1 : t.rows1[l]? with
  | none => simp [h1] at h
  | some row1 =>
    cases h2 : t.values1[l]? with
    | none => simp [h1, h2] at h
    | some val1 =>
      cases h3 : t.values2[k]? with
      | none => simp [h1, h2, h3] at h
      | some val2 =>
        rw [h1, h2, h3] at h
        rw [ext_read _ _ he.rows1_ext l row1 h1, ext_read _ _ he.values1_ext l val1 h2,
          ext_read _ _ he.values2_ext k val2 h3, he.numCols2_eq]
        exact h

theorem opsMiddle_mono (t1 t : SparseOmpMatrixMultiSequential α) (he : ExtendsVectors t1 t)
    (j k : Nat) (us : List (Nat × α)) (h : opsMiddle t j k = some us) :
    opsMiddle t1 j k = some us := by
  unfold opsMiddle at h ⊢
  cases h1 : t.rows2[k]? with
  | none => simp [h1] at h
  | some row2 =>
    cases h2 : t.colPtr1[row2]? with
    | none => simp [h1, h2] at h
    | some lo =>
      cases h3 : t.colPtr1[row2 + 1]? with
      | none => simp [h1, h2, h3] at h
      | some hi =>
        simp only [h1, h2, h3, Option.bind_eq_bind, Option.some_bind] at h
        simp only [ext_read _ _ he.rows2_ext k row2 h1, ext_read _ _ he.colPtr1_ext row2 lo h2,
          ext_read _ _ he.colPtr1_ext (row2 + 1) hi h3, Option.bind_eq_bind, Option.some_bind]
        exact collect_mono _ _ (fun l vs hl => opsInner_mono t1 t he j k l vs hl) _ us h

theorem opsOuter_mono (t1 t : SparseOmpMatrixMultiSequential α) (he : ExtendsVectors t1 t)
    (j : Nat) (us : List (Nat × α)) (h : opsOuter t j = some us) :
    opsOuter t1 j = some us := by
  unfold opsOuter at h ⊢
  cases h1 : t.colPtr2[j]? with
  | none => simp [h1] at h
  | some lo =>
    cases h2 : t.colPtr2[j + 1]? with
    | none => simp [h1, h2] at h
    | some hi =>
      simp only [h1, h2, Option.bind_eq_bind, Option.some_bind] at h
      simp only [ext_read _ _ he.colPtr2_ext j lo h1,
        ext_read _ _ he.colPtr2_ext (j + 1) hi h2, Option.bind_eq_bind, Option.some_bind]
      exact collect_mono _ _ (fun k vs hk => opsMiddle_mono t1 t he j k vs hk) _ us h

/-- An iteration of the outer loop of `run` that returns on `t` returns the
same accumulator on a task whose vectors extend those of `t`. -/
theorem runOuter_mono (t1 t : SparseOmpMatrixMultiSequential α) (he : ExtendsVectors t1 t)
    (res r : List α) (j : Nat) (h : t.runOuter res j = some r) :
    t1.runOuter res j = some r := by
  rw [runOuter_ops] at h ⊢
  cases ho : opsOuter t j with
  | none => simp [ho] at h
  | some us =>
    rw [ho] at h
    rw [opsOuter_mono t1 t he j us ho]
    exact h

omit [Semiring α] in
theorem foldlM_mono {β γ : Type} (f f1 : β → γ → Option β)
    (hf : ∀ b x r, f b x = some r → f1 b x = some r) :
    ∀ (l : List γ) (b r : β), l.foldlM f b = some r → l.foldlM f1 b = some r := by
  intro l
  induction l with
  | nil => intro b r h; exact h
  | cons x l ih =>
    intro b r h
    rw [List.foldlM_cons] at h ⊢
    cases hx : f b x with
    | none => simp [hx] at h
    | some b1 =>
      rw [hx] at h
      rw [hf b x b1 hx]
      exact ih b1 r h

/-- If `run` returns on `t`, it returns the same accumulator on a task whose
vectors extend those of `t`. -/
theorem run_mono (t1 t : SparseOmpMatrixMultiSequential α) (he : ExtendsVectors t1 t)
    (res : List α) (h : t.run = some { t with result := res }) :
    t1.run = some { t1 with result := res } := by
  unfold SparseOmpMatrixMultiSequential.run at h ⊢
  cases hf : (List.range t.numCols1).foldlM t.runOuter t.result with
  | none => simp [hf] at h
  | some r =>
    rw [hf] at h
    simp only [Option.bind_eq_bind, Option.some_bind, Option.pure_def, Option.some.injEq,
      SparseOmpMatrixMultiSequential.mk.injEq, true_and, and_true] at h
    have h1 := foldlM_mono t.runOuter t1.runOuter
      (fun b x r1 hb => runOuter_mono t1 t he b r1 x hb) _ _ r hf
    rw [he.numCols1_eq, he.result_eq, h1]
    simp only [Option.bind_eq_bind, Option.some_bind, Option.pure_def, h]

omit [Semiring α] in
/-- Two buffers of length `n * n` with the same cells are equal. -/
theorem ext_cells (n : Nat) (o o1 : List α) (h : o.length = n * n) (h1 : o1.length = n * n)
    (f : Nat → Nat → α)
    (c : ∀ i j, i < n → j < n → o[i * n + j]? = some (f i j))
    (c1 : ∀ i j, i < n → j < n → o1[i * n + j]? = some (f i j)) : o1 = o := by
  apply List.ext_getElem?
  intro p
  by_cases hp : p < n * n
  · have hn : 0 < n := by
      rcases Nat.eq_zero_or_pos n with h0 | h0
      · subst h0; simp at hp
      · exact h0
    have hdiv : p / n < n := Nat.div_lt_of_lt_mul hp
    have hmod : p % n < n := Nat.mod_lt p hn
    have hpe : p / n * n + p % n = p := by
      rw [Nat.mul_comm]; exact Nat.div_add_mod p n
    rw [← hpe, c (p / n) (p % n) hdiv hmod, c1 (p / n) (p % n) hdiv hmod]
  · rw [List.getElem?_eq_none (by omega), List.getElem?_eq_none (by omega)]

omit [Semiring α] in
/-- A call of `pre_processing` on any task whose task data hold `A`, `B` and
their sizes, with all reads in range: the new encodings are pushed behind the
vectors the task holds and the accumulator is allocated anew. -/
theorem pre_processing_again [Zero α] [DecidableEq α]
    (t : SparseOmpMatrixMultiSequential α) (A B : List α) (R1 C1 R2 C2 : Nat)
    (hin : t.taskData.inputs = [A, B]) (hcnt : t.taskData.inputs_count = [R1, C1, R2, C2])
    (hpos : R1 * C2 ≠ 0)
    (hA : ∀ j, j < C1 → ∀ i, i < R1 → i * R1 + j < A.length)
    (hB : ∀ j, j < C2 → ∀ i, i < R2 → i * R2 + j < B.length) :
    ∃ t4, t.pre_processing = some t4 ∧ t4.taskData = t.taskData ∧
      t4.numRows1 = R1 ∧ t4.numCols1 = C1 ∧ t4.numCols2 = C2 ∧
      t4.result = List.replicate (R1 * C2) 0 ∧
      t4.values1 = t.values1 ++ (List.range C1).flatMap (nzVals A R1) ∧
      t4.rows1 = t.rows1 ++ (List.range C1).flatMap (nzRows A R1) ∧
      t4.colPtr1 = t.colPtr1 ++ (List.range (C1 + 1)).map (offset A R1) ∧
      t4.values2 = t.values2 ++ (List.range C2).flatMap (nzVals B R2) ∧
      t4.rows2 = t.rows2 ++ (List.range C2).flatMap (nzRows B R2) ∧
      t4.colPtr2 = t.colPtr2 ++ (List.range (C2 + 1)).map (offset B R2) := by
  simp only [SparseOmpMatrixMultiSequential.pre_processing, hin, hcnt,
    List.getElem?_cons_zero, List.getElem?_cons_succ, Option.bind_eq_bind, Option.some_bind,
    newZeroed, if_neg hpos, encode_eq A R1 C1 hA, encode_eq B R2 C2 hB, Option.pure_def]
  exact ⟨_, rfl, rfl, rfl, rfl, rfl, rfl, rfl, rfl, rfl, rfl, rfl, rfl⟩

/-- The three stages on a task whose task data hold the `n × n` matrices `A`,
`B` and an output buffer of length `n * n`, and whose vectors are empty or
already hold one encoding of `A` and `B`: the stages return, the output buffer
holds the product, and the vectors have one more copy of the encoding. -/
theorem pipeline_on_held (t : SparseOmpMatrixMultiSequential α) [DecidableEq α]
    (n : Nat) (A B o : List α) (hn : 1 ≤ n)
    (hin : t.taskData.inputs = [A, B]) (hcnt : t.taskData.inputs_count = [n, n, n, n])
    (hout : t.taskData.outputs = [o]) (hol : o.length = n * n)
    (hA : A.length = n * n) (hB : B.length = n * n)
    (h1 : ∃ e, t.values1 ++ (List.range n).flatMap (nzVals A n) =
      (List.range n).flatMap (nzVals A n) ++ e)
    (h2 : ∃ e, t.rows1 ++ (List.range n).flatMap (nzRows A n) =
      (List.range n).flatMap (nzRows A n) ++ e)
    (h3 : ∃ e, t.colPtr1 ++ (List.range (n + 1)).map (offset A n) =
      (List.range (n + 1)).map (offset A n) ++ e)
    (h4 : ∃ e, t.values2 ++ (List.range n).flatMap (nzVals B n) =
      (List.range n).flatMap (nzVals B n) ++ e)
    (h5 : ∃ e, t.rows2 ++ (List.range n).flatMap (nzRows B n) =
      (List.range n).flatMap (nzRows B n) ++ e)
    (h6 : ∃ e, t.colPtr2 ++ (List.range (n + 1)).map (offset B n) =
      (List.range (n + 1)).map (offset B n) ++ e) :
    ∃ t5 o5, t.pipeline = some t5 ∧ t5.taskData.outputs = [o5] ∧ o5.length = n * n ∧
      (∀ i j, i < n → j < n → o5[i * n + j]? = some (denseEntry A B n n i j)) ∧
      t5.taskData.inputs = [A, B] ∧ t5.taskData.inputs_count = [n, n, n, n] ∧
      t5.values1 = t.values1 ++ (List.range n).flatMap (nzVals A n) ∧
      t5.rows1 = t.rows1 ++ (List.range n).flatMap (nzRows A n) ∧
      t5.colPtr1 = t.colPtr1 ++ (List.range (n + 1)).map (offset A n) ∧
      t5.values2 = t.values2 ++ (List.range n).flatMap (nzVals B n) ∧
      t5.rows2 = t.rows2 ++ (List.range n).flatMap (nzRows B n) ∧
      t5.colPtr2 = t.colPtr2 ++ (List.range (n + 1)).map (offset B n) := by
  obtain ⟨t4, hpre, htd, hr1, hc1, hc2, hres, e1, e2, e3, e4, e5, e6⟩ :=
    pre_processing_again t A B n n n n hin hcnt (Nat.mul_ne_zero (by omega) (by omega))
      (fun j hj i hi => by rw [hA]; exact mul_add_lt n n i j hi hj)
      (fun j hj i hi => by rw [hB]; exact mul_add_lt n n i j hi hj)
  have he0 : IsEncoded (encodedTask t.taskData A B n n n n) A B n n n n := by
    constructor <;> rfl
  obtain ⟨res, hrun0, hlen, hcell⟩ := run_encoded (encodedTask t.taskData A B n n n n)
    A B n n n n he0 (Nat.le_refl _) (Nat.le_refl _) rfl
  have hext : ExtendsVectors t4 (encodedTask t.taskData A B n n n n) :=
    { numCols1_eq := hc1, numCols2_eq := hc2, result_eq := hres,
      values1_ext := by rw [e1]; exact h1, rows1_ext := by rw [e2]; exact h2,
      colPtr1_ext := by rw [e3]; exact h3, values2_ext := by rw [e4]; exact h4,
      rows2_ext := by rw [e5]; exact h5, colPtr2_ext := by rw [e6]; exact h6 }
  have hrun := run_mono t4 _ hext res hrun0
  have h0 : ({ t4 with result := res } : SparseOmpMatrixMultiSequential α).taskData.outputs[0]?
      = some o := by simp [htd, hout]
  obtain ⟨o5, hpost, ho5len, ho5get⟩ := post_processing_eq { t4 with result := res } o h0
    (by simp [hlen, hr1, hc2]) (by simp [hr1, hc2, hol])
  simp only [hr1, hc2] at ho5get
  have hpipe := hpost
  rw [← Option.some_bind (α := SparseOmpMatrixMultiSequential α)
      ({ t4 with result := res }) (fun t2 => t2.post_processing), ← hrun,
    ← Option.some_bind t4 (fun t1 => t1.run.bind fun t2 => t2.post_processing), ← hpre] at hpipe
  refine ⟨_, o5, hpipe, ?_, by rw [ho5len, hol], ?_, ?_, ?_, e1, e2, e3, e4, e5, e6⟩
  · simp [htd, hout]
  · intro i j hi hj
    rw [ho5get, if_pos (mul_add_lt n n i j hi hj), hcell i j hi hj, if_pos hj]
    rfl
  · simp [htd, hin]
  · simp [htd, hcnt]

end Rerun

/-! The subscripts of `run` after `pre_processing` -/

section Bounds

end Bounds

/-! The claims -/

section Claims

/-- C1 (the code departs from the claim): `A = [1, 1]` is `1 × 2`, `B` is the
`2 × 3` matrix of ones, the output is declared `1 × 3`. `validation` accepts,
the dense product is `[2, 2, 2]`, but the pipeline writes `[2, 2, 0]`: the
outer loop of `run` stops at `numCols1 = 2`, so column 2 of `B` is never
processed. -/
theorem pipeline_1x2_2x3_misses_last_column :
    (SparseOmpMatrixMultiSequential.fresh
        (mkTaskData (α := ℤ) [1, 1] [1, 1, 1, 1, 1, 1] [0, 0, 0] 1 2 2 3 1 3)).validation
      = some true ∧
    ((SparseOmpMatrixMultiSequential.fresh
        (mkTaskData (α := ℤ) [1, 1] [1, 1, 1, 1, 1, 1] [0, 0, 0] 1 2 2 3 1 3)).pipeline.map
          fun t => t.taskData.outputs) = some [[2, 2, 0]] ∧
    denseEntry (α := ℤ) [1, 1] [1, 1, 1, 1, 1, 1] 2 3 0 2 = 2 := by
  decide

/-- C3 (the code departs from the claim): the kernel alone on the well-formed
encodings of `A = [1]` (`1 × 1`) and `B = [1, 1]` (`1 × 2`) with a zeroed
accumulator of size 2. Column 1 of `B` holds the entry `(1, row 0)` and column 0
of `A` holds `(1, row 0)`, so `result[0 * 2 + 1]` should be 1; `run` leaves
`[1, 0]`. -/
theorem run_1x1_1x2_skips_column :
    (SparseOmpMatrixMultiSequential.run (α := ℤ)
        { taskData := mkTaskData [1] [1, 1] [0, 0] 1 1 1 2 1 2,
          numRows1 := 1, numCols1 := 1, numRows2 := 1, numCols2 := 2,
          result := [0, 0],
          values1 := [1], rows1 := [0], colPtr1 := [0, 1],
          values2 := [1, 1], rows2 := [0, 0], colPtr2 := [0, 1, 2] }).map
        (fun t => t.result) = some [1, 0] := by
  decide

/-- C4: `validation` of the sequential and of the parallel task never fails on
task data with four input counts `[r1, c1, r2, c2]` and two output counts
`[o1, o2]`, and it returns `true` exactly when `c1 = r2`, `o1 = r1` and
`o2 = c2`; hence with the output declared `r1 × c2` it accepts iff `c1 = r2`. -/
theorem validation_iff {α : Type} (t : SparseOmpMatrixMultiSequential α)
    (p : SparseOmpMatrixMultiParallel α) (r1 c1 r2 c2 o1 o2 : Nat)
    (ht : t.taskData.inputs_count = [r1, c1, r2, c2])
    (hto : t.taskData.outputs_count = [o1, o2])
    (hp : p.taskData.inputs_count = [r1, c1, r2, c2])
    (hpo : p.taskData.outputs_count = [o1, o2]) :
    t.validation = some (decide (c1 = r2 ∧ o1 = r1 ∧ o2 = c2)) ∧
    p.validation = some (decide (c1 = r2 ∧ o1 = r1 ∧ o2 = c2)) ∧
    (o1 = r1 → o2 = c2 → (t.validation = some true ↔ c1 = r2)) ∧
    (o1 = r1 → o2 = c2 → (p.validation = some true ↔ c1 = r2)) := by
  have h1 : t.validation = some (decide (c1 = r2 ∧ o1 = r1 ∧ o2 = c2)) := by
    by_cases e1 : c1 = r2 <;> by_cases e2 : o1 = r1 <;>
      simp [SparseOmpMatrixMultiSequential.validation, ht, hto, e1, e2]
  have h2 : p.validation = some (decide (c1 = r2 ∧ o1 = r1 ∧ o2 = c2)) := by
    by_cases e1 : c1 = r2 <;> by_cases e2 : o1 = r1 <;>
      simp [SparseOmpMatrixMultiParallel.validation, hp, hpo, e1, e2]
  refine ⟨h1, h2, ?_, ?_⟩
  · intro e1 e2
    rw [h1]
    simp [e1, e2]
  · intro e1 e2
    rw [h2]
    simp [e1, e2]

/-- The accepted shape of the tests: `4 × 6` times `6 × 2` with a `4 × 2` output. -/
theorem validation_iff_witness :
    (SparseOmpMatrixMultiSequential.fresh
        (mkTaskData (α := ℤ) (List.replicate 24 0) (List.replicate 12 0)
          (List.replicate 8 0) 4 6 6 2 4 2)).validation
      = some (decide (6 = 6 ∧ 4 = 4 ∧ 2 = 2)) ∧
    (SparseOmpMatrixMultiParallel.fresh
        (mkTaskData (α := ℤ) (List.replicate 24 0) (List.replicate 12 0)
          (List.replicate 8 0) 4 6 6 2 4 2)).validation
      = some (decide (6 = 6 ∧ 4 = 4 ∧ 2 = 2)) ∧
    (4 = 4 → 2 = 2 → ((SparseOmpMatrixMultiSequential.fresh
        (mkTaskData (α := ℤ) (List.replicate 24 0) (List.replicate 12 0)
          (List.replicate 8 0) 4 6 6 2 4 2)).validation = some true ↔ 6 = 6)) ∧
    (4 = 4 → 2 = 2 → ((SparseOmpMatrixMultiParallel.fresh
        (mkTaskData (α := ℤ) (List.replicate 24 0) (List.replicate 12 0)
          (List.replicate 8 0) 4 6 6 2 4 2)).validation = some true ↔ 6 = 6)) :=
  validation_iff _ _ 4 6 6 2 4 2 rfl rfl rfl rfl

/-- The rejected shape of the tests: `2 × 3` times `4 × 5` with a `2 × 5` output. -/
theorem validation_rejects_2x3_4x5 :
    (SparseOmpMatrixMultiSequential.fresh
        (mkTaskData (α := ℤ) (List.replicate 6 0) (List.replicate 20 0)
          (List.replicate 10 0) 2 3 4 5 2 5)).validation = some false ∧
    (SparseOmpMatrixMultiParallel.fresh
        (mkTaskData (α := ℤ) (List.replicate 6 0) (List.replicate 20 0)
          (List.replicate 10 0) 2 3 4 5 2 5)).validation = some false := by
  decide

/-- The input `A = [5]` (`1 × 1`), `B` with no columns (`1 × 0`), output
declared `1 × 0`: `validation` accepts, but `pre_processing` does not return,
so `run` is not reached with `colPtr2 = [0]`. -/
theorem pre_processing_1x1_1x0_does_not_return :
    (SparseOmpMatrixMultiSequential.fresh
        (mkTaskData (α := ℤ) [5] [] [] 1 1 1 0 1 0)).validation = some true ∧
    newZeroed (α := ℤ) (1 * 0) = none ∧
    (SparseOmpMatrixMultiSequential.fresh
        (mkTaskData (α := ℤ) [5] [] [] 1 1 1 0 1 0)).pre_processing = none := by
  decide

/-- C6 (the code departs from the claim): for the `2 × 1` buffer `[1, 2]` the
encoding loop computes, at `j = 0`, `i = 1`, the index `1 * 2 + 0 = 2`, which is
not below `2 * 1`; the read is out of range and the encoding block fails. -/
theorem encode_2x1_reads_out_of_range :
    encode (α := ℤ) [1, 2] 2 1 [] [] [] = none ∧ ¬ (1 * 2 + 0 < 2 * 1) := by
  decide

/-- C7 (the code departs from the claim): for the `2 × 3` matrix
`M = [0,0,1, 0,0,0]` the encoder stores row 1 in the block of column 0
(`colPtr[0] = 0 ≤ 0 < colPtr[1] = 1`, `rows[0] = 1`, `values[0] = 1`) although
`M[1 * 3 + 0] = 0`: it read `M[1 * 2 + 0]` instead. -/
theorem encode_2x3_does_not_round_trip :
    encode (α := ℤ) [0, 0, 1, 0, 0, 0] 2 3 [] [] [] =
      some { values := [1, 1], rows := [1, 0], colPtr := [0, 1, 1, 2], notNullNumbers := 2 } ∧
    ([0, 0, 1, 0, 0, 0] : List ℤ).getD (1 * 3 + 0) 0 = 0 := by
  decide

/-- C8 (the code departs from the claim): the `2 × 3` buffer `[1,1,0, 0,0,1]`
has three non-zero elements, the encoder stores two entries (it never reads
index 5 and reads index 2 twice). -/
theorem encode_2x3_miscounts :
    (encode (α := ℤ) [1, 1, 0, 0, 0, 1] 2 3 [] [] []).map (fun e => e.values.length)
      = some 2 ∧
    (([1, 1, 0, 0, 0, 1] : List ℤ).filter fun x => x ≠ 0).length = 3 := by
  decide

/-- C9: when `pre_processing` on a fresh task returns, the column-offset array
of each of the two encoded matrices has length `numCols + 1`, starts with 0, is
non-decreasing, holds at `j` the number of entries stored for the columns
before `j`, and ends with the total stored count, which is the size of both
`values` and `rows`. -/
theorem pre_processing_colPtr_invariant {α : Type} [Zero α] [DecidableEq α]
    (A B out : List α) (R1 C1 R2 C2 o1 o2 : Nat)
    (t : SparseOmpMatrixMultiSequential α)
    (h : (SparseOmpMatrixMultiSequential.fresh
            (mkTaskData A B out R1 C1 R2 C2 o1 o2)).pre_processing = some t) :
    ColPtrInvariant A R1 C1 t.values1 t.rows1 t.colPtr1 ∧
    ColPtrInvariant B R2 C2 t.values2 t.rows2 t.colPtr2 := by
  obtain ⟨e1, e2, h1, h2, hv1, hr1, hc1, hv2, hr2, hc2⟩ :=
    pre_processing_fresh_some A B out R1 C1 R2 C2 o1 o2 t h
  rw [hv1, hr1, hc1, hv2, hr2, hc2]
  exact ⟨encode_fresh_colPtr A R1 C1 e1 h1, encode_fresh_colPtr B R2 C2 e2 h2⟩

/-- The `3 × 3` scenario of the specification: the encodings `pre_processing`
builds satisfy the column-offset properties. -/
theorem pre_processing_colPtr_invariant_witness :
    ColPtrInvariant (α := ℤ) [4, 0, 0, 0, 0, 1, 0, 2, 0] 3 3 [4, 2, 1] [0, 2, 1] [0, 1, 2, 3] ∧
    ColPtrInvariant (α := ℤ) [9, 1, 0, 0, 0, 7, 3, 0, 0] 3 3 [9, 3, 1, 7] [0, 2, 0, 1]
      [0, 2, 3, 4] :=
  pre_processing_colPtr_invariant (α := ℤ) [4, 0, 0, 0, 0, 1, 0, 2, 0]
    [9, 1, 0, 0, 0, 7, 3, 0, 0] [0, 0, 0, 0, 0, 0, 0, 0, 0] 3 3 3 3 3 3
    { taskData := mkTaskData [4, 0, 0, 0, 0, 1, 0, 2, 0] [9, 1, 0, 0, 0, 7, 3, 0, 0]
        [0, 0, 0, 0, 0, 0, 0, 0, 0] 3 3 3 3 3 3,
      numRows1 := 3, numCols1 := 3, numRows2 := 3, numCols2 := 3,
      result := [0, 0, 0, 0, 0, 0, 0, 0, 0],
      values1 := [4, 2, 1], rows1 := [0, 2, 1], colPtr1 := [0, 1, 2, 3],
      values2 := [9, 3, 1, 7], rows2 := [0, 2, 0, 1], colPtr2 := [0, 2, 3, 4] }
    (by decide)

/-- C10: when `pre_processing` on a fresh task returns, then for each of the
two encoded matrices and every column `j` the row indices stored at the
positions `colPtr[j] .. colPtr[j+1]-1` are below the row count and strictly
increasing. -/
theorem pre_processing_rows_invariant {α : Type} [Zero α] [DecidableEq α]
    (A B out : List α) (R1 C1 R2 C2 o1 o2 : Nat)
    (t : SparseOmpMatrixMultiSequential α)
    (h : (SparseOmpMatrixMultiSequential.fresh
            (mkTaskData A B out R1 C1 R2 C2 o1 o2)).pre_processing = some t) :
    RowsInvariant R1 C1 t.rows1 t.colPtr1 ∧ RowsInvariant R2 C2 t.rows2 t.colPtr2 := by
  obtain ⟨e1, e2, h1, h2, _, hr1, hc1, _, hr2, hc2⟩ :=
    pre_processing_fresh_some A B out R1 C1 R2 C2 o1 o2 t h
  rw [hr1, hc1, hr2, hc2]
  exact ⟨encode_fresh_rows A R1 C1 e1 h1, encode_fresh_rows B R2 C2 e2 h2⟩

/-- A `2 × 3` times `3 × 3` input on which `pre_processing` returns: the stored
row indices satisfy the row-index properties. -/
theorem pre_processing_rows_invariant_witness :
    RowsInvariant 2 3 [0, 1, 0, 1] [0, 2, 2, 4] ∧ RowsInvariant 3 3 [1, 0, 2, 2] [0, 1, 3, 4] :=
  pre_processing_rows_invariant (α := ℤ) [1, 0, 2, 0, 3, 0] [0, 5, 0, 6, 0, 0, 0, 7, 8]
    [0, 0, 0, 0, 0, 0] 2 3 3 3 2 3
    { taskData := mkTaskData [1, 0, 2, 0, 3, 0] [0, 5, 0, 6, 0, 0, 0, 7, 8]
        [0, 0, 0, 0, 0, 0] 2 3 3 3 2 3,
      numRows1 := 2, numCols1 := 3, numRows2 := 3, numCols2 := 3,
      result := [0, 0, 0, 0, 0, 0],
      values1 := [1, 2, 2, 3], rows1 := [0, 1, 0, 1], colPtr1 := [0, 2, 2, 4],
      values2 := [6, 5, 7, 8], rows2 := [1, 0, 2, 2], colPtr2 := [0, 1, 3, 4] }
    (by decide)

/-- C2: for every `n ≥ 1` and every pair of `n × n` row-major matrices `A`, `B`
(buffers of length `n * n`, output buffer of length `n * n`), the sequential
pipeline `pre_processing`, `run`, `post_processing` on a fresh task returns and
leaves in `outputs[0]` the matrix product in row-major order: cell `i * n + j`
holds the sum over `k < n` of `A[i * n + k] * B[k * n + j]`. -/
theorem sequential_pipeline_square_product {α : Type} [Semiring α] [DecidableEq α]
    (n : Nat) (A B out : List α) (hn : 1 ≤ n)
    (hA : A.length = n * n) (hB : B.length = n * n) (hout : out.length = n * n) :
    ∃ t o, (SparseOmpMatrixMultiSequential.fresh
          (mkTaskData A B out n n n n n n)).pipeline = some t ∧
      t.taskData.outputs = [o] ∧ o.length = n * n ∧
      ∀ i j, i < n → j < n → o[i * n + j]? = some (denseEntry A B n n i j) := by
  obtain ⟨t, o, h1, h2, h3, h4, _⟩ := pipeline_in_range A B out n n n n n
    (Nat.mul_ne_zero (by omega) (by omega))
    (fun j hj i hi => by rw [hA]; exact mul_add_lt n n i j hi hj)
    (fun j hj i hi => by rw [hB]; exact mul_add_lt n n i j hi hj)
    (Nat.le_refl n) (Nat.le_of_eq hout.symm)
  refine ⟨t, o, h1, h2, by rw [h3, hout], ?_⟩
  intro i j hi hj
  rw [h4 i j hi hj, if_pos hj]
  rfl

/-- The scenario of the specification: `A = [[4,0,0],[0,0,1],[0,2,0]]` times
`B = [[9,1,0],[0,0,7],[3,0,0]]` gives `[[36,4,0],[3,0,0],[0,0,14]]`. -/
theorem sequential_pipeline_square_product_witness :
    ((SparseOmpMatrixMultiSequential.fresh
        (mkTaskData (α := ℤ) [4, 0, 0, 0, 0, 1, 0, 2, 0] [9, 1, 0, 0, 0, 7, 3, 0, 0]
          [0, 0, 0, 0, 0, 0, 0, 0, 0] 3 3 3 3 3 3)).pipeline.map fun t => t.taskData.outputs)
      = some [[36, 4, 0, 3, 0, 0, 0, 0, 14]] ∧
    ∃ t o, (SparseOmpMatrixMultiSequential.fresh
          (mkTaskData (α := ℤ) [4, 0, 0, 0, 0, 1, 0, 2, 0] [9, 1, 0, 0, 0, 7, 3, 0, 0]
            [0, 0, 0, 0, 0, 0, 0, 0, 0] 3 3 3 3 3 3)).pipeline = some t ∧
      t.taskData.outputs = [o] ∧ o.length = 3 * 3 ∧
      ∀ i j, i < 3 → j < 3 → o[i * 3 + j]? =
        some (denseEntry [4, 0, 0, 0, 0, 1, 0, 2, 0] [9, 1, 0, 0, 0, 7, 3, 0, 0] 3 3 i j) :=
  ⟨by decide,
   sequential_pipeline_square_product 3 [4, 0, 0, 0, 0, 1, 0, 2, 0] [9, 1, 0, 0, 0, 7, 3, 0, 0]
     [0, 0, 0, 0, 0, 0, 0, 0, 0] (by decide) (by decide) (by decide) (by decide)⟩

/-- C11: for the same task data and every order of the outer-loop iterations
of the parallel `run` (every rearrangement of `0 .. numCols1 - 1`), the parallel
pipeline `pre_processing`, `run`, `post_processing` ends as the sequential one
does: it returns exactly when the sequential pipeline returns, with the same
output buffers (arithmetic exact, addition commutative). -/
theorem parallel_pipeline_eq_sequential {α : Type} [Semiring α] [DecidableEq α]
    (A B out : List α) (R1 C1 R2 C2 o1 o2 : Nat) (order : List Nat)
    (horder : order.Perm (List.range C1)) :
    ((SparseOmpMatrixMultiParallel.fresh
        (mkTaskData A B out R1 C1 R2 C2 o1 o2)).pipeline order).map
          (fun t => t.taskData.outputs) =
    ((SparseOmpMatrixMultiSequential.fresh
        (mkTaskData A B out R1 C1 R2 C2 o1 o2)).pipeline).map
          (fun t => t.taskData.outputs) := by
  have h := parallel_pipeline_eq
    (SparseOmpMatrixMultiParallel.fresh (mkTaskData A B out R1 C1 R2 C2 o1 o2)) order
    (fun p1 h1 => by
      rw [(parallel_pre_processing_numCols1 A B out R1 C1 R2 C2 o1 o2 p1 h1).1]
      exact horder)
  have hf : (SparseOmpMatrixMultiParallel.fresh
      (mkTaskData A B out R1 C1 R2 C2 o1 o2)).toSequential =
      SparseOmpMatrixMultiSequential.fresh (mkTaskData A B out R1 C1 R2 C2 o1 o2) := rfl
  rw [hf] at h
  rw [← h, Option.map_map]
  rfl

/-- The `3 × 3` scenario with the columns processed in the order 2, 0, 1: both
pipelines write `[36,4,0, 3,0,0, 0,0,14]`. -/
theorem parallel_pipeline_eq_sequential_witness :
    ((SparseOmpMatrixMultiParallel.fresh
        (mkTaskData (α := ℤ) [4, 0, 0, 0, 0, 1, 0, 2, 0] [9, 1, 0, 0, 0, 7, 3, 0, 0]
          [0, 0, 0, 0, 0, 0, 0, 0, 0] 3 3 3 3 3 3)).pipeline [2, 0, 1]).map
            (fun t => t.taskData.outputs) = some [[36, 4, 0, 3, 0, 0, 0, 0, 14]] ∧
    ((SparseOmpMatrixMultiParallel.fresh
        (mkTaskData (α := ℤ) [4, 0, 0, 0, 0, 1, 0, 2, 0] [9, 1, 0, 0, 0, 7, 3, 0, 0]
          [0, 0, 0, 0, 0, 0, 0, 0, 0] 3 3 3 3 3 3)).pipeline [2, 0, 1]).map
            (fun t => t.taskData.outputs) =
    ((SparseOmpMatrixMultiSequential.fresh
        (mkTaskData (α := ℤ) [4, 0, 0, 0, 0, 1, 0, 2, 0] [9, 1, 0, 0, 0, 7, 3, 0, 0]
          [0, 0, 0, 0, 0, 0, 0, 0, 0] 3 3 3 3 3 3)).pipeline).map
            (fun t => t.taskData.outputs) :=
  ⟨by decide,
   parallel_pipeline_eq_sequential [4, 0, 0, 0, 0, 1, 0, 2, 0] [9, 1, 0, 0, 0, 7, 3, 0, 0]
     [0, 0, 0, 0, 0, 0, 0, 0, 0] 3 3 3 3 3 3 [2, 0, 1] (by decide)⟩

/-- C12: let `p` be the parallel task returned by `pre_processing` on a fresh
task for `A` (`R1 × C1`) and `B` (`R2 × C2`). Every iteration `j` of the outer
loop of `run` that returns, from any accumulator `res`, has `j < C2`, keeps the
length of the accumulator and leaves unchanged every cell that is not a cell
`r * C2 + j` with `r < R1` of destination column `j`; and cells of two
different columns are different cells. -/
theorem parallel_iteration_writes_own_column {α : Type} [Semiring α] [DecidableEq α]
    (A B out : List α) (R1 C1 R2 C2 o1 o2 : Nat) (p : SparseOmpMatrixMultiParallel α)
    (hpre : (SparseOmpMatrixMultiParallel.fresh
              (mkTaskData A B out R1 C1 R2 C2 o1 o2)).pre_processing = some p)
    (res res1 : List α) (j : Nat) (hrun : p.runOuter res j = some res1) :
    j < C2 ∧ res1.length = res.length ∧
    (∀ q, (∀ r, r < R1 → q ≠ r * C2 + j) → res1[q]? = res[q]?) ∧
    (∀ j1 r r1, j1 < C2 → j1 ≠ j → r * C2 + j ≠ r1 * C2 + j1) := by
  have hseq : (SparseOmpMatrixMultiSequential.fresh
      (mkTaskData A B out R1 C1 R2 C2 o1 o2)).pre_processing = some p.toSequential := by
    have := parallel_pre_processing_eq
      (SparseOmpMatrixMultiParallel.fresh (mkTaskData A B out R1 C1 R2 C2 o1 o2))
    rw [hpre] at this
    exact this.symm
  obtain ⟨e1, e2, h1, h2, _, hr1, _, _, _, hc2⟩ :=
    pre_processing_fresh_some A B out R1 C1 R2 C2 o1 o2 p.toSequential hseq
  obtain ⟨_, hC2, _, _⟩ := parallel_pre_processing_numCols1 A B out R1 C1 R2 C2 o1 o2 p hpre
  obtain ⟨⟨hi, hhi⟩, hlen, hframe⟩ := runOuter_frame p.toSequential res res1 j hrun
  have hj : j < C2 := by
    have hl := (encode_fresh_colPtr B R2 C2 e2 h2).length_eq
    rw [hc2] at hhi
    have := (List.getElem?_eq_some.1 hhi).1
    omega
  refine ⟨hj, hlen, fun q hne => hframe q (fun r hr => ?_), fun j1 r r1 hj1 hne heq => ?_⟩
  · have hlt : r < R1 := encode_fresh_rows_lt A R1 C1 e1 h1 r (by rw [← hr1]; exact hr)
    have hn : p.toSequential.numCols2 = C2 := hC2
    rw [hn]
    exact hne r hlt
  · exact hne ((index_eq_iff C2 r j r1 j1 hj hj1).1 heq).2.symm

/-- The `3 × 3` scenario: iteration `j = 1` on the zeroed accumulator changes
cells of column 1 only. -/
theorem parallel_iteration_writes_own_column_witness :
    1 < 3 ∧ ([0, 4, 0, 0, 0, 0, 0, 0, 0] : List ℤ).length =
      ([0, 0, 0, 0, 0, 0, 0, 0, 0] : List ℤ).length ∧
    (∀ q, (∀ r, r < 3 → q ≠ r * 3 + 1) →
      ([0, 4, 0, 0, 0, 0, 0, 0, 0] : List ℤ)[q]? = ([0, 0, 0, 0, 0, 0, 0, 0, 0] : List ℤ)[q]?) ∧
    (∀ j1 r r1, j1 < 3 → j1 ≠ 1 → r * 3 + 1 ≠ r1 * 3 + j1) :=
  parallel_iteration_writes_own_column (α := ℤ) [4, 0, 0, 0, 0, 1, 0, 2, 0]
    [9, 1, 0, 0, 0, 7, 3, 0, 0] [0, 0, 0, 0, 0, 0, 0, 0, 0] 3 3 3 3 3 3
    { taskData := mkTaskData [4, 0, 0, 0, 0, 1, 0, 2, 0] [9, 1, 0, 0, 0, 7, 3, 0, 0]
        [0, 0, 0, 0, 0, 0, 0, 0, 0] 3 3 3 3 3 3,
      numRows1 := 3, numCols1 := 3, numRows2 := 3, numCols2 := 3,
      result := [0, 0, 0, 0, 0, 0, 0, 0, 0],
      values1 := [4, 2, 1], rows1 := [0, 2, 1], colPtr1 := [0, 1, 2, 3],
      values2 := [9, 3, 1, 7], rows2 := [0, 2, 0, 1], colPtr2 := [0, 2, 3, 4] }
    (by decide) [0, 0, 0, 0, 0, 0, 0, 0, 0] [0, 4, 0, 0, 0, 0, 0, 0, 0] 1 (by decide)

/-- C13 (the code departs from the claim): the scenario of the specification,
a `4 × 6` zero matrix times a `6 × 2` zero matrix with a `4 × 2` output.
`validation` accepts, but `pre_processing` reads the second buffer (12
elements) at `i * 6 + j`, index 12 for `i = 2`, `j = 0`, and fails; the pipeline
produces no `4 × 2` zero result. -/
theorem pipeline_zero_4x6_6x2_fails :
    (SparseOmpMatrixMultiSequential.fresh
        (mkTaskData (α := ℤ) (List.replicate 24 0) (List.replicate 12 0)
          (List.replicate 8 0) 4 6 6 2 4 2)).validation = some true ∧
    (SparseOmpMatrixMultiSequential.fresh
        (mkTaskData (α := ℤ) (List.replicate 24 0) (List.replicate 12 0)
          (List.replicate 8 0) 4 6 6 2 4 2)).pre_processing = none ∧
    (SparseOmpMatrixMultiSequential.fresh
        (mkTaskData (α := ℤ) (List.replicate 24 0) (List.replicate 12 0)
          (List.replicate 8 0) 4 6 6 2 4 2)).pipeline = none ∧
    ¬ (2 * 6 + 0 < 6 * 2) := by
  decide

/-- C14 (the code departs from the claim): the parallel task on `A = [5]`
(`1 × 1`) and `B` with no columns (`1 × 0`), output declared `1 × 0`, and the
parallel task on two `0 × 0` matrices. `validation` accepts both, every read
of the encoding loops would be in range, but the new-expression of line 101 is
evaluated with size 0 and throws: `pre_processing` does not return and the
pipeline does not complete. -/
theorem parallel_pre_processing_degenerate_throws :
    (SparseOmpMatrixMultiParallel.fresh
        (mkTaskData (α := ℤ) [5] [] [] 1 1 1 0 1 0)).validation = some true ∧
    newZeroed (α := ℤ) (1 * 0) = none ∧
    (encode (α := ℤ) [5] 1 1 [] [] []).isSome = true ∧
    (encode (α := ℤ) [] 1 0 [] [] []).isSome = true ∧
    (SparseOmpMatrixMultiParallel.fresh
        (mkTaskData (α := ℤ) [5] [] [] 1 1 1 0 1 0)).pre_processing = none ∧
    (SparseOmpMatrixMultiParallel.fresh
        (mkTaskData (α := ℤ) [5] [] [] 1 1 1 0 1 0)).pipeline [0] = none ∧
    (SparseOmpMatrixMultiParallel.fresh
        (mkTaskData (α := ℤ) [] [] [] 0 0 0 0 0 0)).validation = some true ∧
    (SparseOmpMatrixMultiParallel.fresh
        (mkTaskData (α := ℤ) [] [] [] 0 0 0 0 0 0)).pre_processing = none ∧
    (SparseOmpMatrixMultiParallel.fresh
        (mkTaskData (α := ℤ) [] [] [] 0 0 0 0 0 0)).pipeline [] = none := by
  decide

/-- On every input with `rows(A) = 0` or `cols(B) = 0` the `pre_processing` of
both classes does not return: its new-expression is evaluated with size 0. -/
theorem pre_processing_degenerate {α : Type} [Zero α] [DecidableEq α]
    (A B out : List α) (R1 C1 R2 C2 o1 o2 : Nat) (hdeg : R1 = 0 ∨ C2 = 0) :
    newZeroed (α := α) (R1 * C2) = none ∧
    (SparseOmpMatrixMultiSequential.fresh
        (mkTaskData A B out R1 C1 R2 C2 o1 o2)).pre_processing = none ∧
    (SparseOmpMatrixMultiParallel.fresh
        (mkTaskData A B out R1 C1 R2 C2 o1 o2)).pre_processing = none := by
  have hz : R1 * C2 = 0 := by
    rcases hdeg with h | h
    · rw [h, Nat.zero_mul]
    · rw [h, Nat.mul_zero]
  refine ⟨by simp only [newZeroed, if_pos hz], ?_, ?_⟩
  · simp only [SparseOmpMatrixMultiSequential.pre_processing,
      SparseOmpMatrixMultiSequential.fresh, mkTaskData, List.getElem?_cons_zero,
      List.getElem?_cons_succ, Option.bind_eq_bind, Option.some_bind, newZeroed, if_pos hz,
      Option.none_bind]
  · simp only [SparseOmpMatrixMultiParallel.pre_processing,
      SparseOmpMatrixMultiParallel.fresh, mkTaskData, List.getElem?_cons_zero,
      List.getElem?_cons_succ, Option.bind_eq_bind, Option.some_bind, newZeroed, if_pos hz,
      Option.none_bind]

/-- C15: for every `n ≥ 1` and `n × n` matrices `A`, `B` whose dense product is the
identity (exact arithmetic), the sequential pipeline on a fresh task returns
and writes the `n × n` identity matrix: cell `i * n + j` holds 1 when `i = j`
and 0 otherwise, also where non-zero products cancel. -/
theorem inverse_gives_identity {α : Type} [Semiring α] [DecidableEq α]
    (n : Nat) (A B out : List α) (hn : 1 ≤ n)
    (hA : A.length = n * n) (hB : B.length = n * n) (hout : out.length = n * n)
    (hinv : ∀ i j, i < n → j < n → denseEntry A B n n i j = if i = j then 1 else 0) :
    ∃ t o, (SparseOmpMatrixMultiSequential.fresh
          (mkTaskData A B out n n n n n n)).pipeline = some t ∧
      t.taskData.outputs = [o] ∧ o.length = n * n ∧
      ∀ i j, i < n → j < n → o[i * n + j]? = some (if i = j then 1 else 0) := by
  obtain ⟨t, o, h1, h2, h3, h4, _⟩ := pipeline_in_range A B out n n n n n
    (Nat.mul_ne_zero (by omega) (by omega))
    (fun j hj i hi => by rw [hA]; exact mul_add_lt n n i j hi hj)
    (fun j hj i hi => by rw [hB]; exact mul_add_lt n n i j hi hj)
    (Nat.le_refl n) (Nat.le_of_eq hout.symm)
  refine ⟨t, o, h1, h2, by rw [h3, hout], ?_⟩
  intro i j hi hj
  rw [h4 i j hi hj, if_pos hj, ← hinv i j hi hj]
  rfl

/-- The matrices of the test: `A = [[4,0,0],[0,2,1],[0,2,0]]` and its inverse
`B = [[1/4,0,0],[0,0,1/2],[0,1,-1]]` over the rationals; in cell `(1, 2)` the
products `2 * (1/2)` and `1 * (-1)` cancel. -/
theorem inverse_gives_identity_witness :
    ∃ t o, (SparseOmpMatrixMultiSequential.fresh
          (mkTaskData (α := ℚ) [4, 0, 0, 0, 2, 1, 0, 2, 0] [1 / 4, 0, 0, 0, 0, 1 / 2, 0, 1, -1]
            [0, 0, 0, 0, 0, 0, 0, 0, 0] 3 3 3 3 3 3)).pipeline = some t ∧
      t.taskData.outputs = [o] ∧ o.length = 3 * 3 ∧
      ∀ i j, i < 3 → j < 3 → o[i * 3 + j]? = some (if i = j then 1 else 0) :=
  inverse_gives_identity (α := ℚ) 3 [4, 0, 0, 0, 2, 1, 0, 2, 0]
    [1 / 4, 0, 0, 0, 0, 1 / 2, 0, 1, -1] [0, 0, 0, 0, 0, 0, 0, 0, 0] (by decide) rfl rfl rfl
    (by
      intro i j hi hj
      interval_cases i <;> interval_cases j <;>
        norm_num [denseEntry, List.range_succ, List.getD])

/-- C16 (the code departs from the claim): encoding the all-zero `2 × 1` buffer
`[0, 0]` does not yield empty vectors and two zero offsets: at `j = 0`, `i = 1`
the loop reads index `1 * 2 + 0 = 2`, out of range, and the encoding fails. -/
theorem encode_zero_2x1_fails :
    encode (α := ℤ) [0, 0] 2 1 [] [] [] = none ∧
    encode (α := ℤ) [0, 0] 2 1 [] [] [] ≠
      some { values := [], rows := [], colPtr := [0, 0], notNullNumbers := 0 } := by
  decide

/-- C17: a call of `validation`, on the sequential or on the parallel task and
whatever it returns, leaves the task as it was: task data with the output
buffer, accumulator and encoding vectors are the same after the call. -/
theorem validation_changes_nothing {α : Type}
    (t t1 : SparseOmpMatrixMultiSequential α) (b : Bool)
    (p p1 : SparseOmpMatrixMultiParallel α) (c : Bool)
    (ht : t.validationCall = some (b, t1)) (hp : p.validationCall = some (c, p1)) :
    t1 = t ∧ p1 = p := by
  simp only [SparseOmpMatrixMultiSequential.validationCall, Option.bind_eq_bind] at ht
  simp only [SparseOmpMatrixMultiParallel.validationCall, Option.bind_eq_bind] at hp
  cases hv : t.validation with
  | none => simp [hv] at ht
  | some b1 =>
    cases hw : p.validation with
    | none => simp [hw] at hp
    | some c1 =>
      simp only [hv, hw, Option.some_bind, Option.pure_def, Option.some.injEq,
        Prod.mk.injEq] at ht hp
      exact ⟨ht.2.symm, hp.2.symm⟩

/-- The rejected shape `2 × 3` times `4 × 5`: `validation` returns false and the
task, with its output buffer of ten 7s, is the one it was called on. -/
theorem validation_changes_nothing_witness :
    SparseOmpMatrixMultiSequential.fresh
        (mkTaskData (α := ℤ) [1, 2, 3, 4, 5, 6] (List.replicate 20 1) (List.replicate 10 7)
          2 3 4 5 2 5) =
      SparseOmpMatrixMultiSequential.fresh
        (mkTaskData (α := ℤ) [1, 2, 3, 4, 5, 6] (List.replicate 20 1) (List.replicate 10 7)
          2 3 4 5 2 5) ∧
    SparseOmpMatrixMultiParallel.fresh
        (mkTaskData (α := ℤ) [1, 2, 3, 4, 5, 6] (List.replicate 20 1) (List.replicate 10 7)
          2 3 4 5 2 5) =
      SparseOmpMatrixMultiParallel.fresh
        (mkTaskData (α := ℤ) [1, 2, 3, 4, 5, 6] (List.replicate 20 1) (List.replicate 10 7)
          2 3 4 5 2 5) :=
  validation_changes_nothing
    (SparseOmpMatrixMultiSequential.fresh
      (mkTaskData (α := ℤ) [1, 2, 3, 4, 5, 6] (List.replicate 20 1) (List.replicate 10 7)
          2 3 4 5 2 5)) _ false
    (SparseOmpMatrixMultiParallel.fresh
      (mkTaskData (α := ℤ) [1, 2, 3, 4, 5, 6] (List.replicate 20 1) (List.replicate 10 7)
          2 3 4 5 2 5)) _ false
    (by decide) (by decide)

/-- C18 (the claim fails on the code): `2 × 3` times `4 × 5` with the output
declared `2 × 5` fails only the inner-dimension check, `2 × 3` times `3 × 5`
with the output declared `9 × 9` fails only the output-size check, and
`validation` returns the same value, false, for both. -/
theorem validation_failures_not_told_apart :
    ¬ ((SparseOmpMatrixMultiSequential.fresh
          (mkTaskData (α := ℤ) (List.replicate 6 0) (List.replicate 20 0)
            (List.replicate 10 0) 2 3 4 5 2 5)).validation ≠
       (SparseOmpMatrixMultiSequential.fresh
          (mkTaskData (α := ℤ) (List.replicate 6 0) (List.replicate 15 0)
            (List.replicate 81 0) 2 3 3 5 9 9)).validation) := by
  decide

/-- C18, as the code has it: `validation` returns a boolean. A task that fails
only the inner-dimension check (`c1 ≠ r2`, output declared `r1 × c2`) and a
task that fails only the output-size check (inner dimensions equal, output
declared with a wrong row or column count) both get false, the same value. -/
theorem validation_failure_is_false {α : Type}
    (t u : SparseOmpMatrixMultiSequential α) (r1 c1 r2 c2 s1 d1 d2 o1 o2 : Nat)
    (ht : t.taskData.inputs_count = [r1, c1, r2, c2])
    (hto : t.taskData.outputs_count = [r1, c2]) (hinner : c1 ≠ r2)
    (hu : u.taskData.inputs_count = [s1, d1, d1, d2])
    (huo : u.taskData.outputs_count = [o1, o2]) (hsize : o1 ≠ s1 ∨ o2 ≠ d2) :
    t.validation = some false ∧ u.validation = some false ∧ t.validation = u.validation := by
  have h1 : t.validation = some false := by
    simp [SparseOmpMatrixMultiSequential.validation, ht, hto, hinner]
  have h2 : u.validation = some false := by
    by_cases e : o1 = s1
    · have e2 : o2 ≠ d2 := by
        rcases hsize with h | h
        · exact absurd e h
        · exact h
      simp [SparseOmpMatrixMultiSequential.validation, hu, huo, e, e2]
    · simp [SparseOmpMatrixMultiSequential.validation, hu, huo, e]
  exact ⟨h1, h2, by rw [h1, h2]⟩

/-- The two shapes of the counterexample: both calls return false. -/
theorem validation_failure_is_false_witness :
    (SparseOmpMatrixMultiSequential.fresh
        (mkTaskData (α := ℤ) (List.replicate 6 0) (List.replicate 20 0)
          (List.replicate 10 0) 2 3 4 5 2 5)).validation = some false ∧
    (SparseOmpMatrixMultiSequential.fresh
        (mkTaskData (α := ℤ) (List.replicate 6 0) (List.replicate 15 0)
          (List.replicate 81 0) 2 3 3 5 9 9)).validation = some false ∧
    (SparseOmpMatrixMultiSequential.fresh
        (mkTaskData (α := ℤ) (List.replicate 6 0) (List.replicate 20 0)
          (List.replicate 10 0) 2 3 4 5 2 5)).validation =
    (SparseOmpMatrixMultiSequential.fresh
        (mkTaskData (α := ℤ) (List.replicate 6 0) (List.replicate 15 0)
          (List.replicate 81 0) 2 3 3 5 9 9)).validation :=
  validation_failure_is_false _ _ 2 3 4 5 2 3 5 9 9 rfl rfl (by decide) rfl rfl
    (Or.inl (by decide))

/-- C19: the encoding step appends the element `x` it reads exactly when
`x ≠ 0`, with no other test; hence, when `pre_processing` on a fresh task
returns, `values1` and `values2` hold no zero and every non-zero element read
is stored with its row in the block of its column. -/
theorem encoder_stores_exactly_nonzero {α : Type} [Zero α] [DecidableEq α]
    (A B out : List α) (R1 C1 R2 C2 o1 o2 : Nat) (t : SparseOmpMatrixMultiSequential α)
    (h : (SparseOmpMatrixMultiSequential.fresh
            (mkTaskData A B out R1 C1 R2 C2 o1 o2)).pre_processing = some t) :
    (∀ (matrix : List α) (S j i : Nat) (s : Ccs α) (x : α), matrix[i * S + j]? = some x →
      encodeRow matrix S j s i =
        some (if x ≠ 0 then
          { s with values := s.values ++ [x], rows := s.rows ++ [i],
                   notNullNumbers := s.notNullNumbers + 1 }
        else s)) ∧
    StoresExactlyNonZero A R1 C1 t.values1 t.rows1 t.colPtr1 ∧
    StoresExactlyNonZero B R2 C2 t.values2 t.rows2 t.colPtr2 := by
  obtain ⟨e1, e2, h1, h2, hv1, hr1, hc1, hv2, hr2, hc2⟩ :=
    pre_processing_fresh_some A B out R1 C1 R2 C2 o1 o2 t h
  rw [hv1, hr1, hc1, hv2, hr2, hc2]
  have s1 := encode_fresh_stores A R1 C1 e1 h1
  have s2 := encode_fresh_stores B R2 C2 e2 h2
  exact ⟨fun matrix S j i s x hx => encodeRow_eq_ite matrix S j s i x hx,
    ⟨s1.1, s1.2⟩, ⟨s2.1, s2.2⟩⟩

/-- The `3 × 3` scenario: the encodings built by `pre_processing` store exactly
the non-zero elements. -/
theorem encoder_stores_exactly_nonzero_witness :
    (∀ (matrix : List ℤ) (S j i : Nat) (s : Ccs ℤ) (x : ℤ), matrix[i * S + j]? = some x →
      encodeRow matrix S j s i =
        some (if x ≠ 0 then
          { s with values := s.values ++ [x], rows := s.rows ++ [i],
                   notNullNumbers := s.notNullNumbers + 1 }
        else s)) ∧
    StoresExactlyNonZero (α := ℤ) [4, 0, 0, 0, 0, 1, 0, 2, 0] 3 3 [4, 2, 1] [0, 2, 1]
      [0, 1, 2, 3] ∧
    StoresExactlyNonZero (α := ℤ) [9, 1, 0, 0, 0, 7, 3, 0, 0] 3 3 [9, 3, 1, 7] [0, 2, 0, 1]
      [0, 2, 3, 4] :=
  encoder_stores_exactly_nonzero (α := ℤ) [4, 0, 0, 0, 0, 1, 0, 2, 0]
    [9, 1, 0, 0, 0, 7, 3, 0, 0] [0, 0, 0, 0, 0, 0, 0, 0, 0] 3 3 3 3 3 3
    { taskData := mkTaskData [4, 0, 0, 0, 0, 1, 0, 2, 0] [9, 1, 0, 0, 0, 7, 3, 0, 0]
        [0, 0, 0, 0, 0, 0, 0, 0, 0] 3 3 3 3 3 3,
      numRows1 := 3, numCols1 := 3, numRows2 := 3, numCols2 := 3,
      result := [0, 0, 0, 0, 0, 0, 0, 0, 0],
      values1 := [4, 2, 1], rows1 := [0, 2, 1], colPtr1 := [0, 1, 2, 3],
      values2 := [9, 3, 1, 7], rows2 := [0, 2, 0, 1], colPtr2 := [0, 2, 3, 4] }
    (by decide)

/-- C20 (the claim fails on the code): on `A = [1]`, `B = [2]` (`1 × 1`) a
second `pre_processing` on the same task leaves `values1 = [1, 1]` and
`colPtr1 = [0, 1, 0, 1]` (length 4, not `cols + 1 = 2`), not the vectors
`[1]` and `[0, 1]` of a single call. -/
theorem second_pre_processing_keeps_old_entries :
    ¬ ((((SparseOmpMatrixMultiSequential.fresh
          (mkTaskData (α := ℤ) [1] [2] [0] 1 1 1 1 1 1)).pre_processing.bind
            fun t => t.pre_processing).map (fun t => t.values1) =
       (SparseOmpMatrixMultiSequential.fresh
          (mkTaskData (α := ℤ) [1] [2] [0] 1 1 1 1 1 1)).pre_processing.map
            (fun t => t.values1)) ∧
       (((SparseOmpMatrixMultiSequential.fresh
          (mkTaskData (α := ℤ) [1] [2] [0] 1 1 1 1 1 1)).pre_processing.bind
            fun t => t.pre_processing).map (fun t => t.rows1) =
       (SparseOmpMatrixMultiSequential.fresh
          (mkTaskData (α := ℤ) [1] [2] [0] 1 1 1 1 1 1)).pre_processing.map
            (fun t => t.rows1)) ∧
       (((SparseOmpMatrixMultiSequential.fresh
          (mkTaskData (α := ℤ) [1] [2] [0] 1 1 1 1 1 1)).pre_processing.bind
            fun t => t.pre_processing).map (fun t => t.colPtr1) =
       (SparseOmpMatrixMultiSequential.fresh
          (mkTaskData (α := ℤ) [1] [2] [0] 1 1 1 1 1 1)).pre_processing.map
            (fun t => t.colPtr1)) ∧
       (((SparseOmpMatrixMultiSequential.fresh
          (mkTaskData (α := ℤ) [1] [2] [0] 1 1 1 1 1 1)).pre_processing.bind
            fun t => t.pre_processing).map (fun t => t.values2) =
       (SparseOmpMatrixMultiSequential.fresh
          (mkTaskData (α := ℤ) [1] [2] [0] 1 1 1 1 1 1)).pre_processing.map
            (fun t => t.values2)) ∧
       (((SparseOmpMatrixMultiSequential.fresh
          (mkTaskData (α := ℤ) [1] [2] [0] 1 1 1 1 1 1)).pre_processing.bind
            fun t => t.pre_processing).map (fun t => t.rows2) =
       (SparseOmpMatrixMultiSequential.fresh
          (mkTaskData (α := ℤ) [1] [2] [0] 1 1 1 1 1 1)).pre_processing.map
            (fun t => t.rows2)) ∧
       (((SparseOmpMatrixMultiSequential.fresh
          (mkTaskData (α := ℤ) [1] [2] [0] 1 1 1 1 1 1)).pre_processing.bind
            fun t => t.pre_processing).map (fun t => t.colPtr2) =
       (SparseOmpMatrixMultiSequential.fresh
          (mkTaskData (α := ℤ) [1] [2] [0] 1 1 1 1 1 1)).pre_processing.map
            (fun t => t.colPtr2))) ∧
    ((SparseOmpMatrixMultiSequential.fresh
          (mkTaskData (α := ℤ) [1] [2] [0] 1 1 1 1 1 1)).pre_processing.bind
            fun t => t.pre_processing).map (fun t => (t.values1, t.colPtr1)) =
      some ([1, 1], [0, 1, 0, 1]) := by
  decide

/-- C20, as the code has it: the encoding vectors are members that
`pre_processing` only pushes onto. When `pre_processing` on a fresh task
returns `t1`, a second call on `t1` returns a task whose values, row indices
and column offsets are those of `t1` followed by a second copy of them; the
column offsets of `t1` have length `cols + 1`, those after the second call
twice that. -/
theorem second_pre_processing_appends {α : Type} [Zero α] [DecidableEq α]
    (A B out : List α) (R1 C1 R2 C2 o1 o2 : Nat) (t1 : SparseOmpMatrixMultiSequential α)
    (h : (SparseOmpMatrixMultiSequential.fresh
            (mkTaskData A B out R1 C1 R2 C2 o1 o2)).pre_processing = some t1) :
    ∃ t2, t1.pre_processing = some t2 ∧
      t2.values1 = t1.values1 ++ t1.values1 ∧ t2.rows1 = t1.rows1 ++ t1.rows1 ∧
      t2.colPtr1 = t1.colPtr1 ++ t1.colPtr1 ∧
      t2.values2 = t1.values2 ++ t1.values2 ∧ t2.rows2 = t1.rows2 ++ t1.rows2 ∧
      t2.colPtr2 = t1.colPtr2 ++ t1.colPtr2 ∧
      t1.colPtr1.length = C1 + 1 ∧ t1.colPtr2.length = C2 + 1 ∧
      t2.colPtr1.length = 2 * (C1 + 1) ∧ t2.colPtr2.length = 2 * (C2 + 1) := by
  obtain ⟨t2, h0, h1, h2, h3, h4, h5, h6, h7, h8⟩ :=
    pre_processing_twice A B out R1 C1 R2 C2 o1 o2 t1 h
  refine ⟨t2, h0, h1, h2, h3, h4, h5, h6, h7, h8, ?_, ?_⟩
  · rw [h3, List.length_append, h7]; omega
  · rw [h6, List.length_append, h8]; omega

/-- The `1 × 1` input of the counterexample: the second call doubles the
vectors. -/
theorem second_pre_processing_appends_witness :
    ∃ t2, SparseOmpMatrixMultiSequential.pre_processing (α := ℤ)
        { taskData := mkTaskData [1] [2] [0] 1 1 1 1 1 1,
          numRows1 := 1, numCols1 := 1, numRows2 := 1, numCols2 := 1, result := [0],
          values1 := [1], rows1 := [0], colPtr1 := [0, 1],
          values2 := [2], rows2 := [0], colPtr2 := [0, 1] } = some t2 ∧
      t2.values1 = [1] ++ [1] ∧ t2.rows1 = [0] ++ [0] ∧ t2.colPtr1 = [0, 1] ++ [0, 1] ∧
      t2.values2 = [2] ++ [2] ∧ t2.rows2 = [0] ++ [0] ∧ t2.colPtr2 = [0, 1] ++ [0, 1] ∧
      [0, 1].length = 1 + 1 ∧ [0, 1].length = 1 + 1 ∧
      t2.colPtr1.length = 2 * (1 + 1) ∧ t2.colPtr2.length = 2 * (1 + 1) :=
  second_pre_processing_appends (α := ℤ) [1] [2] [0] 1 1 1 1 1 1
    { taskData := mkTaskData [1] [2] [0] 1 1 1 1 1 1,
      numRows1 := 1, numCols1 := 1, numRows2 := 1, numCols2 := 1, result := [0],
      values1 := [1], rows1 := [0], colPtr1 := [0, 1],
      values2 := [2], rows2 := [0], colPtr2 := [0, 1] }
    (by decide)

/-- C21: for every `n ≥ 1` and `n × n` inputs `A`, `B` (output buffer of length
`n * n`), the stages `pre_processing`, `run`, `post_processing` return on a
fresh task, return again on the task they leave, and the second pass writes
the output buffer the first pass wrote. -/
theorem rerun_writes_same_output {α : Type} [Semiring α] [DecidableEq α]
    (n : Nat) (A B out : List α) (hn : 1 ≤ n)
    (hA : A.length = n * n) (hB : B.length = n * n) (hout : out.length = n * n) :
    ∃ t o, (SparseOmpMatrixMultiSequential.fresh
          (mkTaskData A B out n n n n n n)).pipeline = some t ∧
      t.taskData.outputs = [o] ∧
      ∃ t1, t.pipeline = some t1 ∧ t1.taskData.outputs = [o] := by
  obtain ⟨t, o, hp, ho, hol, hcell, hin, hcnt, e1, e2, e3, e4, e5, e6⟩ :=
    pipeline_on_held
      (SparseOmpMatrixMultiSequential.fresh (mkTaskData A B out n n n n n n)) n A B out hn
      rfl rfl rfl hout hA hB ⟨[], by simp [SparseOmpMatrixMultiSequential.fresh]⟩
      ⟨[], by simp [SparseOmpMatrixMultiSequential.fresh]⟩
      ⟨[], by simp [SparseOmpMatrixMultiSequential.fresh]⟩
      ⟨[], by simp [SparseOmpMatrixMultiSequential.fresh]⟩
      ⟨[], by simp [SparseOmpMatrixMultiSequential.fresh]⟩
      ⟨[], by simp [SparseOmpMatrixMultiSequential.fresh]⟩
  simp only [SparseOmpMatrixMultiSequential.fresh, List.nil_append] at e1 e2 e3 e4 e5 e6
  obtain ⟨t1, o1, hp1, ho1, hol1, hcell1, _⟩ :=
    pipeline_on_held t n A B o hn hin hcnt ho hol hA hB
      ⟨_, by rw [e1]⟩ ⟨_, by rw [e2]⟩ ⟨_, by rw [e3]⟩ ⟨_, by rw [e4]⟩ ⟨_, by rw [e5]⟩
      ⟨_, by rw [e6]⟩
  have heq : o1 = o := ext_cells n o o1 hol hol1 (fun i j => denseEntry A B n n i j) hcell hcell1
  exact ⟨t, o, hp, ho, t1, hp1, by rw [ho1, heq]⟩

/-- The `3 × 3` scenario run twice on the same task: both passes write
`[36,4,0, 3,0,0, 0,0,14]`. -/
theorem rerun_writes_same_output_witness :
    (((SparseOmpMatrixMultiSequential.fresh
        (mkTaskData (α := ℤ) [4, 0, 0, 0, 0, 1, 0, 2, 0] [9, 1, 0, 0, 0, 7, 3, 0, 0]
          [0, 0, 0, 0, 0, 0, 0, 0, 0] 3 3 3 3 3 3)).pipeline.bind
            fun t => t.pipeline).map fun t => t.taskData.outputs)
      = some [[36, 4, 0, 3, 0, 0, 0, 0, 14]] ∧
    ∃ t o, (SparseOmpMatrixMultiSequential.fresh
          (mkTaskData (α := ℤ) [4, 0, 0, 0, 0, 1, 0, 2, 0] [9, 1, 0, 0, 0, 7, 3, 0, 0]
            [0, 0, 0, 0, 0, 0, 0, 0, 0] 3 3 3 3 3 3)).pipeline = some t ∧
      t.taskData.outputs = [o] ∧
      ∃ t1, t.pipeline = some t1 ∧ t1.taskData.outputs = [o] :=
  ⟨by decide,
   rerun_writes_same_output 3 [4, 0, 0, 0, 0, 1, 0, 2, 0] [9, 1, 0, 0, 0, 7, 3, 0, 0]
     [0, 0, 0, 0, 0, 0, 0, 0, 0] (by decide) (by decide) (by decide) (by decide)⟩

end Claims

end CcsMatMulty

namespace NedelinCannon

open CcsMatMulty

/-! Loops with a step, and sums over their blocks -/

section Loops

/-- With a step of at least 1 and fuel for every value below the bound, the
loop is the fold over the values of its counter. -/
theorem forStep_ofOption {σ : Type} (g : σ → Nat → Option σ) (bound step : Nat)
    (hs : 1 ≤ step) :
    ∀ (fuel i : Nat) (s : σ), bound - i ≤ fuel →
      forStep (fun s x => Outcome.ofOption (g s x)) bound step fuel i s =
        Outcome.ofOption ((starts bound step fuel i).foldlM g s) := by
  intro fuel
  induction fuel with
  | zero =>
    intro i s h
    have hi : ¬ i < bound := by omega
    simp [forStep, starts, hi, Outcome.ofOption]
  | succ fuel ih =>
    intro i s h
    by_cases hi : i < bound
    · simp only [forStep, starts, if_pos hi, List.foldlM_cons]
      cases hg : g s i with
      | none => rfl
      | some s1 =>
        simp only [Outcome.ofOption, Option.bind_eq_bind, Option.some_bind]
        exact ih (i + step) s1 (by omega)
    · simp [forStep, starts, hi, Outcome.ofOption]

theorem mem_starts (bound step : Nat) :
    ∀ (fuel i x : Nat), x ∈ starts bound step fuel i → i ≤ x ∧ x < bound := by
  intro fuel
  induction fuel with
  | zero => intro i x h; simp [starts] at h
  | succ fuel ih =>
    intro i x h
    by_cases hi : i < bound
    · simp only [starts, if_pos hi, List.mem_cons] at h
      rcases h with rfl | h
      · exact ⟨Nat.le_refl _, hi⟩
      · have := ih (i + step) x h
        exact ⟨by omega, this.2⟩
    · simp [starts, hi] at h

variable {α : Type} [Semiring α]

theorem sum_range'_ite (g : Nat → α) (x0 : Nat) :
    ∀ (len lo : Nat), ((List.range' lo len).map fun x => if x = x0 then g x else 0).sum =
      if lo ≤ x0 ∧ x0 < lo + len then g x0 else 0 := by
  intro len
  induction len with
  | zero =>
    intro lo
    have h : ¬ (lo ≤ x0 ∧ x0 < lo + 0) := by omega
    rw [if_neg h]
    rfl
  | succ len ih =>
    intro lo
    rw [List.range'_succ, List.map_cons, List.sum_cons, ih (lo + 1)]
    by_cases h : lo = x0
    · subst h
      have h1 : ¬ (lo + 1 ≤ lo ∧ lo < lo + 1 + len) := by omega
      have h2 : lo ≤ lo ∧ lo < lo + (len + 1) := by omega
      rw [if_pos rfl, if_neg h1, if_pos h2, add_zero]
    · by_cases h1 : lo + 1 ≤ x0 ∧ x0 < lo + 1 + len
      · have h2 : lo ≤ x0 ∧ x0 < lo + (len + 1) := by omega
        rw [if_neg h, if_pos h1, if_pos h2, zero_add]
      · have h2 : ¬ (lo ≤ x0 ∧ x0 < lo + (len + 1)) := by omega
        rw [if_neg h, if_neg h1, if_neg h2, zero_add]

theorem sum_map_ite_const {γ : Type} (c : Prop) [Decidable c] (f : γ → α) (l : List γ) :
    (l.map fun x => if c then f x else 0).sum = if c then (l.map f).sum else 0 := by
  by_cases h : c <;> simp [h]

/-- The blocks of a stepped loop together cover the range of the loop. -/
theorem sum_starts_blocks (h : Nat → α) (bound step : Nat) (hs : 1 ≤ step) :
    ∀ (fuel i : Nat), bound - i ≤ fuel →
      ((starts bound step fuel i).map fun s =>
        ((List.range' s (min (s + step) bound - s)).map h).sum).sum =
      ((List.range' i (bound - i)).map h).sum := by
  intro fuel
  induction fuel with
  | zero =>
    intro i hf
    have : bound - i = 0 := by omega
    simp [starts, this]
  | succ fuel ih =>
    intro i hf
    by_cases hi : i < bound
    · simp only [starts, if_pos hi, List.map_cons, List.sum_cons]
      rw [ih (i + step) (by omega)]
      by_cases hb : i + step ≤ bound
      · have e1 : min (i + step) bound - i = step := by
          rw [Nat.min_eq_left hb]; omega
        have e2 : bound - i = (bound - (i + step)) + step := by omega
        rw [e1, e2, ← List.range'_append_1, List.map_append, List.sum_append]
      · have e1 : min (i + step) bound - i = bound - i := by
          rw [Nat.min_eq_right (by omega)]
        have e2 : bound - (i + step) = 0 := by omega
        rw [e1, e2]
        simp
    · have : bound - i = 0 := by omega
      simp [starts, hi, this]

/-- Exactly one block of a stepped loop holds a given value below the bound. -/
theorem sum_starts_ite (D : α) (x0 bound step : Nat) (hs : 1 ≤ step) :
    ∀ (fuel i : Nat), bound - i ≤ fuel →
      ((starts bound step fuel i).map fun s =>
        if s ≤ x0 ∧ x0 < s + (min (s + step) bound - s) then D else 0).sum =
      if i ≤ x0 ∧ x0 < bound then D else 0 := by
  intro fuel
  induction fuel with
  | zero =>
    intro i hf
    have : ¬ (i ≤ x0 ∧ x0 < bound) := by omega
    rw [if_neg this]
    rfl
  | succ fuel ih =>
    intro i hf
    by_cases hi : i < bound
    · simp only [starts, if_pos hi, List.map_cons, List.sum_cons]
      rw [ih (i + step) (by omega)]
      have e1 : i + (min (i + step) bound - i) = min (i + step) bound := by
        have : i ≤ min (i + step) bound := Nat.le_min.2 ⟨Nat.le_add_right _ _, Nat.le_of_lt hi⟩
        omega
      rw [e1]
      by_cases c1 : i ≤ x0 ∧ x0 < min (i + step) bound
      · have c1b := Nat.lt_min.1 c1.2
        have c2 : ¬ (i + step ≤ x0 ∧ x0 < bound) := by omega
        have c3 : i ≤ x0 ∧ x0 < bound := by omega
        rw [if_pos c1, if_neg c2, if_pos c3, add_zero]
      · have c1b : ¬ (i ≤ x0 ∧ x0 < i + step ∧ x0 < bound) := fun h =>
          c1 ⟨h.1, Nat.lt_min.2 h.2⟩
        by_cases c2 : i + step ≤ x0 ∧ x0 < bound
        · have c3 : i ≤ x0 ∧ x0 < bound := by omega
          rw [if_neg c1, if_pos c2, if_pos c3, zero_add]
        · have c3 : ¬ (i ≤ x0 ∧ x0 < bound) := by omega
          rw [if_neg c1, if_neg c2, if_neg c3, zero_add]
    · have : ¬ (i ≤ x0 ∧ x0 < bound) := by omega
      rw [if_neg this]
      simp [starts, hi]

end Loops

/-! The blocked multiplication as a sequence of updates -/

section Cannon

variable {α : Type} [Semiring α]

omit [Semiring α] in
theorem read_getD [Zero α] (l : List α) (i : Nat) (h : i < l.length) :
    l[i]? = some (l.getD i 0) := by
  simp [List.getD, List.getElem?_eq_getElem h]

theorem cannonBlock_eq (A B : List α) (n m SizeBlock i j k : Nat)
    (hA : A.length = n * m) (hB : B.length = m * m) (C : List α) :
    cannonBlock A B n m SizeBlock i j C k =
      (cannonUpdatesBlock A B n m SizeBlock i j k).foldlM (fun r u => addAt r u.1 u.2) C := by
  unfold cannonBlock cannonUpdatesBlock
  rw [foldlM_flatMap]
  refine foldlM_congr_mem _ _ _ (fun ii hii C1 => ?_) C
  have hii1 : ii < n := by
    have h1 := (List.mem_range'_1.1 hii)
    have h2 := Nat.min_le_right (i + SizeBlock) n
    omega
  unfold cannonII
  rw [foldlM_flatMap]
  refine foldlM_congr_mem _ _ _ (fun kk hkk C2 => ?_) C1
  have hkk1 : kk < m := by
    have h1 := (List.mem_range'_1.1 hkk)
    have h2 := Nat.min_le_right (k + SizeBlock) m
    omega
  unfold cannonKK
  rw [read_getD A (ii * m + kk) (by rw [hA]; exact mul_add_lt n m ii kk hii1 hkk1)]
  simp only [Option.bind_eq_bind, Option.some_bind]
  rw [List.foldlM_map]
  refine foldlM_congr_mem _ _ _ (fun jj hjj C3 => ?_) C2
  have hjj1 : jj < m := by
    have h1 := (List.mem_range'_1.1 hjj)
    have h2 := Nat.min_le_right (j + SizeBlock) m
    omega
  unfold cannonJJ
  rw [read_getD B (kk * m + jj) (by rw [hB]; exact mul_add_lt m m kk jj hkk1 hjj1)]
  rfl

/-- With enough fuel the function performs exactly the updates of
`cannonUpdates` on the zeroed vector. -/
theorem cannon_eq_fold (fuel : Nat) (A B : List α) (n m : Nat)
    (hn : 1 ≤ n) (hm : 1 ≤ m) (hfn : n ≤ fuel) (hfm : m ≤ fuel)
    (hA : A.length = n * m) (hB : B.length = m * m) :
    cannonMtrxMultiplication fuel A B n m =
      Outcome.ofOption ((cannonUpdates fuel A B n m).foldlM (fun r u => addAt r u.1 u.2)
        (List.replicate (n * m) 0)) := by
  have hs : 1 ≤ min n m := Nat.le_min.2 ⟨hn, hm⟩
  have hk : ∀ i j, (fun (C : List α) k =>
      Outcome.ofOption (cannonBlock A B n m (min n m) i j C k)) =
      fun C k => Outcome.ofOption
        ((cannonUpdatesBlock A B n m (min n m) i j k).foldlM (fun r u => addAt r u.1 u.2) C) := by
    intro i j
    funext C k
    rw [cannonBlock_eq A B n m (min n m) i j k hA hB C]
  have hj : ∀ i, (fun (C : List α) j =>
      forStep (fun C k => Outcome.ofOption (cannonBlock A B n m (min n m) i j C k))
        m (min n m) fuel 0 C) =
      fun C j => Outcome.ofOption
        (((starts m (min n m) fuel 0).flatMap fun k =>
          cannonUpdatesBlock A B n m (min n m) i j k).foldlM
            (fun r u => addAt r u.1 u.2) C) := by
    intro i
    funext C j
    rw [hk i j, forStep_ofOption _ m (min n m) hs fuel 0 C (by omega), foldlM_flatMap]
  have hi : (fun (C : List α) i =>
      forStep (fun C j =>
        forStep (fun C k => Outcome.ofOption (cannonBlock A B n m (min n m) i j C k))
          m (min n m) fuel 0 C) m (min n m) fuel 0 C) =
      fun C i => Outcome.ofOption
        (((starts m (min n m) fuel 0).flatMap fun j =>
          (starts m (min n m) fuel 0).flatMap fun k =>
            cannonUpdatesBlock A B n m (min n m) i j k).foldlM
              (fun r u => addAt r u.1 u.2) C) := by
    funext C i
    rw [hj i, forStep_ofOption _ m (min n m) hs fuel 0 C (by omega), foldlM_flatMap]
  have hnm : ¬ (n = 0 ∨ m = 0) := by omega
  unfold cannonMtrxMultiplication
  simp only [if_neg hnm]
  rw [hi, forStep_ofOption _ n (min n m) hs fuel 0 _ (by omega), cannonUpdates, foldlM_flatMap]

/-- What a row of updates `(ii * m + jj, X jj)`, `jj` in a range below `m`,
adds to cell `i0 * m + j0`. -/
theorem contrib_row (m i0 j0 ii lo len : Nat) (hj0 : j0 < m)
    (hlt : ∀ x, x ∈ List.range' lo len → x < m) (X : Nat → α) :
    contrib (i0 * m + j0) ((List.range' lo len).map fun jj => (ii * m + jj, X jj)) =
      if ii = i0 then (if lo ≤ j0 ∧ j0 < lo + len then X j0 else 0) else 0 := by
  have hmap : ((List.range' lo len).map fun jj =>
        if ii * m + jj = i0 * m + j0 then X jj else 0) =
      (List.range' lo len).map fun jj => if jj = j0 then (if ii = i0 then X jj else 0) else 0 := by
    refine List.map_congr_left (fun jj hjj => ?_)
    have hjm := hlt jj hjj
    by_cases h : ii * m + jj = i0 * m + j0
    · obtain ⟨h1, h2⟩ := (index_eq_iff m ii jj i0 j0 hjm hj0).1 h
      rw [if_pos h, if_pos h2, if_pos h1]
    · rw [if_neg h]
      by_cases h2 : jj = j0
      · by_cases h1 : ii = i0
        · exact absurd ((index_eq_iff m ii jj i0 j0 hjm hj0).2 ⟨h1, h2⟩) h
        · rw [if_pos h2, if_neg h1]
      · rw [if_neg h2]
  simp only [contrib, List.map_map, Function.comp_def]
  rw [hmap, sum_range'_ite]
  by_cases h1 : ii = i0
  · simp [h1]
  · simp [h1]

theorem block_range_lt (s step bound x : Nat)
    (h : x ∈ List.range' s (min (s + step) bound - s)) : x < bound := by
  have h1 := List.mem_range'_1.1 h
  have h2 := Nat.min_le_right (s + step) bound
  omega

/-- What the updates of one block add to cell `i0 * m + j0`. -/
theorem contrib_cannonUpdatesBlock (A B : List α) (n m SizeBlock i j k i0 j0 : Nat)
    (hj0 : j0 < m) :
    contrib (i0 * m + j0) (cannonUpdatesBlock A B n m SizeBlock i j k) =
      if i ≤ i0 ∧ i0 < i + (min (i + SizeBlock) n - i) then
        (if j ≤ j0 ∧ j0 < j + (min (j + SizeBlock) m - j) then
          ((List.range' k (min (k + SizeBlock) m - k)).map fun kk =>
            A.getD (i0 * m + kk) 0 * B.getD (kk * m + j0) 0).sum
        else 0)
      else 0 := by
  unfold cannonUpdatesBlock
  rw [contrib_flatMap]
  have hinner : ∀ ii, contrib (i0 * m + j0)
      ((List.range' k (min (k + SizeBlock) m - k)).flatMap fun kk =>
        (List.range' j (min (j + SizeBlock) m - j)).map fun jj =>
          (ii * m + jj, A.getD (ii * m + kk) 0 * B.getD (kk * m + jj) 0)) =
      if ii = i0 then
        (if j ≤ j0 ∧ j0 < j + (min (j + SizeBlock) m - j) then
          ((List.range' k (min (k + SizeBlock) m - k)).map fun kk =>
            A.getD (ii * m + kk) 0 * B.getD (kk * m + j0) 0).sum
        else 0)
      else 0 := by
    intro ii
    rw [contrib_flatMap]
    have hrow : ∀ kk, contrib (i0 * m + j0)
        ((List.range' j (min (j + SizeBlock) m - j)).map fun jj =>
          (ii * m + jj, A.getD (ii * m + kk) 0 * B.getD (kk * m + jj) 0)) =
        if ii = i0 then
          (if j ≤ j0 ∧ j0 < j + (min (j + SizeBlock) m - j) then
            A.getD (ii * m + kk) 0 * B.getD (kk * m + j0) 0 else 0)
        else 0 := fun kk =>
      contrib_row m i0 j0 ii j _ hj0 (fun x hx => block_range_lt j SizeBlock m x hx)
        (fun jj => A.getD (ii * m + kk) 0 * B.getD (kk * m + jj) 0)
    simp only [hrow, sum_map_ite_const]
  simp only [hinner]
  rw [sum_range'_ite (fun ii =>
    if j ≤ j0 ∧ j0 < j + (min (j + SizeBlock) m - j) then
      ((List.range' k (min (k + SizeBlock) m - k)).map fun kk =>
        A.getD (ii * m + kk) 0 * B.getD (kk * m + j0) 0).sum
    else 0) i0]

/-- What all the updates of the function add to cell `i0 * m + j0`: the entry
of the product. -/
theorem contrib_cannonUpdates (fuel : Nat) (A B : List α) (n m i0 j0 : Nat)
    (hn : 1 ≤ n) (hm : 1 ≤ m) (hfn : n ≤ fuel) (hfm : m ≤ fuel)
    (hi0 : i0 < n) (hj0 : j0 < m) :
    contrib (i0 * m + j0) (cannonUpdates fuel A B n m) = productEntry A B m i0 j0 := by
  have hs : 1 ≤ min n m := Nat.le_min.2 ⟨hn, hm⟩
  unfold cannonUpdates
  rw [contrib_flatMap]
  simp only [contrib_flatMap, contrib_cannonUpdatesBlock A B n m (min n m) _ _ _ i0 j0 hj0,
    sum_map_ite_const]
  rw [sum_starts_blocks _ m (min n m) hs fuel 0 (by omega),
    sum_starts_ite _ j0 m (min n m) hs fuel 0 (by omega),
    sum_starts_ite _ i0 n (min n m) hs fuel 0 (by omega),
    if_pos ⟨Nat.zero_le _, hi0⟩, if_pos ⟨Nat.zero_le _, hj0⟩, Nat.sub_zero,
    ← List.range_eq_range']
  rfl

theorem cannonUpdates_index_lt (fuel : Nat) (A B : List α) (n m : Nat) (u : Nat × α)
    (hu : u ∈ cannonUpdates fuel A B n m) : u.1 < n * m := by
  simp only [cannonUpdates, cannonUpdatesBlock, List.mem_flatMap, List.mem_map] at hu
  obtain ⟨i, _, j, _, k, _, ii, hii, kk, _, jj, hjj, rfl⟩ := hu
  exact mul_add_lt n m ii jj (block_range_lt i (min n m) n ii hii)
    (block_range_lt j (min n m) m jj hjj)

/-- With enough fuel `cannonMtrxMultiplication` returns the product. -/
theorem cannon_product (fuel : Nat) (A B : List α) (n m : Nat)
    (hn : 1 ≤ n) (hm : 1 ≤ m) (hfn : n ≤ fuel) (hfm : m ≤ fuel)
    (hA : A.length = n * m) (hB : B.length = m * m) :
    ∃ C, cannonMtrxMultiplication fuel A B n m = Outcome.ok C ∧ C.length = n * m ∧
      ∀ i j, i < n → j < m → C[i * m + j]? = some (productEntry A B m i j) := by
  obtain ⟨C, h1, h2, h3⟩ := foldlM_addAt (cannonUpdates fuel A B n m)
    (List.replicate (n * m) 0)
    (fun u hu => by
      rw [List.length_replicate]
      exact cannonUpdates_index_lt fuel A B n m u hu)
  have hlen : C.length = n * m := by rw [h2, List.length_replicate]
  refine ⟨C, ?_, hlen, ?_⟩
  · rw [cannon_eq_fold fuel A B n m hn hm hfn hfm hA hB, h1]
    rfl
  · intro i j hi hj
    have hp : i * m + j < C.length := by rw [hlen]; exact mul_add_lt n m i j hi hj
    have hget := h3 (i * m + j)
    rw [contrib_cannonUpdates fuel A B n m i j hn hm hfn hfm hi hj] at hget
    have hz : (List.replicate (n * m) (0 : α)).getD (i * m + j) 0 = 0 := by
      have hlt : i * m + j < n * m := mul_add_lt n m i j hi hj
      simp [List.getD, List.getElem?_replicate, hlt]
    rw [hz, zero_add] at hget
    rw [← hget, List.getD_eq_getElem _ _ hp, List.getElem?_eq_getElem hp]

/-- The reference triple loop performs exactly the updates of `multiplyUpdates`. -/
theorem multiply_eq_fold (A B : List α) (r c : Nat) (hr : 1 ≤ r) (hc : 1 ≤ c)
    (hA : A.length = r * r) (hB : B.length = r * c) :
    multiplyMtrx A B r c =
      (multiplyUpdates A B r c).foldlM (fun x u => addAt x u.1 u.2)
        (List.replicate (r * c) 0) := by
  have hrc : ¬ (r = 0 ∨ c = 0) := by omega
  unfold multiplyMtrx multiplyUpdates
  simp only [if_neg hrc]
  rw [foldlM_flatMap]
  refine foldlM_congr_mem _ _ _ (fun i hi C1 => ?_) _
  rw [foldlM_flatMap]
  refine foldlM_congr_mem _ _ _ (fun j hj C2 => ?_) _
  rw [List.foldlM_map]
  refine foldlM_congr_mem _ _ _ (fun k hk C3 => ?_) _
  have hi1 := List.mem_range.1 hi
  have hj1 := List.mem_range.1 hj
  have hk1 := List.mem_range.1 hk
  rw [read_getD A (i * r + k) (by rw [hA]; exact mul_add_lt r r i k hi1 hk1),
    read_getD B (k * c + j) (by rw [hB]; exact mul_add_lt r c k j hk1 hj1)]
  rfl

theorem contrib_multiplyUpdates (A B : List α) (r c i0 j0 : Nat) (hi0 : i0 < r)
    (hj0 : j0 < c) :
    contrib (i0 * c + j0) (multiplyUpdates A B r c) =
      ((List.range r).map fun k => A.getD (i0 * r + k) 0 * B.getD (k * c + j0) 0).sum := by
  unfold multiplyUpdates
  rw [contrib_flatMap]
  have hrow : ∀ i, contrib (i0 * c + j0)
      ((List.range c).flatMap fun j => (List.range r).map fun k =>
        (i * c + j, A.getD (i * r + k) 0 * B.getD (k * c + j) 0)) =
      if i = i0 then
        ((List.range r).map fun k => A.getD (i * r + k) 0 * B.getD (k * c + j0) 0).sum
      else 0 := by
    intro i
    rw [contrib_flatMap]
    have hk : ∀ j, contrib (i0 * c + j0) ((List.range r).map fun k =>
        (i * c + j, A.getD (i * r + k) 0 * B.getD (k * c + j) 0)) =
        if i * c + j = i0 * c + j0 then
          ((List.range r).map fun k => A.getD (i * r + k) 0 * B.getD (k * c + j) 0).sum
        else 0 := by
      intro j
      simp only [contrib, List.map_map, Function.comp_def]
      exact sum_map_ite_const _ _ _
    simp only [hk]
    have hc := contrib_row c i0 j0 i 0 c hj0
      (fun x hx => by have := List.mem_range'_1.1 hx; omega)
      (fun j => ((List.range r).map fun k =>
        A.getD (i * r + k) 0 * B.getD (k * c + j) 0).sum)
    simp only [contrib, List.map_map, Function.comp_def] at hc
    simp only [List.range_eq_range'] at hc ⊢
    have h0 : 0 ≤ j0 ∧ j0 < 0 + c := by omega
    rw [hc, if_pos h0]
  simp only [hrow]
  simp only [List.range_eq_range']
  rw [sum_range'_ite (fun i =>
    ((List.range' 0 r).map fun k => A.getD (i * r + k) 0 * B.getD (k * c + j0) 0).sum) i0]
  have h0 : 0 ≤ i0 ∧ i0 < 0 + r := by omega
  rw [if_pos h0]

/-- The reference triple loop returns the product. -/
theorem multiply_product (A B : List α) (r c : Nat) (hr : 1 ≤ r) (hc : 1 ≤ c)
    (hA : A.length = r * r) (hB : B.length = r * c) :
    ∃ C, multiplyMtrx A B r c = some C ∧ C.length = r * c ∧
      ∀ i j, i < r → j < c → C[i * c + j]? =
        some (((List.range r).map fun k =>
          A.getD (i * r + k) 0 * B.getD (k * c + j) 0).sum) := by
  obtain ⟨C, h1, h2, h3⟩ := foldlM_addAt (multiplyUpdates A B r c)
    (List.replicate (r * c) 0)
    (fun u hu => by
      rw [List.length_replicate]
      simp only [multiplyUpdates, List.mem_flatMap, List.mem_map, List.mem_range] at hu
      obtain ⟨i, hi, j, hj, k, _, rfl⟩ := hu
      exact mul_add_lt r c i j hi hj)
  have hlen : C.length = r * c := by rw [h2, List.length_replicate]
  refine ⟨C, ?_, hlen, ?_⟩
  · rw [multiply_eq_fold A B r c hr hc hA hB, h1]
  · intro i j hi hj
    have hp : i * c + j < C.length := by rw [hlen]; exact mul_add_lt r c i j hi hj
    have hget := h3 (i * c + j)
    rw [contrib_multiplyUpdates A B r c i j hi hj] at hget
    have hz : (List.replicate (r * c) (0 : α)).getD (i * c + j) 0 = 0 := by
      have hlt : i * c + j < r * c := mul_add_lt r c i j hi hj
      simp [List.getD, List.getElem?_replicate, hlt]
    rw [hz, zero_add] at hget
    rw [← hget, List.getD_eq_getElem _ _ hp, List.getElem?_eq_getElem hp]

omit [Semiring α] in
/-- A stepped loop with a step of at least 1 and fuel for every value below the
bound does not run out of fuel when its body does not. -/
theorem forStep_ne_outOfFuel {σ : Type} (body : σ → Nat → Outcome σ) (bound step : Nat)
    (hs : 1 ≤ step) (hbody : ∀ s x, body s x ≠ Outcome.outOfFuel) :
    ∀ (fuel i : Nat) (s : σ), bound - i ≤ fuel →
      forStep body bound step fuel i s ≠ Outcome.outOfFuel := by
  intro fuel
  induction fuel with
  | zero =>
    intro i s h
    have hi : ¬ i < bound := by omega
    simp [forStep, hi]
  | succ fuel ih =>
    intro i s h
    by_cases hi : i < bound
    · simp only [forStep, if_pos hi]
      cases hb : body s i with
      | ok s1 => exact ih (i + step) s1 (by omega)
      | outOfRange => simp
      | outOfFuel => exact absurd hb (hbody s i)
    · simp [forStep, hi]

end Cannon

section Claims

/-- C22: for `n, m ≥ 1`, `A` of length `n * m` and `B` of length `m * m`,
`cannonMtrxMultiplication` (given fuel for its block loops) returns a vector
`C` of length `n * m` whose entry `i * m + j` is the sum over `k < m` of
`A[i * m + k] * B[k * m + j]`, for all `i < n` and `j < m`; no subscript
leaves its vector. -/
theorem cannon_computes_product {α : Type} [Semiring α] (fuel : Nat) (A B : List α)
    (n m : Nat) (hn : 1 ≤ n) (hm : 1 ≤ m) (hfn : n ≤ fuel) (hfm : m ≤ fuel)
    (hA : A.length = n * m) (hB : B.length = m * m) :
    ∃ C, cannonMtrxMultiplication fuel A B n m = Outcome.ok C ∧ C.length = n * m ∧
      ∀ i j, i < n → j < m →
        C[i * m + j]? =
          some (((List.range m).map fun k =>
            A.getD (i * m + k) 0 * B.getD (k * m + j) 0).sum) :=
  cannon_product fuel A B n m hn hm hfn hfm hA hB

/-- C22, evaluated: a `3 × 2` matrix times a `2 × 2` matrix, with blocks of
size 2 and a ragged last row block. -/
theorem cannon_computes_product_witness :
    cannonMtrxMultiplication (α := ℤ) 3 [1, 2, 3, 4, 5, 6] [1, 2, 3, 4] 3 2 =
        Outcome.ok [7, 10, 15, 22, 23, 34] ∧
      ∃ C, cannonMtrxMultiplication (α := ℤ) 3 [1, 2, 3, 4, 5, 6] [1, 2, 3, 4] 3 2 =
          Outcome.ok C ∧ C.length = 3 * 2 ∧
        ∀ i j, i < 3 → j < 2 →
          C[i * 2 + j]? =
            some (((List.range 2).map fun k =>
              ([1, 2, 3, 4, 5, 6] : List ℤ).getD (i * 2 + k) 0 *
                ([1, 2, 3, 4] : List ℤ).getD (k * 2 + j) 0).sum) :=
  ⟨by decide,
    cannon_computes_product 3 [1, 2, 3, 4, 5, 6] [1, 2, 3, 4] 3 2 (by decide) (by decide)
      (by decide) (by decide) (by decide) (by decide)⟩

/-- C23: for every `n ≥ 0` and `A`, `B` of length `n * n`,
`cannonMtrxMultiplication(A, B, n, n)` and the reference
`multiplyMtrx(A, B, n, n)` both return, and return the same vector; it is the
empty vector when `n = 0`. -/
theorem cannon_equals_reference {α : Type} [Semiring α] (fuel n : Nat) (A B : List α)
    (hf : n ≤ fuel) (hA : A.length = n * n) (hB : B.length = n * n) :
    ∃ C, cannonMtrxMultiplication fuel A B n n = Outcome.ok C ∧
      multiplyMtrx A B n n = some C ∧ C.length = n * n ∧ (n = 0 → C = []) := by
  rcases Nat.eq_zero_or_pos n with h0 | h0
  · subst h0
    exact ⟨[], by simp [cannonMtrxMultiplication], by simp [multiplyMtrx], rfl,
      fun _ => rfl⟩
  · obtain ⟨C, hC, hlen, hcell⟩ := cannon_product fuel A B n n h0 h0 hf hf hA hB
    obtain ⟨D, hD, hlenD, hcellD⟩ := multiply_product A B n n h0 h0 hA hB
    have hDC : D = C := ext_cells n C D hlen hlenD (productEntry A B n) hcell hcellD
    subst hDC
    exact ⟨D, hC, hD, hlen, fun h => by omega⟩

/-- C23, evaluated on `2 × 2` inputs. -/
theorem cannon_equals_reference_witness :
    multiplyMtrx (α := ℤ) [1, 2, 3, 4] [5, 6, 7, 8] 2 2 = some [19, 22, 43, 50] ∧
      ∃ C, cannonMtrxMultiplication (α := ℤ) 2 [1, 2, 3, 4] [5, 6, 7, 8] 2 2 =
          Outcome.ok C ∧
        multiplyMtrx (α := ℤ) [1, 2, 3, 4] [5, 6, 7, 8] 2 2 = some C ∧
        C.length = 2 * 2 ∧ (2 = 0 → C = []) :=
  ⟨by decide,
    cannon_equals_reference 2 2 [1, 2, 3, 4] [5, 6, 7, 8] (by decide) (by decide)
      (by decide)⟩

/-- C24: `cannonMtrxMultiplication` terminates for all `n`, `m` and all
vectors: with fuel for `max n m` block steps it never runs out of fuel; when
`n = 0` or `m = 0` it returns the empty vector without any loop step (no
fuel at all); otherwise the step `min n m` is at least 1. -/
theorem cannon_terminates {α : Type} [Zero α] [Add α] [Mul α] (fuel : Nat) (A B : List α)
    (n m : Nat) (hfn : n ≤ fuel) (hfm : m ≤ fuel) :
    cannonMtrxMultiplication fuel A B n m ≠ Outcome.outOfFuel ∧
      (n = 0 ∨ m = 0 → cannonMtrxMultiplication 0 A B n m = Outcome.ok []) ∧
      (¬ (n = 0 ∨ m = 0) → 1 ≤ min n m) := by
  refine ⟨?_, ?_, fun h => by omega⟩
  · by_cases h : n = 0 ∨ m = 0
    · simp [cannonMtrxMultiplication, h]
    · have hs : 1 ≤ min n m := by omega
      simp only [cannonMtrxMultiplication, if_neg h]
      refine forStep_ne_outOfFuel _ n (min n m) hs (fun C i => ?_) fuel 0 _ (by omega)
      refine forStep_ne_outOfFuel _ m (min n m) hs (fun C j => ?_) fuel 0 _ (by omega)
      refine forStep_ne_outOfFuel _ m (min n m) hs (fun C k => ?_) fuel 0 _ (by omega)
      cases cannonBlock A B n m (min n m) i j C k <;> simp [Outcome.ofOption]
  · intro h
    simp [cannonMtrxMultiplication, h]

/-- C24, evaluated: too-short vectors stop the run at a subscript, not at
the fuel, and a zero dimension returns the empty vector. -/
theorem cannon_terminates_witness :
    cannonMtrxMultiplication (α := ℤ) 3 [1, 2] [1] 3 2 = Outcome.outOfRange ∧
      (cannonMtrxMultiplication (α := ℤ) 3 [1, 2] [1] 3 2 ≠ Outcome.outOfFuel ∧
        (3 = 0 ∨ 2 = 0 → cannonMtrxMultiplication (α := ℤ) 0 [1, 2] [1] 3 2 = Outcome.ok []) ∧
        (¬ (3 = 0 ∨ 2 = 0) → 1 ≤ min 3 2)) :=
  ⟨by decide, cannon_terminates 3 [1, 2] [1] 3 2 (by decide) (by decide)⟩

/-- The early return of C24, evaluated with no fuel at `n = 0`, `m = 2`. -/
theorem cannon_early_return_example :
    cannonMtrxMultiplication (α := ℤ) 0 [1, 2] [1] 0 2 = Outcome.ok [] := by
  decide

end Claims

end NedelinCannon

namespace SkotinCannon

open CcsMatMulty NedelinCannon

section Cells

variable {α : Type}

theorem getD_set {β : Type} (l : List β) (i k : Nat) (a d : β) (h : i < l.length) :
    (l.set i a).getD k d = if k = i then a else l.getD k d := by
  by_cases hk : k = i
  · subst hk
    rw [if_pos rfl, List.getD_eq_getElem?_getD, List.getElem?_set_self h]
    rfl
  · have hne : i ≠ k := fun h => hk h.symm
    rw [if_neg hk, List.getD_eq_getElem?_getD, List.getD_eq_getElem?_getD,
      List.getElem?_set_ne hne]

theorem square_row (n : Nat) (R : List (List α)) (hR : IsSquare n R) (i : Nat)
    (hi : i < n) : R[i]? = some (R.getD i []) ∧ (R.getD i []).length = n := by
  have hlt : i < R.length := by rw [hR.1]; exact hi
  have h1 : R[i]? = some (R.getD i []) := by
    rw [List.getD_eq_getElem _ _ hlt, List.getElem?_eq_getElem hlt]
  exact ⟨h1, hR.2 _ (List.getElem?_mem h1)⟩

theorem square_cell [Zero α] (n : Nat) (R : List (List α)) (hR : IsSquare n R) (i j : Nat)
    (hi : i < n) (hj : j < n) :
    R[i]? = some (R.getD i []) ∧ (R.getD i [])[j]? = some (entry R i j) := by
  obtain ⟨h1, h2⟩ := square_row n R hR i hi
  refine ⟨h1, ?_⟩
  have hlt : j < (R.getD i []).length := by rw [h2]; exact hj
  rw [entry, List.getD_eq_getElem _ _ hlt, List.getElem?_eq_getElem hlt]

theorem square_set (n : Nat) (R : List (List α)) (hR : IsSquare n R) (i : Nat)
    (row : List α) (hrow : row.length = n) : IsSquare n (R.set i row) := by
  refine ⟨by rw [List.length_set]; exact hR.1, fun r hr => ?_⟩
  rcases List.mem_or_eq_of_mem_set hr with h | h
  · exact hR.2 r h
  · rw [h]; exact hrow

theorem entry_set [Zero α] (n : Nat) (R : List (List α)) (hR : IsSquare n R) (i j : Nat)
    (hi : i < n) (hj : j < n) (v : α) (i1 j1 : Nat) :
    entry (R.set i ((R.getD i []).set j v)) i1 j1 =
      if i1 = i ∧ j1 = j then v else entry R i1 j1 := by
  obtain ⟨_, h2⟩ := square_row n R hR i hi
  have hlt : i < R.length := by rw [hR.1]; exact hi
  have hjl : j < (R.getD i []).length := by rw [h2]; exact hj
  unfold entry
  rw [getD_set R i i1 _ [] hlt]
  by_cases hi1 : i1 = i
  · rw [if_pos hi1, getD_set _ j j1 v 0 hjl]
    by_cases hj1 : j1 = j
    · rw [if_pos hj1, if_pos ⟨hi1, hj1⟩]
    · rw [if_neg hj1, if_neg (fun h => hj1 h.2), hi1]
  · rw [if_neg hi1, if_neg (fun h => hi1 h.1)]

theorem addCell_spec [AddZeroClass α] (n : Nat) (R : List (List α)) (hR : IsSquare n R)
    (i j : Nat) (hi : i < n) (hj : j < n) (v : α) :
    ∃ R1, addCell R i j v = some R1 ∧ IsSquare n R1 ∧
      ∀ i1 j1, entry R1 i1 j1 = entry R i1 j1 + if i1 = i ∧ j1 = j then v else 0 := by
  obtain ⟨h1, h2⟩ := square_cell n R hR i j hi hj
  obtain ⟨_, h3⟩ := square_row n R hR i hi
  refine ⟨R.set i ((R.getD i []).set j (entry R i j + v)), ?_, ?_, ?_⟩
  · simp only [addCell, h1, h2, Option.bind_eq_bind, Option.some_bind]
  · exact square_set n R hR i _ (by rw [List.length_set]; exact h3)
  · intro i1 j1
    rw [entry_set n R hR i j hi hj]
    by_cases h : i1 = i ∧ j1 = j
    · rw [if_pos h, if_pos h, h.1, h.2]
    · rw [if_neg h, if_neg h, add_zero]

theorem index_div_mod (n p i j : Nat) (hn : 0 < n) (hj : j < n) :
    (i = p / n ∧ j = p % n) ↔ p = i * n + j := by
  have hmod : p % n < n := Nat.mod_lt _ hn
  have hdm : p / n * n + p % n = p := by
    rw [Nat.mul_comm]; exact Nat.div_add_mod p n
  constructor
  · rintro ⟨h1, h2⟩
    rw [h1, h2, hdm]
  · intro h
    have h3 : i * n + j = p / n * n + p % n := by rw [hdm, h]
    have := (index_eq_iff n i j (p / n) (p % n) hj hmod).1 h3
    exact this

/-- A sequence of in-range `+=` statements on a square matrix succeeds and adds
to every cell the values addressed to it. -/
theorem foldlM_addIndex [Semiring α] (n : Nat) (hn : 0 < n) (us : List (Nat × α)) :
    ∀ (R : List (List α)), IsSquare n R → (∀ u, u ∈ us → u.1 < n * n) →
      ∃ R1, us.foldlM (addIndex n) R = some R1 ∧ IsSquare n R1 ∧
        ∀ i j, i < n → j < n → entry R1 i j = entry R i j + contrib (i * n + j) us := by
  induction us with
  | nil => intro R hR _; exact ⟨R, rfl, hR, by simp [contrib]⟩
  | cons u us ih =>
    intro R hR hus
    have hu : u.1 < n * n := hus u (List.mem_cons_self _ _)
    have hdiv : u.1 / n < n := Nat.div_lt_of_lt_mul hu
    have hmod : u.1 % n < n := Nat.mod_lt _ hn
    obtain ⟨R1, h1, hR1, hcell⟩ := addCell_spec n R hR (u.1 / n) (u.1 % n) hdiv hmod u.2
    obtain ⟨R2, h2, hR2, hcell2⟩ := ih R1 hR1 (fun w hw => hus w (List.mem_cons_of_mem _ hw))
    refine ⟨R2, ?_, hR2, ?_⟩
    · rw [List.foldlM_cons]
      show (addCell R (u.1 / n) (u.1 % n) u.2).bind _ = _
      rw [h1]
      exact h2
    · intro i j hi hj
      rw [hcell2 i j hi hj, hcell i j]
      have hc : contrib (i * n + j) (u :: us) =
          (if u.1 = i * n + j then u.2 else 0) + contrib (i * n + j) us := by
        simp [contrib]
      rw [hc, add_assoc]
      congr 2
      by_cases h : u.1 = i * n + j
      · rw [if_pos h, if_pos ((index_div_mod n u.1 i j hn hj).2 h)]
      · rw [if_neg h, if_neg (fun h1 => h ((index_div_mod n u.1 i j hn hj).1 h1))]

theorem square_ext [Zero α] (n : Nat) (R R1 : List (List α)) (hR : IsSquare n R)
    (hR1 : IsSquare n R1)
    (h : ∀ i j, i < n → j < n → entry R i j = entry R1 i j) : R = R1 := by
  apply List.ext_getElem?
  intro i
  by_cases hi : i < n
  · obtain ⟨h1, h2⟩ := square_row n R hR i hi
    obtain ⟨h3, h4⟩ := square_row n R1 hR1 i hi
    rw [h1, h3]
    congr 1
    apply List.ext_getElem?
    intro j
    by_cases hj : j < n
    · rw [(square_cell n R hR i j hi hj).2, (square_cell n R1 hR1 i j hi hj).2, h i j hi hj]
    · rw [List.getElem?_eq_none (by omega), List.getElem?_eq_none (by omega)]
  · rw [List.getElem?_eq_none (by rw [hR.1]; omega),
      List.getElem?_eq_none (by rw [hR1.1]; omega)]

end Cells

section Run

variable {α : Type} [Semiring α]

/-- The loop over `k` adds the products of its range to `sum`. -/
theorem foldlM_runSum (n : Nat) (A B : List (List α)) (hA : IsSquare n A)
    (hB : IsSquare n B) (i j : Nat) (hi : i < n) (hj : j < n) :
    ∀ (l : List Nat) (init : α), (∀ k, k ∈ l → k < n) →
      l.foldlM (runSum A B i j) init =
        some (init + (l.map fun k => entry A i k * entry B k j).sum) := by
  intro l
  induction l with
  | nil => intro init _; simp
  | cons k l ih =>
    intro init hl
    have hk : k < n := hl k (List.mem_cons_self _ _)
    obtain ⟨a1, a2⟩ := square_cell n A hA i k hi hk
    obtain ⟨b1, b2⟩ := square_cell n B hB k j hk hj
    rw [List.foldlM_cons]
    have hstep : runSum A B i j init k = some (init + entry A i k * entry B k j) := by
      simp only [runSum, a1, a2, b1, b2, Option.bind_eq_bind, Option.some_bind]
    rw [hstep]
    show l.foldlM (runSum A B i j) (init + entry A i k * entry B k j) = _
    rw [ih _ (fun x hx => hl x (List.mem_cons_of_mem _ hx)), List.map_cons, List.sum_cons,
      add_assoc]

theorem index_div (n i j : Nat) (hj : j < n) : (i * n + j) / n = i ∧ (i * n + j) % n = j := by
  have hn : 0 < n := by omega
  have h := (index_div_mod n (i * n + j) i j hn hj).2 rfl
  exact ⟨h.1.symm, h.2.symm⟩

theorem runJ_eq (n : Nat) (A B : List (List α)) (hA : IsSquare n A) (hB : IsSquare n B)
    (blockSize blockRow i j : Nat) (hi : i < n) (hj : j < n) (R : List (List α)) :
    runJ A B n blockSize blockRow i R j =
      addIndex n R (i * n + j,
        ((List.range' blockRow (min (blockRow + blockSize) n - blockRow)).map fun k =>
          entry A i k * entry B k j).sum) := by
  unfold runJ addIndex
  rw [foldlM_runSum n A B hA hB i j hi hj _ 0
    (fun k hk => block_range_lt blockRow blockSize n k hk)]
  obtain ⟨h1, h2⟩ := index_div n i j hj
  simp only [Option.bind_eq_bind, Option.some_bind, zero_add, h1, h2]

/-- The blocked loops of the sequential `run` perform exactly the updates of
`seqUpdates`. -/
theorem seq_loops_eq (fuel n : Nat) (A B : List (List α)) (hA : IsSquare n A)
    (hB : IsSquare n B) (blockSize : Nat) (hs : 1 ≤ blockSize) (hf : n ≤ fuel)
    (R : List (List α)) :
    forStep (fun R blockRow =>
        forStep (fun R blockCol =>
          Outcome.ofOption (runBlock A B n blockSize blockRow R blockCol))
          n blockSize fuel 0 R)
        n blockSize fuel 0 R =
      Outcome.ofOption ((seqUpdates fuel A B n blockSize).foldlM (addIndex n) R) := by
  have hcol : ∀ blockRow, (fun (R : List (List α)) blockCol =>
      Outcome.ofOption (runBlock A B n blockSize blockRow R blockCol)) =
      fun R blockCol => Outcome.ofOption
        (((List.range n).flatMap fun i =>
          (List.range' blockCol (min (blockCol + blockSize) n - blockCol)).map fun j =>
            (i * n + j,
              ((List.range' blockRow (min (blockRow + blockSize) n - blockRow)).map fun k =>
                entry A i k * entry B k j).sum)).foldlM (addIndex n) R) := by
    intro blockRow
    funext R blockCol
    congr 1
    unfold runBlock
    rw [foldlM_flatMap]
    refine foldlM_congr_mem _ _ _ (fun i hi R1 => ?_) _
    unfold runI
    rw [List.foldlM_map]
    refine foldlM_congr_mem _ _ _ (fun j hj R2 => ?_) _
    exact runJ_eq n A B hA hB blockSize blockRow i j (List.mem_range.1 hi)
      (block_range_lt blockCol blockSize n j hj) R2
  have hrow : (fun (R : List (List α)) blockRow =>
      forStep (fun R blockCol =>
        Outcome.ofOption (runBlock A B n blockSize blockRow R blockCol))
        n blockSize fuel 0 R) =
      fun R blockRow => Outcome.ofOption
        (((starts n blockSize fuel 0).flatMap fun blockCol =>
          (List.range n).flatMap fun i =>
            (List.range' blockCol (min (blockCol + blockSize) n - blockCol)).map fun j =>
              (i * n + j,
                ((List.range' blockRow (min (blockRow + blockSize) n - blockRow)).map fun k =>
                  entry A i k * entry B k j).sum)).foldlM (addIndex n) R) := by
    funext R blockRow
    rw [hcol blockRow, forStep_ofOption _ n blockSize hs fuel 0 R (by omega), foldlM_flatMap]
  rw [hrow, forStep_ofOption _ n blockSize hs fuel 0 R (by omega), seqUpdates, foldlM_flatMap]

/-- What the sequential `run` adds to cell `(i0, j0)`: the whole product entry. -/
theorem contrib_seqUpdates (fuel n : Nat) (A B : List (List α)) (blockSize : Nat)
    (hs : 1 ≤ blockSize) (hf : n ≤ fuel) (i0 j0 : Nat) (hi0 : i0 < n) (hj0 : j0 < n) :
    contrib (i0 * n + j0) (seqUpdates fuel A B n blockSize) = productCell A B n i0 j0 := by
  unfold seqUpdates
  rw [contrib_flatMap]
  have hblock : ∀ blockRow, contrib (i0 * n + j0)
      ((starts n blockSize fuel 0).flatMap fun blockCol =>
        (List.range n).flatMap fun i =>
          (List.range' blockCol (min (blockCol + blockSize) n - blockCol)).map fun j =>
            (i * n + j,
              ((List.range' blockRow (min (blockRow + blockSize) n - blockRow)).map fun k =>
                entry A i k * entry B k j).sum)) =
      ((List.range' blockRow (min (blockRow + blockSize) n - blockRow)).map fun k =>
        entry A i0 k * entry B k j0).sum := by
    intro blockRow
    rw [contrib_flatMap]
    have hcol : ∀ blockCol, contrib (i0 * n + j0)
        ((List.range n).flatMap fun i =>
          (List.range' blockCol (min (blockCol + blockSize) n - blockCol)).map fun j =>
            (i * n + j,
              ((List.range' blockRow (min (blockRow + blockSize) n - blockRow)).map fun k =>
                entry A i k * entry B k j).sum)) =
        if blockCol ≤ j0 ∧ j0 < blockCol + (min (blockCol + blockSize) n - blockCol) then
          ((List.range' blockRow (min (blockRow + blockSize) n - blockRow)).map fun k =>
            entry A i0 k * entry B k j0).sum
        else 0 := by
      intro blockCol
      rw [contrib_flatMap]
      have hi : ∀ i, contrib (i0 * n + j0)
          ((List.range' blockCol (min (blockCol + blockSize) n - blockCol)).map fun j =>
            (i * n + j,
              ((List.range' blockRow (min (blockRow + blockSize) n - blockRow)).map fun k =>
                entry A i k * entry B k j).sum)) =
          if i = i0 then
            (if blockCol ≤ j0 ∧ j0 < blockCol + (min (blockCol + blockSize) n - blockCol) then
              ((List.range' blockRow (min (blockRow + blockSize) n - blockRow)).map fun k =>
                entry A i k * entry B k j0).sum
            else 0)
          else 0 := by
        intro i
        exact contrib_row n i0 j0 i blockCol (min (blockCol + blockSize) n - blockCol) hj0
          (fun x hx => block_range_lt blockCol blockSize n x hx)
          (fun j => ((List.range' blockRow (min (blockRow + blockSize) n - blockRow)).map
            fun k => entry A i k * entry B k j).sum)
      simp only [hi]
      rw [List.range_eq_range', sum_range'_ite (fun i =>
        if blockCol ≤ j0 ∧ j0 < blockCol + (min (blockCol + blockSize) n - blockCol) then
          ((List.range' blockRow (min (blockRow + blockSize) n - blockRow)).map fun k =>
            entry A i k * entry B k j0).sum
        else 0) i0 n 0]
      have h0 : 0 ≤ i0 ∧ i0 < 0 + n := by omega
      rw [if_pos h0]
    simp only [hcol]
    rw [sum_starts_ite _ j0 n blockSize hs fuel 0 (by omega)]
    have h0 : 0 ≤ j0 ∧ j0 < n := by omega
    rw [if_pos h0]
  simp only [hblock]
  rw [sum_starts_blocks (fun k => entry A i0 k * entry B k j0) n blockSize hs fuel 0 (by omega),
    productCell, List.range_eq_range', Nat.sub_zero]

theorem seqUpdates_index_lt (fuel n : Nat) (A B : List (List α)) (blockSize : Nat)
    (u : Nat × α) (hu : u ∈ seqUpdates fuel A B n blockSize) : u.1 < n * n := by
  simp only [seqUpdates, List.mem_flatMap, List.mem_map, List.mem_range] at hu
  obtain ⟨blockRow, _, blockCol, _, i, hi, j, hj, rfl⟩ := hu
  exact mul_add_lt n n i j hi (block_range_lt blockCol blockSize n j hj)

omit [Semiring α] in
theorem resizeRows_square (n : Nat) (R : List (List α)) (hR : IsSquare n R)
    (row : List α) : resizeRows R n row = R := by
  unfold resizeRows
  rw [hR.1, Nat.sub_self, List.replicate_zero, List.append_nil, ← hR.1, List.take_length]

theorem zeroMatrix_square (n : Nat) : IsSquare n (zeroMatrix (α := α) n) := by
  refine ⟨by simp [zeroMatrix], fun row hrow => ?_⟩
  rw [zeroMatrix, List.mem_replicate] at hrow
  rw [hrow.2, List.length_replicate]

theorem zeroMatrix_entry (n i j : Nat) : entry (zeroMatrix (α := α) n) i j = 0 := by
  unfold entry zeroMatrix
  rw [List.getD_eq_getElem?_getD, List.getD_eq_getElem?_getD]
  by_cases hi : i < n
  · rw [List.getElem?_replicate, if_pos hi]
    by_cases hj : j < n
    · simp [List.getElem?_replicate, hj]
    · simp [List.getElem?_replicate, hj]
  · simp [List.getElem?_replicate, hi]

theorem sqrtFrom_spec (x : Nat) :
    ∀ r, x < (r + 1) * (r + 1) →
      sqrtFrom x r * sqrtFrom x r ≤ x ∧ x < (sqrtFrom x r + 1) * (sqrtFrom x r + 1) := by
  intro r
  induction r with
  | zero => intro h; simp only [sqrtFrom]; omega
  | succ r ih =>
    intro h
    by_cases hr : (r + 1) * (r + 1) ≤ x
    · simp only [sqrtFrom, if_pos hr]
      exact ⟨hr, h⟩
    · simp only [sqrtFrom, if_neg hr]
      exact ih (by omega)

/-- The square root of the model is the integer square root. -/
theorem sqrt_eq (x : Nat) : sqrt x = Nat.sqrt x := by
  have hx : x < (x + 1) * (x + 1) := by nlinarith
  exact Nat.eq_sqrt.2 (sqrtFrom_spec x x hx)

theorem nat_sqrt_pos (n : Nat) (hn : 1 ≤ n) : 1 ≤ sqrt n := by
  rw [sqrt_eq]
  exact Nat.sqrt_pos.2 hn

/-- The sequential `run` on `n × n` matrices and a zero `resultMatrix` returns
and leaves the product in `resultMatrix`. -/
theorem seq_run_product (fuel n : Nat) (t : SkotinMatrixMultiplicationTBBSeq α)
    (hn : 1 ≤ n) (hf : n ≤ fuel) (hA : IsSquare n t.matrixA) (hB : IsSquare n t.matrixB)
    (hR : t.resultMatrix = zeroMatrix n) :
    ∃ R, t.run fuel = Outcome.ok { t with resultMatrix := R } ∧ IsSquare n R ∧
      ∀ i j, i < n → j < n → entry R i j = productCell t.matrixA t.matrixB n i j := by
  have hs : 1 ≤ sqrt n := nat_sqrt_pos n hn
  obtain ⟨R, h1, h2, h3⟩ := foldlM_addIndex n (by omega)
    (seqUpdates fuel t.matrixA t.matrixB n (sqrt n)) (zeroMatrix n) (zeroMatrix_square n)
    (fun u hu => seqUpdates_index_lt fuel n t.matrixA t.matrixB (sqrt n) u hu)
  refine ⟨R, ?_, h2, ?_⟩
  · unfold SkotinMatrixMultiplicationTBBSeq.run
    simp only [hA.1, hR, resizeRows_square n (zeroMatrix n) (zeroMatrix_square n)]
    rw [seq_loops_eq fuel n t.matrixA t.matrixB hA hB (sqrt n) hs hf, h1]
    rfl
  · intro i j hi hj
    rw [h3 i j hi hj, zeroMatrix_entry, zero_add,
      contrib_seqUpdates fuel n t.matrixA t.matrixB (sqrt n) hs hf i j hi hj]

theorem parallelRow_eq (n : Nat) (A B : List (List α)) (hA : IsSquare n A)
    (hB : IsSquare n B) (i : Nat) (hi : i < n) (R : List (List α)) :
    parallelRow A B n R i =
      ((List.range n).map fun j =>
        (i * n + j, ((List.range n).map fun k => entry A i k * entry B k j).sum)).foldlM
        (addIndex n) R := by
  unfold parallelRow
  rw [List.foldlM_map]
  refine foldlM_congr_mem _ _ _ (fun j hj R1 => ?_) _
  have hj1 := List.mem_range.1 hj
  rw [foldlM_runSum n A B hA hB i j hi hj1 _ 0 (fun k hk => List.mem_range.1 hk)]
  obtain ⟨h1, h2⟩ := index_div n i j hj1
  simp only [addIndex, Option.bind_eq_bind, Option.some_bind, zero_add, h1, h2]

theorem parallel_loops_eq (n : Nat) (A B : List (List α)) (hA : IsSquare n A)
    (hB : IsSquare n B) (order : List Nat) (ho : ∀ i, i ∈ order → i < n)
    (R : List (List α)) :
    order.foldlM (parallelRow A B n) R =
      (parallelUpdates order A B n).foldlM (addIndex n) R := by
  unfold parallelUpdates
  rw [foldlM_flatMap]
  exact foldlM_congr_mem _ _ _
    (fun i hi R1 => parallelRow_eq n A B hA hB i (ho i hi) R1) _

/-- What the parallel `run` adds to cell `(i0, j0)` when the schedule executes
every row once. -/
theorem contrib_parallelUpdates (n : Nat) (A B : List (List α)) (order : List Nat)
    (ho : order.Perm (List.range n)) (i0 j0 : Nat) (hi0 : i0 < n) (hj0 : j0 < n) :
    contrib (i0 * n + j0) (parallelUpdates order A B n) = productCell A B n i0 j0 := by
  unfold parallelUpdates
  rw [contrib_flatMap]
  have hi : ∀ i, contrib (i0 * n + j0)
      ((List.range n).map fun j =>
        (i * n + j, ((List.range n).map fun k => entry A i k * entry B k j).sum)) =
      if i = i0 then ((List.range n).map fun k => entry A i k * entry B k j0).sum else 0 := by
    intro i
    have hc := contrib_row n i0 j0 i 0 n hj0
      (fun x hx => by have := List.mem_range'_1.1 hx; omega)
      (fun j => ((List.range n).map fun k => entry A i k * entry B k j).sum)
    have h0 : 0 ≤ j0 ∧ j0 < 0 + n := by omega
    rw [if_pos h0, ← List.range_eq_range'] at hc
    exact hc
  simp only [hi]
  rw [(ho.map _).sum_eq, List.range_eq_range', sum_range'_ite (fun i =>
    ((List.range' 0 n).map fun k => entry A i k * entry B k j0).sum) i0 n 0]
  have h0 : 0 ≤ i0 ∧ i0 < 0 + n := by omega
  rw [if_pos h0, productCell, List.range_eq_range']

/-- The parallel `run` on `n × n` matrices and a zero `resultMatrix`, under a
schedule that executes every row once, leaves the product in `resultMatrix`. -/
theorem parallel_run_product (n : Nat) (t : SkotinMatrixMultiplicationTBBParallel α)
    (order : List Nat) (ho : order.Perm (List.range n)) (hn : 1 ≤ n)
    (hA : IsSquare n t.matrixA) (hB : IsSquare n t.matrixB)
    (hR : t.resultMatrix = zeroMatrix n) :
    ∃ R, t.run order = some { t with resultMatrix := R } ∧ IsSquare n R ∧
      ∀ i j, i < n → j < n → entry R i j = productCell t.matrixA t.matrixB n i j := by
  have hmem : ∀ i, i ∈ order → i < n := fun i hi => List.mem_range.1 (ho.mem_iff.1 hi)
  obtain ⟨R, h1, h2, h3⟩ := foldlM_addIndex n (by omega)
    (parallelUpdates order t.matrixA t.matrixB n) (zeroMatrix n) (zeroMatrix_square n)
    (fun u hu => by
      simp only [parallelUpdates, List.mem_flatMap, List.mem_map, List.mem_range] at hu
      obtain ⟨i, hi, j, hj, rfl⟩ := hu
      exact mul_add_lt n n i j (hmem i hi) hj)
  refine ⟨R, ?_, h2, ?_⟩
  · unfold SkotinMatrixMultiplicationTBBParallel.run
    simp only [hA.1, hR, resizeRows_square n (zeroMatrix n) (zeroMatrix_square n)]
    rw [parallel_loops_eq n t.matrixA t.matrixB hA hB order hmem, h1]
    rfl
  · intro i j hi hj
    rw [h3 i j hi hj, zeroMatrix_entry, zero_add,
      contrib_parallelUpdates n t.matrixA t.matrixB order ho i j hi hj]

end Run

section Load

variable {α : Type}

/-- A property kept by every step of a loop holds after the loop. -/
theorem foldlM_inv {β γ : Type} (P : β → Prop) (f : β → γ → Option β)
    (hf : ∀ b x b1, P b → f b x = some b1 → P b1) :
    ∀ (l : List γ) (b b1 : β), P b → l.foldlM f b = some b1 → P b1 := by
  intro l
  induction l with
  | nil =>
    intro b b1 hb h
    rw [List.foldlM_nil] at h
    cases h
    exact hb
  | cons x l ih =>
    intro b b1 hb h
    rw [List.foldlM_cons] at h
    cases hx : f b x with
    | none => rw [hx] at h; cases h
    | some b2 =>
      rw [hx] at h
      exact ih b2 b1 (hf b x b2 hb hx) h

theorem setCell_inv (P : List (List α) → Prop)
    (hP : ∀ (m : List (List α)) (i : Nat) (row row1 : List α), P m → m[i]? = some row →
      row1.length = row.length → P (m.set i row1))
    (m : List (List α)) (i j : Nat) (v : α) (m1 : List (List α)) (hm : P m)
    (h : setCell m i j v = some m1) : P m1 := by
  unfold setCell at h
  cases hrow : m[i]? with
  | none => rw [hrow] at h; cases h
  | some row =>
    rw [hrow] at h
    simp only [Option.bind_eq_bind, Option.some_bind] at h
    by_cases hj : j < row.length
    · rw [if_pos hj] at h
      cases h
      exact hP m i row _ hm hrow (List.length_set _ _ _)
    · rw [if_neg hj] at h; cases h

/-- A property of the shape of a matrix that `resize` establishes holds for
the matrix `loadMatrix` leaves behind when it returns `true`. -/
theorem loadMatrix_inv [Zero α] (P : List (List α) → Prop)
    (hP : ∀ (m : List (List α)) (i : Nat) (row row1 : List α), P m → m[i]? = some row →
      row1.length = row.length → P (m.set i row1))
    (inputData : List α) (matrix : List (List α)) (size : Nat) (m1 : List (List α))
    (h0 : P (resizeRows matrix size (List.replicate size 0)))
    (h : loadMatrix inputData matrix size = some (true, m1)) : P m1 := by
  unfold loadMatrix at h
  by_cases hlen : inputData.length ≠ size * size
  · rw [if_pos hlen] at h; cases h
  · rw [if_neg hlen] at h
    simp only [Option.bind_eq_bind, Option.bind_eq_some] at h
    obtain ⟨m2, hm2, h2⟩ := h
    cases h2
    refine foldlM_inv P _ (fun b i b1 hb hi => ?_) _ _ _ h0 hm2
    refine foldlM_inv P _ (fun c j c1 hc hj => ?_) _ _ _ hb hi
    simp only [Option.bind_eq_bind, Option.bind_eq_some] at hj
    obtain ⟨v, _, hv⟩ := hj
    exact setCell_inv P hP c i j v c1 hc hv

theorem resizeRows_length (matrix : List (List α)) (size : Nat) (row : List α) :
    (resizeRows matrix size row).length = size := by
  unfold resizeRows
  rw [List.length_append, List.length_take, List.length_replicate]
  omega

theorem resizeRows_rows (matrix : List (List α)) (size : Nat) (row : List α)
    (h : ∀ r, r ∈ matrix → r.length = row.length) :
    ∀ r, r ∈ resizeRows matrix size row → r.length = row.length := by
  intro r hr
  unfold resizeRows at hr
  rcases List.mem_append.1 hr with h1 | h1
  · exact h r (List.mem_of_mem_take h1)
  · rw [(List.mem_replicate.1 h1).2]

/-- The matrix `loadMatrix` leaves behind has `size` rows. -/
theorem loadMatrix_length [Zero α] (inputData : List α) (matrix : List (List α))
    (size : Nat) (m1 : List (List α))
    (h : loadMatrix inputData matrix size = some (true, m1)) : m1.length = size := by
  refine loadMatrix_inv (fun m => m.length = size) ?_ inputData matrix size m1
    (resizeRows_length _ _ _) h
  intro m i row row1 hm _ _
  show (m.set i row1).length = size
  rw [List.length_set]
  exact hm

/-- When the rows the matrix already holds have `size` elements, every row of
the matrix `loadMatrix` leaves behind has `size` elements. -/
theorem loadMatrix_rows [Zero α] (inputData : List α) (matrix : List (List α))
    (size : Nat) (m1 : List (List α)) (hrows : ∀ r, r ∈ matrix → r.length = size)
    (h : loadMatrix inputData matrix size = some (true, m1)) :
    ∀ r, r ∈ m1 → r.length = size := by
  refine loadMatrix_inv (fun m => ∀ r, r ∈ m → r.length = size) ?_ inputData matrix size m1
    ?_ h
  · intro m i row row1 hm hrow hlen r hr
    rcases List.mem_or_eq_of_mem_set hr with h1 | h1
    · exact hm r h1
    · rw [h1, hlen]; exact hm row (List.getElem?_mem hrow)
  · intro r hr
    have h1 := resizeRows_rows matrix size (List.replicate size (0 : α))
      (fun r hr => by rw [List.length_replicate]; exact hrows r hr) r hr
    rw [List.length_replicate] at h1
    exact h1

/-- What a `pre_processing` that returns `true` has done: both matrices were
loaded with the size computed from `inputs_count[0]` and `resultMatrix` was
resized. -/
theorem pre_processing_true [Zero α] (t t1 : SkotinMatrixMultiplicationTBBSeq α)
    (count0 : Nat) (hc : t.taskData.inputs_count[0]? = some count0)
    (hpre : t.pre_processing = some (true, t1)) :
    ∃ dataA dataB,
      loadMatrix dataA t.matrixA (sqrt (count0 / sizeofDouble)) =
        some (true, t1.matrixA) ∧
      loadMatrix dataB t.matrixB (sqrt (count0 / sizeofDouble)) =
        some (true, t1.matrixB) ∧
      t1.resultMatrix = resizeRows t.resultMatrix (sqrt (count0 / sizeofDouble))
        (List.replicate (sqrt (count0 / sizeofDouble)) 0) ∧
      t1.taskData = t.taskData := by
  unfold SkotinMatrixMultiplicationTBBSeq.pre_processing at hpre
  rw [hc] at hpre
  simp only [Option.bind_eq_bind, Option.some_bind] at hpre
  split at hpre
  · cases hpre
  · simp only [Option.bind_eq_some] at hpre
    obtain ⟨input0, _, dataA, _, ⟨okA, mA⟩, hA, hpre⟩ := hpre
    simp only at hpre
    split at hpre
    · cases hpre
    · rename_i hokA
      simp only [Option.bind_eq_some] at hpre
      obtain ⟨input1, _, count1, _, dataB, _, ⟨okB, mB⟩, hB, hpre⟩ := hpre
      simp only at hpre
      split at hpre
      · cases hpre
      · rename_i hokB
        have hokA1 : okA = true := by cases okA; exact absurd rfl hokA; rfl
        have hokB1 : okB = true := by cases okB; exact absurd rfl hokB; rfl
        subst hokA1
        subst hokB1
        cases hpre
        exact ⟨dataA, dataB, hA, hB, rfl, rfl⟩

end Load

section Claims

/-- C25: for `n ≥ 1`, `n × n` matrices `matrixA`, `matrixB` and a `resultMatrix`
of `n × n` zeros, `SkotinMatrixMultiplicationTBBSeq::run` (given fuel for its
block loops) returns, changes neither input matrix, and leaves in
`resultMatrix[i][j]` the sum over `k < n` of `matrixA[i][k] * matrixB[k][j]`
for all `i, j < n`; the block size `floor(sqrt(n))` is at least 1. -/
theorem seq_run_computes_product {α : Type} [Semiring α] (fuel n : Nat)
    (t : SkotinMatrixMultiplicationTBBSeq α) (hn : 1 ≤ n) (hf : n ≤ fuel)
    (hA : IsSquare n t.matrixA) (hB : IsSquare n t.matrixB)
    (hR : t.resultMatrix = zeroMatrix n) :
    sqrt t.matrixA.length = Nat.sqrt n ∧ 1 ≤ sqrt t.matrixA.length ∧
      ∃ t1, t.run fuel = Outcome.ok t1 ∧ t1.matrixA = t.matrixA ∧
        t1.matrixB = t.matrixB ∧ IsSquare n t1.resultMatrix ∧
        ∀ i j, i < n → j < n →
          entry t1.resultMatrix i j =
            ((List.range n).map fun k => entry t.matrixA i k * entry t.matrixB k j).sum := by
  obtain ⟨R, h1, h2, h3⟩ := seq_run_product fuel n t hn hf hA hB hR
  refine ⟨by rw [hA.1, sqrt_eq], by rw [hA.1]; exact nat_sqrt_pos n hn, _, h1, rfl, rfl,
    h2, h3⟩

/-- C25, evaluated on `5 × 5` matrices: blocks of size 2 and a ragged last
block. -/
theorem seq_run_computes_product_witness :
    sqrt 5 = Nat.sqrt 5 ∧ 1 ≤ sqrt 5 ∧
      ∃ t1,
        SkotinMatrixMultiplicationTBBSeq.run 5
          { taskData := { inputs := [], inputs_count := [], outputs := [], outputs_count := [] },
            matrixA := [[1, 2, 0, 0, 1], [0, 1, 0, 3, 0], [2, 0, 1, 0, 0], [0, 0, 0, 1, 4],
              [1, 0, 0, 0, 1]],
            matrixB := [[1, 0, 0, 2, 0], [0, 1, 0, 0, 0], [3, 0, 1, 0, 0], [0, 0, 0, 1, 0],
              [0, 5, 0, 0, 1]],
            resultMatrix := zeroMatrix 5 : SkotinMatrixMultiplicationTBBSeq ℤ } =
          Outcome.ok t1 ∧
        t1.matrixA = [[1, 2, 0, 0, 1], [0, 1, 0, 3, 0], [2, 0, 1, 0, 0], [0, 0, 0, 1, 4],
          [1, 0, 0, 0, 1]] ∧
        t1.matrixB = [[1, 0, 0, 2, 0], [0, 1, 0, 0, 0], [3, 0, 1, 0, 0], [0, 0, 0, 1, 0],
          [0, 5, 0, 0, 1]] ∧
        IsSquare 5 t1.resultMatrix ∧
        ∀ i j, i < 5 → j < 5 →
          entry t1.resultMatrix i j =
            ((List.range 5).map fun k =>
              entry ([[1, 2, 0, 0, 1], [0, 1, 0, 3, 0], [2, 0, 1, 0, 0], [0, 0, 0, 1, 4],
                [1, 0, 0, 0, 1]] : List (List ℤ)) i k *
              entry ([[1, 0, 0, 2, 0], [0, 1, 0, 0, 0], [3, 0, 1, 0, 0], [0, 0, 0, 1, 0],
                [0, 5, 0, 0, 1]] : List (List ℤ)) k j).sum :=
  seq_run_computes_product (α := ℤ) 5 5
    { taskData := { inputs := [], inputs_count := [], outputs := [], outputs_count := [] },
      matrixA := [[1, 2, 0, 0, 1], [0, 1, 0, 3, 0], [2, 0, 1, 0, 0], [0, 0, 0, 1, 4],
        [1, 0, 0, 0, 1]],
      matrixB := [[1, 0, 0, 2, 0], [0, 1, 0, 0, 0], [3, 0, 1, 0, 0], [0, 0, 0, 1, 0],
        [0, 5, 0, 0, 1]],
      resultMatrix := zeroMatrix 5 }
    (by decide) (by decide) ⟨by decide, by decide⟩ ⟨by decide, by decide⟩ rfl

/-- The run of C25 on `3 × 3` matrices, evaluated. -/
theorem seq_run_example :
    (match SkotinMatrixMultiplicationTBBSeq.run 3
        { taskData := { inputs := [], inputs_count := [], outputs := [], outputs_count := [] },
          matrixA := [[1, 2, 3], [4, 5, 6], [7, 8, 9]],
          matrixB := [[1, 0, 2], [0, 1, 0], [3, 0, 1]],
          resultMatrix := zeroMatrix 3 : SkotinMatrixMultiplicationTBBSeq ℤ } with
      | Outcome.ok t1 => some t1.resultMatrix
      | _ => none) = some [[10, 2, 5], [22, 5, 14], [34, 8, 23]] := by
  decide

/-- C26: for `n ≥ 1`, the same `n × n` inputs and zero `resultMatrix`, the
parallel `run`, whatever the order in which its row iterations are executed,
and the blocked sequential `run` both return and leave the same
`resultMatrix`. -/
theorem parallel_run_equals_seq_run {α : Type} [Semiring α] (fuel n : Nat)
    (ts : SkotinMatrixMultiplicationTBBSeq α) (tp : SkotinMatrixMultiplicationTBBParallel α)
    (order : List Nat) (ho : order.Perm (List.range n)) (hn : 1 ≤ n) (hf : n ≤ fuel)
    (hA : IsSquare n ts.matrixA) (hB : IsSquare n ts.matrixB)
    (hR : ts.resultMatrix = zeroMatrix n)
    (hpA : tp.matrixA = ts.matrixA) (hpB : tp.matrixB = ts.matrixB)
    (hpR : tp.resultMatrix = zeroMatrix n) :
    ∃ R, ts.run fuel = Outcome.ok { ts with resultMatrix := R } ∧
      tp.run order = some { tp with resultMatrix := R } := by
  obtain ⟨R, h1, h2, h3⟩ := seq_run_product fuel n ts hn hf hA hB hR
  obtain ⟨R1, p1, p2, p3⟩ := parallel_run_product n tp order ho hn
    (by rw [hpA]; exact hA) (by rw [hpB]; exact hB) hpR
  have hRR : R1 = R := square_ext n R1 R p2 h2 (fun i j hi hj => by
    rw [p3 i j hi hj, h3 i j hi hj, hpA, hpB])
  rw [hRR] at p1
  exact ⟨R, h1, p1⟩

/-- C26, evaluated on `3 × 3` matrices with the rows executed in the order
2, 0, 1. -/
theorem parallel_run_equals_seq_run_witness :
    ∃ R,
      SkotinMatrixMultiplicationTBBSeq.run 3
        { taskData := { inputs := [], inputs_count := [], outputs := [], outputs_count := [] },
          matrixA := [[1, 2, 3], [4, 5, 6], [7, 8, 9]],
          matrixB := [[1, 0, 2], [0, 1, 0], [3, 0, 1]],
          resultMatrix := zeroMatrix 3 : SkotinMatrixMultiplicationTBBSeq ℤ } =
        Outcome.ok
          { taskData := { inputs := [], inputs_count := [], outputs := [], outputs_count := [] },
            matrixA := [[1, 2, 3], [4, 5, 6], [7, 8, 9]],
            matrixB := [[1, 0, 2], [0, 1, 0], [3, 0, 1]],
            resultMatrix := R } ∧
      SkotinMatrixMultiplicationTBBParallel.run [2, 0, 1]
        { taskData := { inputs := [], inputs_count := [], outputs := [], outputs_count := [] },
          matrixA := [[1, 2, 3], [4, 5, 6], [7, 8, 9]],
          matrixB := [[1, 0, 2], [0, 1, 0], [3, 0, 1]],
          resultMatrix := zeroMatrix 3 : SkotinMatrixMultiplicationTBBParallel ℤ } =
        some
          { taskData := { inputs := [], inputs_count := [], outputs := [], outputs_count := [] },
            matrixA := [[1, 2, 3], [4, 5, 6], [7, 8, 9]],
            matrixB := [[1, 0, 2], [0, 1, 0], [3, 0, 1]],
            resultMatrix := R } :=
  parallel_run_equals_seq_run (α := ℤ) 3 3
    { taskData := { inputs := [], inputs_count := [], outputs := [], outputs_count := [] },
      matrixA := [[1, 2, 3], [4, 5, 6], [7, 8, 9]],
      matrixB := [[1, 0, 2], [0, 1, 0], [3, 0, 1]],
      resultMatrix := zeroMatrix 3 }
    { taskData := { inputs := [], inputs_count := [], outputs := [], outputs_count := [] },
      matrixA := [[1, 2, 3], [4, 5, 6], [7, 8, 9]],
      matrixB := [[1, 0, 2], [0, 1, 0], [3, 0, 1]],
      resultMatrix := zeroMatrix 3 }
    [2, 0, 1] (by decide) (by decide) (by decide) ⟨by decide, by decide⟩
    ⟨by decide, by decide⟩ rfl rfl rfl rfl

/-- The parallel run of C26 under the order 2, 0, 1, evaluated. -/
theorem parallel_run_example :
    (SkotinMatrixMultiplicationTBBParallel.run [2, 0, 1]
        { taskData := { inputs := [], inputs_count := [], outputs := [], outputs_count := [] },
          matrixA := [[1, 2, 3], [4, 5, 6], [7, 8, 9]],
          matrixB := [[1, 0, 2], [0, 1, 0], [3, 0, 1]],
          resultMatrix := zeroMatrix 3 :
          SkotinMatrixMultiplicationTBBParallel ℤ }).map
        (fun t => t.resultMatrix) = some [[10, 2, 5], [22, 5, 14], [34, 8, 23]] := by
  decide

/-- C27: `SkotinMatrixMultiplicationTBBSeq::validation` looks only at the
loaded matrices. It returns `false` for every state in which `matrixA` or
`matrixB` is empty, in particular on a fresh task whatever its task data; and
it returns `true` in the state left by a `pre_processing` that returned
`true` with matrix size at least 1, when the rows `matrixA` held before
(none on a fresh task) had that size. The rows of `matrixA` then again have
that size. -/
theorem validation_reads_loaded_matrices {α : Type} [Zero α]
    (t t1 : SkotinMatrixMultiplicationTBBSeq α) (count0 : Nat)
    (hc : t.taskData.inputs_count[0]? = some count0)
    (hn : 1 ≤ sqrt (count0 / sizeofDouble))
    (hrows : ∀ row, row ∈ t.matrixA → row.length = sqrt (count0 / sizeofDouble))
    (hpre : t.pre_processing = some (true, t1)) :
    t1.validation = some true ∧
      (∀ row, row ∈ t1.matrixA → row.length = sqrt (count0 / sizeofDouble)) ∧
      (∀ s : SkotinMatrixMultiplicationTBBSeq α,
        s.matrixA = [] ∨ s.matrixB = [] → s.validation = some false) ∧
      (SkotinMatrixMultiplicationTBBSeq.fresh t.taskData).validation = some false := by
  obtain ⟨dataA, dataB, hA, hB, _, _⟩ := pre_processing_true t t1 count0 hc hpre
  have hlenA := loadMatrix_length dataA t.matrixA _ t1.matrixA hA
  have hlenB := loadMatrix_length dataB t.matrixB _ t1.matrixB hB
  have hrowsA := loadMatrix_rows dataA t.matrixA _ t1.matrixA hrows hA
  have hempty : ∀ s : SkotinMatrixMultiplicationTBBSeq α,
      s.matrixA = [] ∨ s.matrixB = [] → s.validation = some false := by
    intro s hs
    unfold SkotinMatrixMultiplicationTBBSeq.validation
    rcases hs with h | h <;> simp [h]
  refine ⟨?_, hrowsA, hempty, hempty _ (Or.inl rfl)⟩
  have h0 : 0 < t1.matrixA.length := by omega
  have hrow0 : t1.matrixA[0]? = some (t1.matrixA[0]) := List.getElem?_eq_getElem h0
  have hw : (t1.matrixA[0]).length = t1.matrixB.length := by
    rw [hrowsA _ (List.getElem_mem h0), hlenB]
  have hA0 : t1.matrixA.isEmpty = false := by
    cases hm : t1.matrixA with
    | nil => rw [hm] at h0; simp at h0
    | cons x xs => rfl
  have hB0 : t1.matrixB.isEmpty = false := by
    cases hm : t1.matrixB with
    | nil => rw [hm] at hlenB; simp at hlenB; omega
    | cons x xs => rfl
  unfold SkotinMatrixMultiplicationTBBSeq.validation
  simp [hA0, hB0, hrow0, hw]

/-- C27, evaluated: a fresh task over two `2 × 2` buffers of 32 bytes each. -/
theorem validation_reads_loaded_matrices_witness :
    SkotinMatrixMultiplicationTBBSeq.validation
        ({ taskData := ⟨[[1, 2, 3, 4], [5, 6, 7, 8]], [32, 32], [[0, 0, 0, 0]], [32]⟩,
           matrixA := [[1, 2], [3, 4]], matrixB := [[5, 6], [7, 8]],
           resultMatrix := [[0, 0], [0, 0]] } : SkotinMatrixMultiplicationTBBSeq ℤ) =
        some true ∧
      (∀ row, row ∈ [[(1 : ℤ), 2], [3, 4]] → row.length = sqrt (32 / sizeofDouble)) ∧
      (∀ s : SkotinMatrixMultiplicationTBBSeq ℤ,
        s.matrixA = [] ∨ s.matrixB = [] → s.validation = some false) ∧
      (SkotinMatrixMultiplicationTBBSeq.fresh
        (⟨[[1, 2, 3, 4], [5, 6, 7, 8]], [32, 32], [[0, 0, 0, 0]], [32]⟩ : TaskData ℤ)).validation =
        some false :=
  validation_reads_loaded_matrices (α := ℤ)
    (SkotinMatrixMultiplicationTBBSeq.fresh
      ⟨[[1, 2, 3, 4], [5, 6, 7, 8]], [32, 32], [[0, 0, 0, 0]], [32]⟩)
    { taskData := ⟨[[1, 2, 3, 4], [5, 6, 7, 8]], [32, 32], [[0, 0, 0, 0]], [32]⟩,
      matrixA := [[1, 2], [3, 4]], matrixB := [[5, 6], [7, 8]],
      resultMatrix := [[0, 0], [0, 0]] }
    32 rfl (by decide) (by decide) (by decide)

/-- A task object used twice. A fresh task over `3 × 3` buffers (72 bytes
each) is pre-processed; its task data is then replaced by `2 × 2` buffers (32
bytes each) and `pre_processing` runs again. The second call returns `true`
with matrix size 2, `resize` keeps the first two rows of `matrixA` with their
3 elements, and `validation` returns `false` since 3 is not 2. -/
theorem validation_false_after_smaller_pre_processing :
    ((SkotinMatrixMultiplicationTBBSeq.pre_processing
        (SkotinMatrixMultiplicationTBBSeq.fresh
          (⟨[[1, 0, 0, 0, 1, 0, 0, 0, 1], [1, 0, 0, 0, 1, 0, 0, 0, 1]], [72, 72],
            [[0, 0, 0, 0, 0, 0, 0, 0, 0]], [72]⟩ : TaskData ℤ))).bind
      fun r3 =>
        SkotinMatrixMultiplicationTBBSeq.pre_processing
          { r3.2 with
            taskData := ⟨[[1, 2, 3, 4], [5, 6, 7, 8]], [32, 32], [[0, 0, 0, 0]], [32]⟩ }).map
        (fun r2 => r2.1) = some true ∧
    ((SkotinMatrixMultiplicationTBBSeq.pre_processing
        (SkotinMatrixMultiplicationTBBSeq.fresh
          (⟨[[1, 0, 0, 0, 1, 0, 0, 0, 1], [1, 0, 0, 0, 1, 0, 0, 0, 1]], [72, 72],
            [[0, 0, 0, 0, 0, 0, 0, 0, 0]], [72]⟩ : TaskData ℤ))).bind
      fun r3 =>
        SkotinMatrixMultiplicationTBBSeq.pre_processing
          { r3.2 with
            taskData := ⟨[[1, 2, 3, 4], [5, 6, 7, 8]], [32, 32], [[0, 0, 0, 0]], [32]⟩ }).map
        (fun r2 => r2.2.matrixA) = some [[1, 2, 0], [3, 4, 0]] ∧
    ((SkotinMatrixMultiplicationTBBSeq.pre_processing
        (SkotinMatrixMultiplicationTBBSeq.fresh
          (⟨[[1, 0, 0, 0, 1, 0, 0, 0, 1], [1, 0, 0, 0, 1, 0, 0, 0, 1]], [72, 72],
            [[0, 0, 0, 0, 0, 0, 0, 0, 0]], [72]⟩ : TaskData ℤ))).bind
      fun r3 =>
        SkotinMatrixMultiplicationTBBSeq.pre_processing
          { r3.2 with
            taskData := ⟨[[1, 2, 3, 4], [5, 6, 7, 8]], [32, 32], [[0, 0, 0, 0]], [32]⟩ }).map
        (fun r2 => r2.2.matrixB.length) = some 2 ∧
    ((SkotinMatrixMultiplicationTBBSeq.pre_processing
        (SkotinMatrixMultiplicationTBBSeq.fresh
          (⟨[[1, 0, 0, 0, 1, 0, 0, 0, 1], [1, 0, 0, 0, 1, 0, 0, 0, 1]], [72, 72],
            [[0, 0, 0, 0, 0, 0, 0, 0, 0]], [72]⟩ : TaskData ℤ))).bind
      fun r3 =>
        SkotinMatrixMultiplicationTBBSeq.pre_processing
          { r3.2 with
            taskData := ⟨[[1, 2, 3, 4], [5, 6, 7, 8]], [32, 32], [[0, 0, 0, 0]], [32]⟩ }).bind
        (fun r2 => r2.2.validation) = some false := by
  decide

end Claims

end SkotinCannon
